import Mathlib

/-!
# philisp: the evaluator of `subr.c`, its environment, its printer and parser

A shallow embedding of `src/subr.c`: the tagged values, the split
lexical / global environment (`env_boundary`, `binding`, `bind`), the
function constructor `subr_fn`, the trampolined evaluator `eval` with its
three labels `eval`, `ret` and `apply`, the printer `print` and the parser
`read`.

Conventions of the embedding.

* A C `int` is an `Int`; results that are stored in 32 bits are reduced with
  `wrap32` (two's complement), and `x << n` with `n < 32` is `x * 2 ^ n`
  reduced the same way.  A shift by 32 bits or more, which C leaves undefined,
  is the outcome `undefined`.
* Cons cells that the interpreter mutates in place through `setcdr` (the
  binding cells `(name . value)` and the head cell of the global list) keep
  their `cdr` field in a store, `State.cells`, and are referred to by address
  (`lobj.cell`), so that every list sharing such a cell sees the mutation.
  Their `car` field, the spines of the environment lists, program text and
  argument lists are never mutated by the code embedded here and are
  structural.
* A stream is the list of its bytes: the input port is the list of the bytes
  not read yet, and `print` returns the bytes it writes.  A character held in a
  C `int` is an `Int`, so that `EOF` and the codes -2 and -3 of
  `get_literal_char` are values of it.
* The frames of the call stack and the partial applications are values; the C
  code updates them in place, but only the frame on top of the stack and the
  partial application it holds.  A continuation holds the frames as they were
  when it was made; in C a continuation that is called after one of its frames
  was on top again sees that frame as updated.
* Arrays and strings are values too.  The one primitive embedded here that
  assigns to a slot, `subr_aset`, is given as the pair of its result and of
  the array as the call leaves it, and `call_subr` does not run it.
* `philisp.h` and `subr.h` are not part of the sources at hand.  What is taken
  from them (the accessors, the partial-application object, the `DEFSUBR`
  descriptor) is marked `Modelled from the spec:`.
-/

namespace Philisp

/-! ## Values -/

/-- The primitives defined with `DEFSUBR` in `subr.c`, one constructor per
C function. -/
inductive lsubr
  | subr_nilp | subr_symbolp | subr_gensym | subr_intern
  | subr_bind | subr_bound_value
  | subr_charp | subr_char_to_int | subr_int_to_char
  | subr_integerp | subr_floatp
  | subr_mod | subr_quot | subr_round | subr_add | subr_mult | subr_sub | subr_div
  | subr_le | subr_lt | subr_ge | subr_gt
  | subr_streamp | subr_input_port | subr_output_port | subr_error_port
  | subr_set_ports | subr_getc | subr_putc | subr_puts | subr_ungetc
  | subr_open | subr_close
  | subr_consp | subr_cons | subr_car | subr_cdr | subr_setcar | subr_setcdr
  | subr_arrayp | subr_make_array | subr_aref | subr_aset | subr_stringp
  | subr_functionp | subr_fn | subr_closurep | subr_closure
  | subr_subrp | subr_dlsubr | subr_continuationp
  | subr_eq | subr_char_eq | subr_num_eq
  | subr_print | subr_read
  | subr_if | subr_evlis | subr_apply | subr_unwind_protect | subr_call_cc
  | subr_eval | subr_error | subr_quote
  deriving DecidableEq, Repr

/-- The tagged value `lobj`.  `NIL` is the null object; `symbol name` is
`intern(name)`, `usymbol id` an uninterned symbol made by `symbol()`;
`cell a addr` is a cons cell with `car` field `a` whose `cdr` field is held in
the store at address `addr`. -/
inductive lobj
  | NIL
  | symbol (name : String)
  | usymbol (id : Nat)
  | character (c : Nat)
  | integer (v : Int)
  | floating (v : Rat)
  | stream (fd : Nat)
  | cons (a d : lobj)
  | cell (a : lobj) (addr : Nat)
  | array (elems : lobj)
  | string (bytes : List Nat)
  | function (args : Int) (formals expr : lobj)
  | closure (fn lenv genv : lobj)
  | subr (s : lsubr)
  | continuation (callstack : lobj)
  | pa (pattern : Int) (func vals : lobj)
  deriving Repr

open lobj

/-- Structural equality of two values, computed constructor by constructor. -/
def lobj.same : lobj → lobj → Bool
  | NIL, b => match b with
    | NIL => true
    | _ => false
  | symbol x, b => match b with
    | symbol y => decide (x = y)
    | _ => false
  | usymbol x, b => match b with
    | usymbol y => decide (x = y)
    | _ => false
  | character x, b => match b with
    | character y => decide (x = y)
    | _ => false
  | integer x, b => match b with
    | integer y => decide (x = y)
    | _ => false
  | floating x, b => match b with
    | floating y => decide (x = y)
    | _ => false
  | stream x, b => match b with
    | stream y => decide (x = y)
    | _ => false
  | cons x y, b => match b with
    | cons x2 y2 => lobj.same x x2 && lobj.same y y2
    | _ => false
  | cell x i, b => match b with
    | cell x2 j => lobj.same x x2 && decide (i = j)
    | _ => false
  | array x, b => match b with
    | array y => lobj.same x y
    | _ => false
  | string x, b => match b with
    | string y => decide (x = y)
    | _ => false
  | function n f e, b => match b with
    | function m g h => decide (n = m) && lobj.same f g && lobj.same e h
    | _ => false
  | lobj.closure f l g, b => match b with
    | lobj.closure f2 l2 g2 => lobj.same f f2 && lobj.same l l2 && lobj.same g g2
    | _ => false
  | subr s, b => match b with
    | subr t => decide (s = t)
    | _ => false
  | continuation c, b => match b with
    | continuation d => lobj.same c d
    | _ => false
  | pa p f v, b => match b with
    | pa q g w => decide (p = q) && lobj.same f g && lobj.same v w
    | _ => false

/-- Two values are structurally equal exactly when `lobj.same` says so. -/
theorem lobj.same_iff : ∀ (a b : lobj), lobj.same a b = true ↔ a = b := by
  intro a
  induction a with
  | NIL =>
    intro b
    cases b <;> first
      | exact ⟨fun h => Bool.noConfusion h, fun h => lobj.noConfusion h⟩
      | exact ⟨fun _ => rfl, fun _ => rfl⟩
  | symbol x =>
    intro b
    cases b <;> first
      | exact ⟨fun h => Bool.noConfusion h, fun h => lobj.noConfusion h⟩
      | (show decide (x = _) = true ↔ _; simp)
  | usymbol x =>
    intro b
    cases b <;> first
      | exact ⟨fun h => Bool.noConfusion h, fun h => lobj.noConfusion h⟩
      | (show decide (x = _) = true ↔ _; simp)
  | character x =>
    intro b
    cases b <;> first
      | exact ⟨fun h => Bool.noConfusion h, fun h => lobj.noConfusion h⟩
      | (show decide (x = _) = true ↔ _; simp)
  | integer x =>
    intro b
    cases b <;> first
      | exact ⟨fun h => Bool.noConfusion h, fun h => lobj.noConfusion h⟩
      | (show decide (x = _) = true ↔ _; simp)
  | floating x =>
    intro b
    cases b <;> first
      | exact ⟨fun h => Bool.noConfusion h, fun h => lobj.noConfusion h⟩
      | (show decide (x = _) = true ↔ _; simp)
  | stream x =>
    intro b
    cases b <;> first
      | exact ⟨fun h => Bool.noConfusion h, fun h => lobj.noConfusion h⟩
      | (show decide (x = _) = true ↔ _; simp)
  | cons x y ihx ihy =>
    intro b
    cases b <;> first
      | exact ⟨fun h => Bool.noConfusion h, fun h => lobj.noConfusion h⟩
      | (show (lobj.same x _ && lobj.same y _) = true ↔ _; simp [ihx, ihy])
  | cell x i ihx =>
    intro b
    cases b <;> first
      | exact ⟨fun h => Bool.noConfusion h, fun h => lobj.noConfusion h⟩
      | (show (lobj.same x _ && decide (i = _)) = true ↔ _; simp [ihx])
  | array x ihx =>
    intro b
    cases b <;> first
      | exact ⟨fun h => Bool.noConfusion h, fun h => lobj.noConfusion h⟩
      | (show lobj.same x _ = true ↔ _; simp [ihx])
  | string x =>
    intro b
    cases b <;> first
      | exact ⟨fun h => Bool.noConfusion h, fun h => lobj.noConfusion h⟩
      | (show decide (x = _) = true ↔ _; simp)
  | function n f e ihf ihe =>
    intro b
    cases b <;> first
      | exact ⟨fun h => Bool.noConfusion h, fun h => lobj.noConfusion h⟩
      | (show (decide (n = _) && lobj.same f _ && lobj.same e _) = true ↔ _
         simp [ihf, ihe, and_assoc])
  | closure f l g ihf ihl ihg =>
    intro b
    cases b <;> first
      | exact ⟨fun h => Bool.noConfusion h, fun h => lobj.noConfusion h⟩
      | (show (lobj.same f _ && lobj.same l _ && lobj.same g _) = true ↔ _
         simp [ihf, ihl, ihg, and_assoc])
  | subr x =>
    intro b
    cases b <;> first
      | exact ⟨fun h => Bool.noConfusion h, fun h => lobj.noConfusion h⟩
      | (show decide (x = _) = true ↔ _; simp)
  | continuation x ihx =>
    intro b
    cases b <;> first
      | exact ⟨fun h => Bool.noConfusion h, fun h => lobj.noConfusion h⟩
      | (show lobj.same x _ = true ↔ _; simp [ihx])
  | pa p f v ihf ihv =>
    intro b
    cases b <;> first
      | exact ⟨fun h => Bool.noConfusion h, fun h => lobj.noConfusion h⟩
      | (show (decide (p = _) && lobj.same f _ && lobj.same v _) = true ↔ _
         simp [ihf, ihv, and_assoc])

/-- Equality of values is decided by `lobj.same`.  On symbols and immediate
values it is the pointer equality `==` of the source, which the code embedded
here applies to the names of bindings and to `NIL`. -/
instance : DecidableEq lobj := fun a b => decidable_of_iff _ (lobj.same_iff a b)

/-- The interpreter's global variables `local_env`, `global_env`,
`callstack`, together with the store of the mutable `cdr` fields (listed from
the newest cell to the oldest, the cell of address `i` being the `i`-th
allocated) and the counter from which `symbol()` draws fresh symbols. -/
structure State where
  local_env : lobj
  global_env : lobj
  callstack : lobj
  cells : List lobj
  next_symbol : Nat
  deriving DecidableEq, Repr

/-! ## Accessors -/

/-- Modelled from the spec: the predicate `symbolp` of `philisp.h`. -/
def symbolp : lobj → Bool
  | symbol _ => true
  | usymbol _ => true
  | _ => false

/-- Modelled from the spec: the predicate `consp` of `philisp.h`. -/
def consp : lobj → Bool
  | cons _ _ => true
  | cell _ _ => true
  | _ => false

/-- Modelled from the spec: the predicate `integerp` of `philisp.h`. -/
def integerp : lobj → Bool
  | integer _ => true
  | _ => false

/-- Modelled from the spec: the predicate `floatingp` of `philisp.h`. -/
def floatingp : lobj → Bool
  | floating _ => true
  | _ => false

/-- Modelled from the spec: the accessor `car` of `philisp.h`; `car(NIL)` is
`NIL`, as the source relies on throughout. -/
def car : lobj → lobj
  | cons a _ => a
  | cell a _ => a
  | _ => NIL

/-- The content of the store at an address. -/
def load (cells : List lobj) (addr : Nat) : lobj :=
  cells.getD (cells.length - 1 - addr) NIL

/-- The store with the content at an address replaced. -/
def store (cells : List lobj) (addr : Nat) (value : lobj) : List lobj :=
  cells.set (cells.length - 1 - addr) value

/-- Modelled from the spec: the accessor `cdr` of `philisp.h`. -/
def cdr (st : State) : lobj → lobj
  | cons _ d => d
  | cell _ i => load st.cells i
  | _ => NIL

/-- Modelled from the spec: the mutator `setcdr` of `philisp.h`, on a cell of
the store. -/
def setcdr (st : State) (b value : lobj) : State :=
  match st, b with
  | ⟨lenv, genv, stack, cells, n⟩, cell _ i => ⟨lenv, genv, stack, store cells i value, n⟩
  | st, _ => st

/-- Allocation of a mutable cons cell `cons(a, d)` in the store. -/
def alloc (st : State) (a d : lobj) : lobj × State :=
  match st with
  | ⟨lenv, genv, stack, cells, n⟩ => (cell a cells.length, ⟨lenv, genv, stack, d :: cells, n⟩)

/-! ## Environment (`subr.c`, lines 13-58) -/

/-- The function `env_boundary`: push a boundary marker on the lexical chain. -/
def env_boundary (st : State) : State :=
  match st with
  | ⟨lenv, genv, stack, cells, n⟩ => ⟨cons NIL lenv, genv, stack, cells, n⟩

/-- The second loop of `binding`: the scan of the global list. -/
def binding_global (o : lobj) : lobj → lobj
  | cons b rest => if car b = o then b else binding_global o rest
  | _ => NIL

/-- The first loop of `binding`: the scan of the lexical chain; at its end the
scan goes on with the global list `cdr(global_env)`. -/
def binding_local (st : State) (o : lobj) (loc : Int) : lobj → lobj
  | cons b rest =>
    if b = NIL ∧ loc ≠ 0 then NIL
    else if b ≠ NIL ∧ car b = o then b
    else binding_local st o loc rest
  | _ => binding_global o (cdr st st.global_env)

/-- The function `binding(o, local)`: the binding cell of `o`, or `NIL`. -/
def binding (st : State) (o : lobj) (loc : Int) : lobj :=
  binding_local st o loc st.local_env

/-- The function `bind(o, value, local)`: mutate the binding that
`binding(o, local)` finds, or add a new one at the head of the lexical chain
(non-zero `local`) or of the global list. -/
def bind (o value : lobj) (loc : Int) (st : State) : State :=
  match binding st o loc with
  | NIL =>
    if loc ≠ 0 then
      match alloc st o value with
      | (c, ⟨lenv, genv, stack, cells, n⟩) => ⟨cons c lenv, genv, stack, cells, n⟩
    else
      match alloc st o value with
      | (c, st1) => setcdr st1 st1.global_env (cons c (cdr st1 st1.global_env))
  | b => setcdr st b value

/-! ## Machine integers -/

/-- Reduction of an integer to the 32-bit two's complement range of a C
`int`. -/
def wrap32 (x : Int) : Int := (x + 2147483648) % 4294967296 - 2147483648

/-- The C expression `x << n` on `int`, for a shift count below 32.  C leaves the
shift of an `int` by 32 bits or more undefined (processors differ on it), so
the count is a `Fin 32`, and the one expression of the source whose count can
reach 32, `~0 << (9 + len)` in `subr_fn`, tests the count first. -/
def shl32 (x : Int) (n : Fin 32) : Int := wrap32 (x * 2 ^ n.val)

/-- The `int` whose bits are set from bit `n` up: no bit from `n = 32` on. -/
def bits_from (n : Nat) : Int := wrap32 (-(2 ^ n))

/-- The bit pattern of a C `int`, read as an unsigned 32-bit number. -/
def bits32 (x : Int) : Nat := (x % 4294967296).toNat

/-- The C expression `x | y` on `int`. -/
def or32 (x y : Int) : Int := wrap32 ((bits32 x ||| bits32 y : Nat) : Int)

/-- The C expression `x & y` on `int`. -/
def and32 (x y : Int) : Int := wrap32 ((bits32 x &&& bits32 y : Nat) : Int)

/-- The value of an `unsigned char` after it was incremented. -/
def incr_uchar (len : Nat) : Nat := (len + 1) % 256

/-! ## Outcomes -/

/-- What a call of a primitive or of `eval` comes to: a value together with
the state it leaves, one of the three fatal errors (the process exits), or no
answer within the fuel given.  `undefined` marks an operation that C leaves
undefined (the read of an uninitialised variable, a division by zero, a shift
of an `int` by 32 bits or more), `unmodelled` a primitive that is not
embedded. -/
inductive Result
  | value (o : lobj) (st : State)
  | lisp_error (msg : String)
  | type_error (name : String) (ix : Nat) (expected : String)
  | internal_error (msg : String)
  | out_of_fuel
  | undefined (what : String)
  | unmodelled (s : lsubr)
  deriving DecidableEq, Repr

/-! ## Lists and partial applications -/

/-- The list `(x1 ... xn . tail)`. -/
def list_with_tail : List lobj → lobj → lobj
  | [], t => t
  | x :: xs, t => cons x (list_with_tail xs t)

/-- The proper list `(x1 ... xn)`. -/
def list (xs : List lobj) : lobj := list_with_tail xs NIL

/-- Number of cells of the spine of a list. -/
def length : lobj → Nat
  | cons _ d => length d + 1
  | _ => 0

/-- The list `xs` with `o` added at its end. -/
def snoc : lobj → lobj → lobj
  | cons a d, o => cons a (snoc d o)
  | _, o => cons o NIL

/-- Modelled from the spec: the constructor `pa(pattern, func)` of `philisp.h`,
a partial application with no value yet. -/
def mk_pa (pattern : Int) (func : lobj) : lobj := pa pattern func NIL

/-- Modelled from the spec: `pa_push` of `philisp.h` appends a value and
consumes one bit of the cached eval pattern. -/
def pa_push : lobj → lobj → lobj
  | pa pattern func vals, o => pa (pattern >>> 1) func (snoc vals o)
  | x, _ => x

/-- Modelled from the spec: `pa_set_function` of `philisp.h`. -/
def pa_set_function : lobj → lobj → lobj
  | pa pattern _ vals, f => pa pattern f vals
  | x, _ => x

/-- Modelled from the spec: `pa_eval_pattern` of `philisp.h`. -/
def pa_eval_pattern : lobj → Int
  | pa pattern _ _ => pattern
  | _ => 0

/-! ## Arity descriptors -/

/-- The eval bits of a list of positions, the first position in bit 0. -/
def pattern_bits : List Bool → Int
  | [] => 0
  | b :: bs => (if b then 1 else 0) + 2 * pattern_bits bs

/-- Modelled from the spec: the descriptor that `DEFSUBR(name, args, rest)` of
`subr.h` gives a primitive: the number of positions in the low 8 bits, the
variadic flag in bit 8, the eval bits from bit 9 up, all further bits set when
the rest arguments are evaluated (`E` is `true`, `Q` is `false`, `_` is an
empty list or `none`). -/
def descriptor (args : List Bool) (rest : Option Bool) : Int :=
  let base := or32 (shl32 (pattern_bits args) 9) args.length
  match rest with
  | none => base
  | some false => or32 base 256
  | some true => or32 (bits_from (9 + args.length)) (or32 base 256)

/-- The descriptor of each primitive, from its `DEFSUBR` line. -/
def subr_args : lsubr → Int
  | .subr_nilp => descriptor [true] none
  | .subr_symbolp => descriptor [true] none
  | .subr_gensym => descriptor [] none
  | .subr_intern => descriptor [true] none
  | .subr_bind => descriptor [true, true] (some true)
  | .subr_bound_value => descriptor [true] (some true)
  | .subr_charp => descriptor [true] none
  | .subr_char_to_int => descriptor [true] none
  | .subr_int_to_char => descriptor [true] none
  | .subr_integerp => descriptor [true] none
  | .subr_floatp => descriptor [true] none
  | .subr_mod => descriptor [true, true] none
  | .subr_quot => descriptor [true] (some true)
  | .subr_round => descriptor [true] none
  | .subr_add => descriptor [] (some true)
  | .subr_mult => descriptor [] (some true)
  | .subr_sub => descriptor [true] (some true)
  | .subr_div => descriptor [true] (some true)
  | .subr_le => descriptor [] (some true)
  | .subr_lt => descriptor [] (some true)
  | .subr_ge => descriptor [] (some true)
  | .subr_gt => descriptor [] (some true)
  | .subr_streamp => descriptor [true] none
  | .subr_input_port => descriptor [] none
  | .subr_output_port => descriptor [] none
  | .subr_error_port => descriptor [] none
  | .subr_set_ports => descriptor [] (some true)
  | .subr_getc => descriptor [] (some true)
  | .subr_putc => descriptor [true] (some true)
  | .subr_puts => descriptor [true] (some true)
  | .subr_ungetc => descriptor [true] (some true)
  | .subr_open => descriptor [true] (some true)
  | .subr_close => descriptor [true] (some true)
  | .subr_consp => descriptor [true] none
  | .subr_cons => descriptor [true, true] none
  | .subr_car => descriptor [true] none
  | .subr_cdr => descriptor [true] none
  | .subr_setcar => descriptor [true, true] none
  | .subr_setcdr => descriptor [true, true] none
  | .subr_arrayp => descriptor [true] none
  | .subr_make_array => descriptor [true] (some true)
  | .subr_aref => descriptor [true, true] none
  | .subr_aset => descriptor [true, true] none
  | .subr_stringp => descriptor [true] none
  | .subr_functionp => descriptor [true] none
  | .subr_fn => descriptor [false, false] none
  | .subr_closurep => descriptor [true] none
  | .subr_closure => descriptor [true] none
  | .subr_subrp => descriptor [true] none
  | .subr_dlsubr => descriptor [true] (some true)
  | .subr_continuationp => descriptor [true] none
  | .subr_eq => descriptor [] (some true)
  | .subr_char_eq => descriptor [] (some true)
  | .subr_num_eq => descriptor [] (some true)
  | .subr_print => descriptor [true] none
  | .subr_read => descriptor [] (some true)
  | .subr_if => descriptor [true, false, false] none
  | .subr_evlis => descriptor [true, true] none
  | .subr_apply => descriptor [true, true] none
  | .subr_unwind_protect => descriptor [false, false] none
  | .subr_call_cc => descriptor [true] none
  | .subr_eval => descriptor [true] (some true)
  | .subr_error => descriptor [true] none
  | .subr_quote => descriptor [false] none

/-- The expression `num_args & 255`: the minimum argument count of a
descriptor. -/
def min_args (num_args : Int) : Int := num_args % 256

/-- The expression `num_args & 256`: the variadic flag of a descriptor. -/
def variadic (num_args : Int) : Bool := (num_args / 256) % 2 = 1

/-- The function `eval_pattern(o)`: the eval bits of a callable; all ones for any other
object. -/
def eval_pattern : lobj → Int
  | function args _ _ => args >>> 9
  | lobj.closure (function args _ _) _ _ => args >>> 9
  | lobj.closure _ _ _ => 0
  | subr s => subr_args s >>> 9
  | continuation _ => 1
  | pa pattern _ _ => pattern
  | _ => -1

/-! ## The function constructor (`subr.c`, lines 878-952) -/

/-- The `while(formals)` loop of `subr_fn`.  `names` are the formals collected
so far (the list between `head` and `tail`), `pattern`, `mask` and `len` the
C variables of the same names, `body` is `car(cdr(args))`.  At a rest symbol
the source computes `~0 << (9 + len)`, which C leaves undefined from
`len = 23` on. -/
def subr_fn_loop (st : State) (body : lobj) :
    lobj → List lobj → Int → Int → Nat → Result
  | NIL, names, pattern, _, len =>
    .value (function (or32 (shl32 pattern 9) len) (list names) body) st
  | cons f rest, names, pattern, mask, len =>
    if f = symbol "eval" then
      let s := car rest
      if symbolp s then
        .value (function (or32 (or32 (shl32 pattern 9) 256) len)
          (list_with_tail names s) body) st
      else .lisp_error "invalid syntax in subr \"fn\"."
    else if !consp f then
      subr_fn_loop st body rest (names ++ [f])
        (or32 pattern (and32 mask (-1))) (shl32 mask 1) (incr_uchar len)
    else if car f = symbol "eval" ∧ symbolp (car (cdr st f)) then
      subr_fn_loop st body rest (names ++ [car (cdr st f)]) pattern mask (incr_uchar len)
    else .lisp_error "invalid syntax in subr \"fn\"."
  | x, names, pattern, _, len =>
    if h : 9 + len < 32 then
      .value (function
        (or32 (or32 (or32 (shl32 (-1) ⟨9 + len, h⟩) (shl32 pattern 9)) 256) len)
        (list_with_tail names x) body) st
    else .undefined "shift of an int by 32 bits or more"

/-- The primitive `subr_fn`: `(fn ,FORMALS ,EXPR)`. -/
def subr_fn (args : lobj) (st : State) : Result :=
  let formals := car args
  let body := car (cdr st args)
  if formals = NIL then .value (function 0 NIL body) st
  else if !consp formals then .value (function (shl32 (-1) 8) formals body) st
  else if car formals = symbol "eval" then
    let s := car (cdr st formals)
    if symbolp s then .value (function 256 s body) st
    else .lisp_error "invalid syntax in subr \"fn\"."
  else if !consp (car formals) then
    subr_fn_loop st body (cdr st formals) [car formals] 1 2 1
  else if car (car formals) = symbol "eval"
      ∧ symbolp (car (cdr st (car formals))) then
    subr_fn_loop st body (cdr st formals) [car (cdr st (car formals))] 0 2 1
  else .lisp_error "invalid syntax in subr \"fn\"."

/-! ## Arithmetic and comparison primitives (`subr.c`, lines 191-483) -/

/-- The function `all_integerp`: whether every element of the list is an
integer. -/
def all_integerp : lobj → Bool
  | cons a d => if integerp a then all_integerp d else false
  | _ => true

/-- Modelled from the spec: the accessor `integer_value` of `philisp.h`. -/
def integer_value : lobj → Int
  | integer v => v
  | _ => 0

/-- The numeric value of an integer or a float, as the C code reads it into a
`double`. -/
def number_value : lobj → Rat
  | integer v => v
  | floating v => v
  | _ => 0

/-- The integer loop of `subr_add`: `sum += integer_value(car(args))`. -/
def add_integers : lobj → Int → Int
  | cons a d, sum => add_integers d (wrap32 (sum + integer_value a))
  | _, sum => sum

/-- The integer loop of `subr_mult`. -/
def mult_integers : lobj → Int → Int
  | cons a d, prod => mult_integers d (wrap32 (prod * integer_value a))
  | _, prod => prod

/-- The integer loop of `subr_sub`. -/
def sub_integers : lobj → Int → Int
  | cons a d, res => sub_integers d (wrap32 (res - integer_value a))
  | _, res => res

/-- The `while(args)` loop of the float branch of `subr_add`, `subr_mult` and
`subr_sub`: its body never advances `args`, so the accumulated number
(combined by `op`) is returned only when `args` is empty on entry. -/
def float_loop (name : String) (op : Rat → Rat → Rat) (st : State) (args : lobj) :
    Nat → Rat → Nat → Result
  | 0, _, _ => .out_of_fuel
  | fuel + 1, acc, ix =>
    if args = NIL then .value (floating acc) st
    else if integerp (car args) ∨ floatingp (car args) then
      float_loop name op st args fuel (op acc (number_value (car args))) (ix + 1)
    else .type_error name ix "number"

/-- The primitive `subr_add`: `(+ NUM1 ...)`. -/
def subr_add (fuel : Nat) (args : lobj) (st : State) : Result :=
  if all_integerp args then .value (integer (add_integers args 0)) st
  else float_loop "subr \"+\"" (· + ·) st args fuel 0 0

/-- The primitive `subr_mult`: `(* NUM1 ...)`. -/
def subr_mult (fuel : Nat) (args : lobj) (st : State) : Result :=
  if all_integerp args then .value (integer (mult_integers args 1)) st
  else float_loop "subr \"*\"" (· * ·) st args fuel 1 0

/-- The primitive `subr_sub`: `(- NUM1 NUM2 ...)`. -/
def subr_sub (fuel : Nat) (args : lobj) (st : State) : Result :=
  if cdr st args ≠ NIL then
    if all_integerp args then
      .value (integer (sub_integers (cdr st args) (integer_value (car args)))) st
    else if integerp (car args) ∨ floatingp (car args) then
      float_loop "subr \"-\"" (· - ·) st (cdr st args) fuel (number_value (car args)) 1
    else .type_error "subr \"-\"" 0 "number"
  else
    match car args with
    | integer v => .value (integer (wrap32 (-v))) st
    | floating v => .value (floating (-v)) st
    | _ => .type_error "subr \"-\"" 0 "number"

/-- The `while(args)` loop of `DEFINE_ORD_SUBR`; `last` is `none` as long as
the C variable `last` has not been assigned. -/
def ord_loop (name : String) (cmpop : Rat → Rat → Bool) (st : State) :
    lobj → Rat → Nat → Option lobj → Result
  | cons a d, num1, ix, _ =>
    if integerp a ∨ floatingp a then
      if !(cmpop num1 (number_value a)) then .value NIL st
      else ord_loop name cmpop st d (number_value a) (ix + 1) (some (cons a d))
    else .type_error name ix "number"
  | _, _, _, l =>
    match l with
    | some p => .value (car p) st
    | none => .undefined "last"

/-- Modelled from the spec: the constructor `symbol()` of `philisp.h`, a fresh
uninterned symbol. -/
def fresh_symbol (st : State) : Result :=
  match st with
  | ⟨lenv, genv, stack, cells, n⟩ => .value (usymbol n) ⟨lenv, genv, stack, cells, n + 1⟩

/-- The primitives made by `DEFINE_ORD_SUBR(name, cmpop)`. -/
def ord_subr (name : String) (cmpop : Rat → Rat → Bool) (args : lobj) (st : State) : Result :=
  if args = NIL then fresh_symbol st
  else if integerp (car args) ∨ floatingp (car args) then
    ord_loop name cmpop st (cdr st args) (number_value (car args)) 1 none
  else .type_error name 0 "number"

/-- The `while(args)` loop of `subr_quot`: `val /= integer_value(car(args))`.
The quotient of two `int`s is truncated toward zero; C leaves the division by
zero and the division of the minimum `int` by -1 undefined.  `i` is the index
of the argument. -/
def quot_loop (st : State) : lobj → Int → Nat → Result
  | cons a d, val, i =>
    if integerp a then
      if integer_value a = 0 then .undefined "division by zero"
      else if val = -2147483648 ∧ integer_value a = -1 then
        .undefined "overflow of the quotient"
      else quot_loop st d (Int.tdiv val (integer_value a)) (i + 1)
    else .type_error "subr \"/\"" i "integer"
  | _, val, _ => .value (integer val) st

/-- The primitive `subr_quot`: `(/ INT1 INT2 ...)`. -/
def subr_quot (args : lobj) (st : State) : Result :=
  if integerp (car args) then quot_loop st (cdr st args) (integer_value (car args)) 1
  else .type_error "subr \"/\"" 0 "integer"

/-- The primitive `subr_div`: `(div NUM1 NUM2 ...)`.  Its loop is the loop of the
float branch of `subr_add`, with the division for `op`; its type errors name
the primitive `/`, as in the source.  The embedding has no infinite float:
the inverse of zero is left undefined. -/
def subr_div (fuel : Nat) (args : lobj) (st : State) : Result :=
  if cdr st args ≠ NIL then
    if integerp (car args) ∨ floatingp (car args) then
      float_loop "subr \"/\"" (· / ·) st (cdr st args) fuel (number_value (car args)) 1
    else .type_error "subr \"/\"" 0 "number"
  else
    match car args with
    | integer v => if v = 0 then .undefined "inverse of zero" else .value (floating (1 / v)) st
    | floating v => if v = 0 then .undefined "inverse of zero" else .value (floating (1 / v)) st
    | _ => .type_error "subr \"/\"" 0 "number"

/-! ## Characters and arrays (`subr.c`, lines 776-868 and 1054-1087) -/

/-- Modelled from the spec: the predicate `characterp` of `philisp.h`. -/
def characterp : lobj → Bool
  | character _ => true
  | _ => false

/-- Modelled from the spec: the accessor `character_value` of `philisp.h`, read
into a `char`: the eight bits of the character. -/
def character_value : lobj → Nat
  | character c => c % 256
  | _ => 0

/-- The `while(args)` loop of `subr_char_eq`; `last` is `none` as long as the
C variable `last` has not been assigned. -/
def char_eq_loop (st : State) : lobj → Nat → Nat → Option lobj → Result
  | cons a d, ch1, ix, _ =>
    if characterp a then
      if ch1 ≠ character_value a then .value NIL st
      else char_eq_loop st d (character_value a) (ix + 1) (some (cons a d))
    else .type_error "subr \"char=\"" ix "character"
  | _, _, _, l =>
    match l with
    | some p => .value (car p) st
    | none => .undefined "last"

/-- The primitive `subr_char_eq`: `(char= CH1 ...)`. -/
def subr_char_eq (args : lobj) (st : State) : Result :=
  if args = NIL then fresh_symbol st
  else if characterp (car args) then
    char_eq_loop st (cdr st args) (character_value (car args)) 1 none
  else .type_error "subr \"char=\"" 0 "character"

/-- Modelled from the spec: the predicate `stringp` of `philisp.h`. -/
def stringp : lobj → Bool
  | string _ => true
  | _ => false

/-- Modelled from the spec: the slot `array_ptr(a)[ix]` of an array, whose
slots the embedding keeps as a list. -/
def array_slot : lobj → Nat → lobj
  | cons a _, 0 => a
  | cons _ d, ix + 1 => array_slot d ix
  | _, _ => NIL

/-- The slots of an array after the assignment `array_ptr(a)[ix] = v`. -/
def array_store : lobj → Nat → lobj → lobj
  | cons _ d, 0, v => cons v d
  | cons a d, ix + 1, v => cons a (array_store d ix v)
  | l, _, _ => l

/-- The primitive `subr_aref`: `(aref ARRAY N)`.  The character made of a byte
of a string holds the eight bits of the byte. -/
def subr_aref (args : lobj) (st : State) : Result :=
  if !integerp (car (cdr st args)) then .type_error "subr \"aref\"" 1 "positive integer"
  else if integer_value (car (cdr st args)) < 0 then
    .type_error "subr \"aref\"" 1 "positive integer"
  else
    match car args with
    | array elems =>
      if length elems ≤ (integer_value (car (cdr st args))).toNat then
        .lisp_error "array boundary error"
      else .value (array_slot elems (integer_value (car (cdr st args))).toNat) st
    | string bs =>
      if bs.length ≤ (integer_value (car (cdr st args))).toNat then
        .lisp_error "array boundary error"
      else .value (character (bs.getD (integer_value (car (cdr st args))).toNat 0 % 256)) st
    | _ => .type_error "subr \"aref\"" 0 "array"

/-- Modelled from the spec: `string_to_array` of `philisp.h` turns a string
into the array of its characters. -/
def string_to_array : lobj → lobj
  | string bs => array (list (bs.map character))
  | o => o

/-- The primitive `subr_aset`: `(aset! ARRAY N O)`, as the source defines it
on the two arguments of its descriptor: the result of the call, and the object
`car(args)` as the call leaves it.  The embedding keeps arrays and strings as
values, so the assignment to the slot shows in the second component and not
in the state. -/
def subr_aset (args : lobj) (st : State) : Result × lobj :=
  match (if stringp (car args) && !characterp (car (cdr st args))
         then string_to_array (car args) else car args) with
  | a =>
    if !integerp (car (cdr st args)) then (.type_error "subr \"aset!\"" 1 "positive integer", a)
    else if integer_value (car (cdr st args)) < 0 then
      (.type_error "subr \"aset!\"" 1 "positive integer", a)
    else
      match a with
      | array elems =>
        if length elems ≤ (integer_value (car (cdr st args))).toNat then
          (.lisp_error "array boundary error", a)
        else
          (.value (car (cdr st args)) st,
            array (array_store elems (integer_value (car (cdr st args))).toNat
              (car (cdr st args))))
      | string bs =>
        if bs.length ≤ (integer_value (car (cdr st args))).toNat then
          (.lisp_error "array boundary error", a)
        else
          (.value (car (cdr st args)) st,
            string (bs.set (integer_value (car (cdr st args))).toNat
              (character_value (car (cdr st args)))))
      | _ => (.type_error "subr \"aset!\"" 0 "array", a)

/-! ## Environment primitives (`subr.c`, lines 123-156) and the rest -/

/-- Modelled from the spec: the constructor `string(str)` of `philisp.h`, the
bytes of a C string. -/
def mk_string (str : String) : lobj := string (str.toList.map Char.toNat)

/-- The form `(callback "message")` that a failing primitive hands to
`eval`. -/
def errorback_form (callback : lobj) (msg : String) : lobj :=
  cons callback (cons (mk_string msg) NIL)

/-- The primitive `subr_bind`: `(bind! O1 [O2])`. -/
def subr_bind (args : lobj) (st : State) : Result :=
  .value (car (cdr st args)) (bind (car args) (car (cdr st args)) 0 st)

/-- The primitive `subr_bound_value`: `(bound-value O [ERRORBACK])`; `ev o st` is the call
`eval(o, NIL)`. -/
def subr_bound_value (ev : lobj → State → Result) (args : lobj) (st : State) : Result :=
  let pair := binding st (car args) 0
  if pair ≠ NIL then .value (cdr st pair) st
  else if cdr st args ≠ NIL then
    ev (errorback_form (car (cdr st args)) "reference to unbound symbol.") st
  else .lisp_error "reference to unbound symbol."

/-- The primitive `subr_closure`: `(closure FN)`; the captured global environment is a new
head cell `cons(NIL, cdr(global_env))`. -/
def subr_closure (args : lobj) (st : State) : Result :=
  match alloc st NIL (cdr st st.global_env) with
  | (head, st1) => .value (lobj.closure (car args) st1.local_env head) st1

/-- The call `(subr_function(func))(vals)` of a primitive that the evaluator
does not intercept.  `ev o st` is the recursive call `eval(o, NIL)`. -/
def call_subr (fuel : Nat) (ev : lobj → State → Result) (s : lsubr) (args : lobj)
    (st : State) : Result :=
  match s with
  | .subr_nilp => if car args ≠ NIL then .value NIL st else fresh_symbol st
  | .subr_symbolp => .value (if symbolp (car args) then car args else NIL) st
  | .subr_gensym => fresh_symbol st
  | .subr_bind => subr_bind args st
  | .subr_bound_value => subr_bound_value ev args st
  | .subr_integerp => .value (if integerp (car args) then car args else NIL) st
  | .subr_floatp => .value (if floatingp (car args) then car args else NIL) st
  | .subr_quot => subr_quot args st
  | .subr_add => subr_add fuel args st
  | .subr_mult => subr_mult fuel args st
  | .subr_sub => subr_sub fuel args st
  | .subr_div => subr_div fuel args st
  | .subr_le => ord_subr "subr \"subr_le\"" (fun a b => decide (a ≤ b)) args st
  | .subr_lt => ord_subr "subr \"subr_lt\"" (fun a b => decide (a < b)) args st
  | .subr_ge => ord_subr "subr \"subr_ge\"" (fun a b => decide (a ≥ b)) args st
  | .subr_gt => ord_subr "subr \"subr_gt\"" (fun a b => decide (a > b)) args st
  | .subr_num_eq => ord_subr "subr \"subr_num_eq\"" (fun a b => decide (a = b)) args st
  | .subr_char_eq => subr_char_eq args st
  | .subr_aref => subr_aref args st
  | .subr_consp => .value (if consp (car args) then car args else NIL) st
  | .subr_cons => .value (cons (car args) (car (cdr st args))) st
  | .subr_car =>
    if car args = NIL then .value NIL st
    else if consp (car args) then .value (car (car args)) st
    else .type_error "subr \"car\"" 0 "cons nor ()"
  | .subr_cdr =>
    if car args = NIL then .value NIL st
    else if consp (car args) then .value (cdr st (car args)) st
    else .type_error "subr \"cdr\"" 0 "cons nor ()"
  | .subr_fn => subr_fn args st
  | .subr_closure => subr_closure args st
  | .subr_quote => .value (car args) st
  | .subr_if => .internal_error "unexpected call to subr_if."
  | .subr_evlis => .internal_error "unexpected call to subr_evlis."
  | .subr_apply => .internal_error "unexpected call to subr_apply."
  | .subr_unwind_protect => .internal_error "unexpected call to subr_unwind_protect."
  | .subr_call_cc => .internal_error "unexpected call to subr_call_cc."
  | .subr_eval => .internal_error "unexpected call to subr_eval."
  | s => .unmodelled s

/-! ## The evaluator (`subr.c`, lines 1631-2016) -/

/-- The three labels of `eval`. -/
inductive Label
  | eval | ret | apply
  deriving DecidableEq, Repr

/-- The stack frame `array(4, pa, pending_args, local, global)`. -/
def frame (p pending lenv genv : lobj) : lobj :=
  array (cons p (cons pending (cons lenv (cons genv NIL))))

/-- The predicate `listp`: `NIL` or a cons. -/
def listp (o : lobj) : Bool := o = NIL || consp o

/-- The `for` loop of the `apply` primitive and the `while` loops of the
partial-application branch: `pa_push(o, car(vals))` for each value. -/
def push_all : lobj → lobj → lobj
  | o, cons a d => push_all (pa_push o a) d
  | o, _ => o

/-- The `while(formals)` loop of the function branch of `apply`. -/
def bind_formals : lobj → lobj → State → State
  | cons f rest, vals, st => bind_formals rest (cdr st vals) (bind f (car vals) 1 st)
  | NIL, _, st => st
  | f, vals, st => bind f vals 1 st

/-- The error exit `EVALUATION_ERROR(str)`: fatal without an error callback,
else the result of `eval` on `(errorback str)`. -/
def evaluation_error (ev : lobj → State → Result) (errorback : lobj) (str : String)
    (st : State) : Result :=
  if errorback = NIL then .lisp_error str
  else ev (errorback_form errorback str) st

/-- The state with `callstack` replaced. -/
def set_callstack (st : State) (stack : lobj) : State :=
  match st with
  | ⟨lenv, genv, _, cells, n⟩ => ⟨lenv, genv, stack, cells, n⟩

/-- The state with `local_env` and `global_env` replaced. -/
def set_env (st : State) (lenv genv : lobj) : State :=
  match st with
  | ⟨_, _, stack, cells, n⟩ => ⟨lenv, genv, stack, cells, n⟩

/-- Where control goes at the end of the code of a label: to a label, with
new values of `o` and of the global variables, or out of `eval` (a `return`
or a fatal error). -/
inductive Next
  | goto (l : Label) (o : lobj) (st : State)
  | done (r : Result)

/-- The built-in branch of `apply` once the argument count is accepted: the
primitives that the evaluator intercepts by identity, and the native call
`(subr_function(func))(vals)` of the others, whose result goes to `ret`. -/
def apply_subr (fuel : Nat) (ev : lobj → State → Result) (s : lsubr) (vals : lobj)
    (st : State) : Next :=
  match s with
  | .subr_eval => .goto .eval (car vals) st
  | .subr_if =>
    .goto .eval (if car vals ≠ NIL then car (cdr st vals) else car (cdr st (cdr st vals))) st
  | .subr_evlis => .done (.internal_error "NOT IMPLEMENTED subr \"evlis\".")
  | .subr_apply =>
    if listp (car (cdr st vals)) then
      .goto .apply (push_all (mk_pa (eval_pattern (car vals)) (car vals)) (car (cdr st vals))) st
    else .done (.type_error "subr \"apply\"" 1 "list")
  | .subr_unwind_protect => .done (.internal_error "NOT IMPLEMENTED subr \"unwind-protect.\"")
  | .subr_call_cc =>
    .goto .apply
      (pa_push (mk_pa (eval_pattern (car vals)) (car vals)) (continuation st.callstack)) st
  | s =>
    match call_subr fuel ev s vals st with
    | .value r st1 => .goto .ret r st1
    | e => .done e

/-- The code at the label `eval`: here `o` is an expression to be
evaluated. -/
def eval_label (ev : lobj → State → Result) (o errorback : lobj) (st : State) : Next :=
  if symbolp o then
    match binding st o 0 with
    | NIL => .done (evaluation_error ev errorback "reference to unbound symbol." st)
    | b => .goto .ret (cdr st b) st
  else if consp o then
    match st with
    | ⟨lenv, genv, stack, cells, n⟩ =>
      .goto .eval (car o)
        (env_boundary ⟨lenv, genv, cons (frame NIL (cdr st o) lenv genv) stack, cells, n⟩)
  else .goto .ret o st

/-- The code at the label `ret`: here `o` is an object evaluated just now. -/
def ret_label (o : lobj) (st : State) : Next :=
  match st.callstack with
  | NIL => .done (.value o st)
  | cons (array (cons p0 (cons p1 (cons p2 (cons p3 NIL))))) stack =>
    match (if p0 = NIL then mk_pa (eval_pattern o) o else pa_push p0 o) with
    | p =>
      if p1 ≠ NIL then
        if pa_eval_pattern p % 2 = 1 then
          .goto .eval (car p1)
            (env_boundary
              (set_callstack (set_env st p2 p3) (cons (frame p (cdr st p1) p2 p3) stack)))
        else
          .goto .ret (car p1)
            (set_callstack (set_env st p2 p3) (cons (frame p (cdr st p1) p2 p3) stack))
      else .goto .apply p (set_callstack (set_env st p2 p3) stack)
  | _ => .done (.undefined "callstack")

/-- The branch `functionp(func)` of the label `apply`. -/
def apply_function (ev : lobj → State → Result) (o errorback : lobj) (num_args : Int)
    (formals expr vals : lobj) (st : State) : Next :=
  if min_args num_args < (length vals : Int) ∧ !variadic num_args then
    .done (evaluation_error ev errorback "too many arguments applied to a function." st)
  else if (length vals : Int) < min_args num_args then .goto .ret o st
  else .goto .eval expr (bind_formals formals vals st)

/-- The branch `closurep(func)` of the label `apply`. -/
def apply_closure (ev : lobj → State → Result) (o errorback fn lenv genv vals : lobj)
    (st : State) : Next :=
  match fn with
  | function num_args _ _ =>
    if min_args num_args < (length vals : Int) ∧ !variadic num_args then
      .done (evaluation_error ev errorback "too many arguments applied to a closure." st)
    else if (length vals : Int) < min_args num_args then .goto .ret o st
    else .goto .apply (pa_set_function o fn) (set_env st lenv genv)
  | _ => .done (.undefined "closure_function")

/-- The branch `subrp(func)` of the label `apply`. -/
def apply_builtin (fuel : Nat) (ev : lobj → State → Result) (o errorback : lobj) (s : lsubr)
    (vals : lobj) (st : State) : Next :=
  if min_args (subr_args s) < (length vals : Int) ∧ !variadic (subr_args s) then
    .done (evaluation_error ev errorback "too many arguments applied to a subr." st)
  else if (length vals : Int) < min_args (subr_args s) then .goto .ret o st
  else apply_subr fuel ev s vals st

/-- The branch `continuationp(func)` of the label `apply`. -/
def apply_continuation (ev : lobj → State → Result) (o errorback stack vals : lobj)
    (st : State) : Next :=
  if 1 < (length vals : Int) then
    .done (evaluation_error ev errorback "too many arguments applied to a continuation." st)
  else if (length vals : Int) < 1 then .goto .ret o st
  else .goto .ret (car vals) (set_callstack st stack)

/-- The branch `integerp(func) || floatingp(func)` of the label `apply`. -/
def apply_number (func vals : lobj) (st : State) : Next :=
  if vals = NIL then .goto .ret func st
  else if cdr st vals = NIL then
    .goto .ret (pa_push (mk_pa (eval_pattern (car vals)) (car vals)) func) st
  else
    .goto .apply (pa_push (pa_push (mk_pa 0 (car vals)) func) (car (cdr st vals)))
      (set_callstack st
        (cons (frame (mk_pa 0 (subr .subr_apply)) (cons (cdr st (cdr st vals)) NIL)
          st.local_env st.global_env) st.callstack))

/-- The last branch of the label `apply`: any other object. -/
def apply_other (func vals : lobj) (st : State) : Next :=
  if vals = NIL then .goto .ret func st
  else
    .goto .apply (pa_push (mk_pa 0 (car vals)) func)
      (set_callstack st
        (cons (frame (mk_pa 0 (subr .subr_apply)) (cons (cdr st vals) NIL)
          st.local_env st.global_env) st.callstack))

/-- The code at the label `apply`: here `o` is a partial application to be
applied. -/
def apply_label (fuel : Nat) (ev : lobj → State → Result) (o errorback : lobj)
    (st : State) : Next :=
  match o with
  | pa _ func vals =>
    match func with
    | function num_args formals expr =>
      apply_function ev o errorback num_args formals expr vals st
    | lobj.closure fn lenv genv => apply_closure ev o errorback fn lenv genv vals st
    | subr s => apply_builtin fuel ev o errorback s vals st
    | continuation stack => apply_continuation ev o errorback stack vals st
    | pa _ func2 vals2 =>
      .goto .apply (push_all (push_all (mk_pa (eval_pattern func2) func2) vals2) vals) st
    | integer _ | floating _ => apply_number func vals st
    | _ => apply_other func vals st
  | _ => .done (.undefined "pa")

/-- The code of `eval(o, errorback)` at the label `l`, up to the next `goto` or
`return`.  `ev e s` is the recursive call `eval(e, NIL)` of the source and
`fuel` bounds the loops of the primitives. -/
def eval_step (fuel : Nat) (ev : lobj → State → Result) (l : Label) (o errorback : lobj)
    (st : State) : Next :=
  match l with
  | .eval => eval_label ev o errorback st
  | .ret => ret_label o st
  | .apply => apply_label fuel ev o errorback st

/-- The body of `eval(o, errorback)` from the label `l` on, every `goto`
taking one unit of fuel.  The recursive calls `eval(e, NIL)` of the source
enter at the top of `eval`, which empties `callstack`. -/
def eval_loop : Nat → Label → lobj → lobj → State → Result
  | 0, _, _, _, _ => .out_of_fuel
  | fuel + 1, l, o, errorback, st =>
    match eval_step fuel
        (fun e s => eval_loop fuel .eval e NIL (set_callstack s NIL)) l o errorback st with
    | .goto l1 o1 st1 => eval_loop fuel l1 o1 errorback st1
    | .done r => r

/-- The function `eval(o, errorback)`: the entry empties `callstack` and starts at the
label `eval`. -/
def eval (fuel : Nat) (o errorback : lobj) (st : State) : Result :=
  eval_loop fuel .eval o errorback (set_callstack st NIL)

/-! ## Initialization (`subr.c`, lines 2026-2105) -/

/-- The state in which `subr_initialize` starts binding: empty lexical chain
and call stack, and the global head cell `cons(NIL, NIL)` at address 0. -/
def initial_state : State :=
  { local_env := NIL, global_env := cell NIL 0, callstack := NIL,
    cells := [NIL], next_symbol := 0 }

/-- The calls `bind(intern(name), value, 0)` of `subr_initialize`, in the order
of the source. -/
def standard_bindings : List (String × lobj) :=
  [("nil", NIL), ("nil?", subr .subr_nilp), ("symbol?", subr .subr_symbolp),
   ("gensym", subr .subr_gensym), ("intern", subr .subr_intern),
   ("bind!", subr .subr_bind), ("bound-value", subr .subr_bound_value),
   ("char?", subr .subr_charp), ("char->int", subr .subr_char_to_int),
   ("int->char", subr .subr_int_to_char), ("integer?", subr .subr_integerp),
   ("float?", subr .subr_floatp), ("mod", subr .subr_mod), ("/", subr .subr_quot),
   ("round", subr .subr_round), ("+", subr .subr_add), ("*", subr .subr_mult),
   ("-", subr .subr_sub), ("div", subr .subr_div), ("<=", subr .subr_le),
   ("<", subr .subr_lt), (">=", subr .subr_ge), (">", subr .subr_gt),
   ("stream?", subr .subr_streamp), ("current-input-port", subr .subr_input_port),
   ("current-output-port", subr .subr_output_port),
   ("current-error-port", subr .subr_error_port), ("set-ports", subr .subr_set_ports),
   ("getc", subr .subr_getc), ("putc", subr .subr_putc), ("puts", subr .subr_puts),
   ("ungetc", subr .subr_ungetc), ("open", subr .subr_open), ("close", subr .subr_close),
   ("cons?", subr .subr_consp), ("cons", subr .subr_cons), ("car", subr .subr_car),
   ("cdr", subr .subr_cdr), ("setcar!", subr .subr_setcar), ("setcdr!", subr .subr_setcdr),
   ("array?", subr .subr_arrayp), ("make-array", subr .subr_make_array),
   ("aref", subr .subr_aref), ("aset!", subr .subr_aset), ("string?", subr .subr_stringp),
   ("function?", subr .subr_functionp), ("fn", subr .subr_fn),
   ("closure?", subr .subr_closurep), ("closure", subr .subr_closure),
   ("subr?", subr .subr_subrp), ("dlsubr", subr .subr_dlsubr),
   ("continuation?", subr .subr_continuationp), ("eq?", subr .subr_eq),
   ("char=", subr .subr_char_eq), ("=", subr .subr_num_eq), ("print", subr .subr_print),
   ("read", subr .subr_read), ("if", subr .subr_if), ("evlis", subr .subr_evlis),
   ("apply", subr .subr_apply), ("unwind-protect", subr .subr_unwind_protect),
   ("call-cc", subr .subr_call_cc), ("eval", subr .subr_eval), ("error", subr .subr_error),
   ("quote", subr .subr_quote)]

/-- The environment part of `subr_initialize`: the standard environment. -/
def subr_initialize : State :=
  standard_bindings.foldl (fun st b => bind (symbol b.1) b.2 0 st) initial_state

/-- The global list of the standard environment, from the newest binding
(`quote`) to the oldest (`nil`); the cell of the `i`-th name bound has address
`i`. -/
def standard_entries : lobj :=
  list
    [cell (symbol "quote") 65, cell (symbol "error") 64, cell (symbol "eval") 63,
     cell (symbol "call-cc") 62, cell (symbol "unwind-protect") 61,
     cell (symbol "apply") 60, cell (symbol "evlis") 59, cell (symbol "if") 58,
     cell (symbol "read") 57, cell (symbol "print") 56, cell (symbol "=") 55,
     cell (symbol "char=") 54, cell (symbol "eq?") 53,
     cell (symbol "continuation?") 52, cell (symbol "dlsubr") 51,
     cell (symbol "subr?") 50, cell (symbol "closure") 49, cell (symbol "closure?") 48,
     cell (symbol "fn") 47, cell (symbol "function?") 46, cell (symbol "string?") 45,
     cell (symbol "aset!") 44, cell (symbol "aref") 43, cell (symbol "make-array") 42,
     cell (symbol "array?") 41, cell (symbol "setcdr!") 40, cell (symbol "setcar!") 39,
     cell (symbol "cdr") 38, cell (symbol "car") 37, cell (symbol "cons") 36,
     cell (symbol "cons?") 35, cell (symbol "close") 34, cell (symbol "open") 33,
     cell (symbol "ungetc") 32, cell (symbol "puts") 31, cell (symbol "putc") 30,
     cell (symbol "getc") 29, cell (symbol "set-ports") 28,
     cell (symbol "current-error-port") 27, cell (symbol "current-output-port") 26,
     cell (symbol "current-input-port") 25, cell (symbol "stream?") 24,
     cell (symbol ">") 23, cell (symbol ">=") 22, cell (symbol "<") 21,
     cell (symbol "<=") 20, cell (symbol "div") 19, cell (symbol "-") 18,
     cell (symbol "*") 17, cell (symbol "+") 16, cell (symbol "round") 15,
     cell (symbol "/") 14, cell (symbol "mod") 13, cell (symbol "float?") 12,
     cell (symbol "integer?") 11, cell (symbol "int->char") 10,
     cell (symbol "char->int") 9, cell (symbol "char?") 8,
     cell (symbol "bound-value") 7, cell (symbol "bind!") 6, cell (symbol "intern") 5,
     cell (symbol "gensym") 4, cell (symbol "symbol?") 3, cell (symbol "nil?") 2,
     cell (symbol "nil") 1]

/-- The store of the standard environment, from the newest cell to the
oldest: the values of the bindings in the order of `standard_entries`, and at
address 0 the global list itself. -/
def standard_cells : List lobj :=
  [subr .subr_quote, subr .subr_error, subr .subr_eval, subr .subr_call_cc,
   subr .subr_unwind_protect, subr .subr_apply, subr .subr_evlis, subr .subr_if,
   subr .subr_read, subr .subr_print, subr .subr_num_eq, subr .subr_char_eq,
   subr .subr_eq, subr .subr_continuationp, subr .subr_dlsubr, subr .subr_subrp,
   subr .subr_closure, subr .subr_closurep, subr .subr_fn, subr .subr_functionp,
   subr .subr_stringp, subr .subr_aset, subr .subr_aref, subr .subr_make_array,
   subr .subr_arrayp, subr .subr_setcdr, subr .subr_setcar, subr .subr_cdr,
   subr .subr_car, subr .subr_cons, subr .subr_consp, subr .subr_close,
   subr .subr_open, subr .subr_ungetc, subr .subr_puts, subr .subr_putc,
   subr .subr_getc, subr .subr_set_ports, subr .subr_error_port,
   subr .subr_output_port, subr .subr_input_port, subr .subr_streamp, subr .subr_gt,
   subr .subr_ge, subr .subr_lt, subr .subr_le, subr .subr_div, subr .subr_sub,
   subr .subr_mult, subr .subr_add, subr .subr_round, subr .subr_quot, subr .subr_mod,
   subr .subr_floatp, subr .subr_integerp, subr .subr_int_to_char,
   subr .subr_char_to_int, subr .subr_charp, subr .subr_bound_value, subr .subr_bind,
   subr .subr_intern, subr .subr_gensym, subr .subr_symbolp, subr .subr_nilp, NIL,
   standard_entries]

/-- The state that `subr_initialize` builds (see `subr_initialize_eq`), written
out. -/
def standard_state : State :=
  { local_env := NIL, global_env := cell NIL 0, callstack := NIL,
    cells := standard_cells, next_symbol := 0 }

/-! ## Characters and the input port -/

/-- The bytes of a text. -/
def bytes (s : String) : List Nat := s.toList.map Char.toNat

/-- Modelled from the C library: `isspace` in the "C" locale: the characters
9 to 13 and the blank. -/
def isspace (ch : Int) : Bool := decide (9 ≤ ch ∧ ch ≤ 13) || decide (ch = 32)

/-- Modelled from the C library: `isprint` in the "C" locale: the characters
32 to 126. -/
def isprint (ch : Int) : Bool := decide (32 ≤ ch ∧ ch ≤ 126)

/-- Modelled from the C library: `getc(current_in)`, on the bytes of the input
port that are not read yet: the next byte and the bytes after it, or `EOF`,
which is -1. -/
def getc : List Nat → Int × List Nat
  | [] => (-1, [])
  | c :: rest => ((c : Int), rest)

/-- Modelled from the C library: `ungetc(ch, current_in)` pushes `ch` back in
front of the input as an `unsigned char`, and pushes nothing when `ch` is
`EOF`. -/
def ungetc (ch : Int) (input : List Nat) : List Nat :=
  if ch = -1 then input else (ch % 256).toNat :: input

/-- The function `read_char`: the next character that is not a space. -/
def read_char : List Nat → Int × List Nat
  | [] => (-1, [])
  | c :: rest => if isspace c then read_char rest else ((c : Int), rest)

/-! ## The printer (`subr.c`, lines 1096-1255) -/

/-- The hexadecimal digit that `%x` writes for a number below 16. -/
def hex_digit (d : Nat) : Nat := if d < 10 then 48 + d else 87 + d

/-- The function `put_literal_char`: the escape sequences backslash `a`, `b`,
`f`, `n`, `r`, `t`, `v`, backslash and double quote for the characters 7, 8,
12, 10, 13, 9, 11, 92 and 34, the character itself when it is printable, and
otherwise backslash `x` followed by the two hexadecimal digits that `%02x`
writes for `ch & 0xFF`. -/
def put_literal_char (ch : Nat) : List Nat :=
  if ch = 7 then [92, 97]
  else if ch = 8 then [92, 98]
  else if ch = 12 then [92, 102]
  else if ch = 10 then [92, 110]
  else if ch = 13 then [92, 114]
  else if ch = 9 then [92, 116]
  else if ch = 11 then [92, 118]
  else if ch = 92 then [92, 92]
  else if ch = 34 then [92, 34]
  else if isprint ch then [ch]
  else [92, 120, hex_digit (ch % 256 / 16), hex_digit (ch % 16)]

/-- The decimal digits of a number, the most significant first, in front of
`acc`; `fuel` bounds their number. -/
def decimal_digits : Nat → Nat → List Nat → List Nat
  | 0, _, acc => acc
  | fuel + 1, n, acc =>
    if n < 10 then (48 + n) :: acc
    else decimal_digits fuel (n / 10) ((48 + n % 10) :: acc)

/-- Modelled from the C library: the text that `%d` writes for an `int`, which
has at most ten digits. -/
def decimal (v : Int) : List Nat :=
  if v < 0 then 45 :: decimal_digits 10 (-v).toNat [] else decimal_digits 10 v.toNat []

/-- The `while(1)` loop of the branch `consp(o)` of `print`; `pr` is the
recursive call of `print`. -/
def print_list (pr : lobj → Option (List Nat)) (st : State) : Nat → lobj → Option (List Nat)
  | 0, _ => none
  | fuel + 1, o =>
    if cdr st o = NIL then
      (pr (car o)).map (fun a => a ++ [41])
    else if !consp (cdr st o) then
      (pr (car o)).bind (fun a => (pr (cdr st o)).map (fun d => a ++ [32, 46, 32] ++ d ++ [41]))
    else
      (pr (car o)).bind (fun a =>
        (print_list pr st fuel (cdr st o)).map (fun r => a ++ [32] ++ r))

/-- The elements of an array as `print` writes them, separated by blanks; `pr` is
the recursive call of `print`. -/
def print_array_items (pr : lobj → Option (List Nat)) : lobj → Option (List Nat)
  | cons a d =>
    match d with
    | cons _ _ =>
      (pr a).bind (fun x => (print_array_items pr d).map (fun r => x ++ [32] ++ r))
    | _ => pr a
  | _ => some []

/-- The function `print`: the text written to the stream.  There is no text
(`none`) when the fuel runs out and where the text is not determined by the
objects: an address written with `%p` (uninterned symbols, streams, closures,
continuations, functions whose body does not start with an atom), a float
written with `%f`, the description of a primitive, which `subr.h` holds, and a
symbol name with a `%`, which `fprintf` takes as a conversion. -/
def print (st : State) : Nat → lobj → Option (List Nat)
  | 0, _ => none
  | fuel + 1, o =>
    match o with
    | NIL => some [40, 41]
    | symbol name => if 37 ∈ bytes name then none else some (bytes name)
    | usymbol _ => none
    | character c => some (63 :: put_literal_char c)
    | integer v => some (decimal v)
    | floating _ => none
    | stream _ => none
    | cons _ _ => (print_list (fun x => print st fuel x) st fuel o).map (fun t => 40 :: t)
    | cell _ _ => (print_list (fun x => print st fuel x) st fuel o).map (fun t => 40 :: t)
    | string s => some ([34] ++ (s.map put_literal_char).flatten ++ [34])
    | array elems =>
      (print_array_items (fun x => print st fuel x) elems).map (fun t => [91] ++ t ++ [93])
    | function args _ expr =>
      match expr with
      | cons (cons _ _) _ => none
      | cons (cell _ _) _ => none
      | cons (array _) _ => none
      | cons a _ =>
        (print st fuel a).map (fun t =>
          bytes "#<func:" ++ decimal (min_args args) ++ (if variadic args then [43] else [])
            ++ bytes " (" ++ t ++ bytes " ...)>")
      | _ => none
    | lobj.closure _ _ _ => none
    | subr _ => none
    | continuation _ => none
    | pa _ func _ => (print st fuel func).map (fun t => bytes "#<func:(pa/" ++ t ++ bytes ")>")

/-! ## The parser (`subr.c`, lines 1267-1600) -/

/-- One turn of the `for` loop of an octal constant in `get_literal_char`; `v`
is an `unsigned char`. -/
def octal_turn (v : Nat) (input : List Nat) : Nat × List Nat :=
  match getc input with
  | (ch, rest) =>
    if 48 ≤ ch ∧ ch ≤ 56 then ((v * 8 + (ch - 48).toNat) % 256, rest)
    else (v, ungetc ch rest)

/-- One turn of the `for` loop of a hexadecimal constant in `get_literal_char`;
`v` is an `unsigned char`. -/
def hex_turn (v : Nat) (input : List Nat) : Nat × List Nat :=
  match getc input with
  | (ch, rest) =>
    if 48 ≤ ch ∧ ch ≤ 57 then ((v * 16 + (ch - 48).toNat) % 256, rest)
    else if 97 ≤ ch ∧ ch ≤ 102 then ((v * 16 + (ch - 97).toNat + 10) % 256, rest)
    else if 65 ≤ ch ∧ ch ≤ 70 then ((v * 16 + (ch - 65).toNat + 10) % 256, rest)
    else (v, ungetc ch rest)

/-- The function `get_literal_char(endchar)`: a character, -2 for `endchar`, -3
for an invalid escape sequence.  `junk` is the value that the accumulator `v`
of a hexadecimal constant, which the source does not initialize, holds before
the first digit. -/
def get_literal_char (junk : Nat) (endchar : Int) (input : List Nat) : Int × List Nat :=
  match getc input with
  | (ch, rest) =>
    if ch = endchar then (-2, rest)
    else if ch ≠ 92 then (ch, rest)
    else
      match getc rest with
      | (ch1, rest1) =>
        if 48 ≤ ch1 ∧ ch1 ≤ 56 then
          match octal_turn (ch1 - 48).toNat rest1 with
          | (v1, rest2) =>
            match octal_turn v1 rest2 with
            | (v2, rest3) =>
              match octal_turn v2 rest3 with
              | (v3, rest4) => ((v3 : Int), rest4)
        else if ch1 = 97 then (7, rest1)
        else if ch1 = 98 then (8, rest1)
        else if ch1 = 102 then (12, rest1)
        else if ch1 = 110 then (10, rest1)
        else if ch1 = 114 then (13, rest1)
        else if ch1 = 116 then (9, rest1)
        else if ch1 = 118 then (11, rest1)
        else if ch1 = 92 then (92, rest1)
        else if ch1 = 34 then (34, rest1)
        else if ch1 = 120 then
          match hex_turn (junk % 256) rest1 with
          | (v1, rest2) =>
            match hex_turn v1 rest2 with
            | (v2, rest3) => ((v2 : Int), rest3)
        else (-3, rest1)

/-- What a call of `read` comes to: the object returned, together with the
value of `last_parse_error` at the return (`none` is `NULL`) and the input
left; a fatal error; or no answer within the fuel given.  `undefined` marks an
arithmetic overflow that C leaves undefined. -/
inductive ReadResult
  | value (o : lobj) (error : Option String) (input : List Nat)
  | internal_error (msg : String)
  | out_of_fuel
  | undefined (what : String)
  deriving DecidableEq, Repr

/-- The exit `PARSE_ERROR(str)`: `last_parse_error` is set and `read` returns
`NIL`. -/
def parse_error (str : String) (input : List Nat) : ReadResult := .value NIL (some str) input

/-- Modelled from the spec: `character(ch)` of `philisp.h`, a character of 8
bits. -/
def mk_character (ch : Int) : lobj := character (ch % 256).toNat

/-- Modelled from the spec: `intern(name)` of `philisp.h`, the symbol of a
name. -/
def intern (name : List Nat) : lobj := symbol (String.mk (name.map Char.ofNat))

/-- The comment case of `read`: the input after the end of the line. -/
def skip_line : List Nat → List Nat
  | [] => []
  | c :: rest => if c = 10 then rest else skip_line rest

/-- The character case of `read`, after the question mark. -/
def read_character (junk : Nat) (input : List Nat) : ReadResult :=
  match get_literal_char junk (-1) input with
  | (ch, rest) =>
    if ch = -1 then parse_error "unexpected EOF after ?." rest
    else if ch = -3 then parse_error "invalid escape sequence." rest
    else .value (mk_character ch) none rest

/-- The `while` loop of the string case of `read`; `chars` are the characters
read so far. -/
def read_string_loop (junk : Nat) : Nat → List Nat → List Nat → ReadResult
  | 0, _, _ => .out_of_fuel
  | fuel + 1, chars, input =>
    match get_literal_char junk 34 input with
    | (ch, rest) =>
      if ch = -2 then .value (string chars) none rest
      else if ch = -1 then parse_error "unexpected EOF in a string literal." rest
      else if ch = -3 then parse_error "invalid escape sequence." rest
      else read_string_loop junk fuel (chars ++ [(ch % 256).toNat]) rest

/-- The string case of `read`, after the opening double quote.  Every turn of
the loop takes at least one byte of the input, so the length of the input
bounds the number of turns. -/
def read_string (junk : Nat) (input : List Nat) : ReadResult :=
  match getc input with
  | (ch, rest) =>
    if ch = 34 then .value (string []) none rest
    else
      match get_literal_char junk (-1) (ungetc ch rest) with
      | (ch1, rest1) =>
        if ch1 = -1 then parse_error "unexpected EOF in a string literal." rest1
        else if ch1 = -3 then parse_error "invalid escape sequence." rest1
        else read_string_loop junk (rest1.length + 1) [(ch1 % 256).toNat] rest1

/-- The loop `while('0' <= ch && ch <= '9') { v = v * 10 + (ch - '0'); ch = getc(current_in); }`.
`text` is the input from the character held in `ch` on (it is empty when `ch`
is `EOF`); the result is `v` and the input from the first character on that is
not a digit.  The accumulator is exact here: reducing the result to the width
of the C variable gives what reducing at every turn gives. -/
def read_digits : Nat → List Nat → Nat × List Nat
  | v, [] => (v, [])
  | v, c :: rest =>
    if 48 ≤ c ∧ c ≤ 57 then read_digits (v * 10 + (c - 48)) rest else (v, c :: rest)

/-- The loop `while(vv > 1) vv /= 10;`, of at most `fuel` turns. -/
def shrink : Nat → Rat → Rat
  | 0, vv => vv
  | fuel + 1, vv => if vv > 1 then shrink fuel (vv / 10) else vv

/-- The number case of `read`; `text` is the input from the first character of
the number on.  `v` is an `unsigned`, the result of `integer(v)` an `int`; the
`double` `vv` is an exact number here, and an exponent that does not fit an
`int` is left undefined. -/
def read_number (text : List Nat) : ReadResult :=
  match read_digits 0 text with
  | (v, text1) =>
    match text1 with
    | [] => .value (integer (wrap32 ((v % 4294967296 : Nat) : Int))) none []
    | c :: text2 =>
      if c = 46 then
        match read_digits 0 text2 with
        | (f, text3) =>
          match text3 with
          | [] => .value (floating (((v % 4294967296 : Nat) : Rat) + shrink text2.length f)) none []
          | c1 :: text4 =>
            if c1 = 101 then
              match read_digits 0 text4 with
              | (e, text5) =>
                if e < 2147483648 then
                  .value (floating ((shrink text2.length f + ((v % 4294967296 : Nat) : Rat))
                    * 10 ^ e)) none text5
                else .undefined "overflow of the exponent"
            else
              .value (floating (((v % 4294967296 : Nat) : Rat) + shrink text2.length f)) none
                text3
      else if c = 101 then
        match read_digits 0 text2 with
        | (e, text3) =>
          if e < 2147483648 then
            .value (integer (wrap32 (((v * 10 ^ e) % 4294967296 : Nat) : Int))) none text3
          else .undefined "overflow of the exponent"
      else .value (integer (wrap32 ((v % 4294967296 : Nat) : Int))) none text1

/-- The `while(1)` loop of the symbol case of `read`.  `buf` holds the
characters stored so far, `text` is the input from the character held in `ch`
on, and `max` is `SYMBOL_NAME_MAX`, which `philisp.h` defines. -/
def read_symbol (max : Nat) : List Nat → List Nat → ReadResult
  | buf, [] =>
    if buf.length = max then .internal_error "too long symbol name given."
    else .value (intern buf) none []
  | buf, c :: rest =>
    if buf.length = max then .internal_error "too long symbol name given."
    else if isspace c ∨ c ∈ [0, 40, 41, 91, 93, 34, 59] then .value (intern buf) none (c :: rest)
    else read_symbol max (buf ++ [c]) rest

/-- The `while` loop of the list case of `read`.  `rd` is the recursive call of
`read`, `items` are the elements read so far (the list from `head` to `last`)
and `err` is `last_parse_error`. -/
def read_list_loop (rd : List Nat → ReadResult) :
    Nat → List lobj → Option String → List Nat → ReadResult
  | 0, _, _, _ => .out_of_fuel
  | fuel + 1, items, err, input =>
    match read_char input with
    | (ch, rest) =>
      if ch = 41 then .value (list items) err rest
      else if ch = -1 then parse_error "unexpected EOF in a list." rest
      else if ch = 46 then
        match rd rest with
        | .value tail err1 rest1 =>
          match read_char rest1 with
          | (ch1, rest2) =>
            if ch1 ≠ 41 then parse_error "more than one elements after dot." rest2
            else .value (list_with_tail items tail) err1 rest2
        | e => e
      else
        match rd (ungetc ch rest) with
        | .value o err1 rest1 => read_list_loop rd fuel (items ++ [o]) err1 rest1
        | e => e

/-- The `while` loop of the array case of `read`, with `rd`, `items` and `err`
as in `read_list_loop`. -/
def read_array_loop (rd : List Nat → ReadResult) :
    Nat → List lobj → Option String → List Nat → ReadResult
  | 0, _, _, _ => .out_of_fuel
  | fuel + 1, items, err, input =>
    match read_char input with
    | (ch, rest) =>
      if ch = 93 then .value (array (list items)) err rest
      else if ch = -1 then parse_error "unexpected EOF in an array literal." rest
      else
        match rd (ungetc ch rest) with
        | .value o err1 rest1 => read_array_loop rd fuel (items ++ [o]) err1 rest1
        | e => e

/-- The function `read`, on the input port `input`.  Every call, a recursive
one too, starts with `last_parse_error = NULL`, so the value of
`last_parse_error` when a call returns is what this call and the calls it
made after that left.  `junk` is the parameter of `get_literal_char` and `max`
that of `read_symbol`. -/
def read (junk max : Nat) : Nat → List Nat → ReadResult
  | 0, _ => .out_of_fuel
  | fuel + 1, input =>
    match read_char input with
    | (ch, rest) =>
      if ch = -1 then parse_error "unexpected EOF where an expression is expected." rest
      else if ch = 41 then parse_error "too many ')' in expression." rest
      else if ch = 93 then parse_error "too many ']' in expression." rest
      else if ch = 59 then read junk max fuel (skip_line rest)
      else if ch = 39 then
        match read junk max fuel rest with
        | .value o err rest1 => .value (cons (symbol "quote") (cons o NIL)) err rest1
        | e => e
      else if ch = 44 then
        match read junk max fuel rest with
        | .value o err rest1 => .value (cons (symbol "eval") (cons o NIL)) err rest1
        | e => e
      else if ch = 63 then read_character junk rest
      else if ch = 40 then
        match read_char rest with
        | (ch1, rest1) =>
          if ch1 = 41 then .value NIL none rest1
          else
            match read junk max fuel (ungetc ch1 rest1) with
            | .value o err rest2 =>
              read_list_loop (fun s => read junk max fuel s) fuel [o] err rest2
            | e => e
      else if ch = 91 then
        match read_char rest with
        | (ch1, rest1) =>
          if ch1 = 93 then .value (array NIL) none rest1
          else
            match read junk max fuel (ungetc ch1 rest1) with
            | .value o err rest2 =>
              read_array_loop (fun s => read junk max fuel s) fuel [o] err rest2
            | e => e
      else if ch = 34 then read_string junk rest
      else if ch = 46 ∨ (48 ≤ ch ∧ ch ≤ 57) then read_number (ch.toNat :: rest)
      else if ch = 45 ∨ ch = 43 then
        match getc rest with
        | (ch1, rest1) =>
          if ch1 = 46 ∨ (48 ≤ ch1 ∧ ch1 ≤ 57) then
            match read junk max fuel (ungetc ch1 rest1) with
            | .value (integer v) err rest2 => .value (integer (wrap32 (-v))) err rest2
            | .value (floating v) err rest2 => .value (floating (-v)) err rest2
            | .value _ _ _ => .internal_error "unexpected non-number value after '-'."
            | e => e
          else read_symbol max [ch.toNat] rest
      else read_symbol max [] (ch.toNat :: rest)

/-- A character that the symbol case of `read` stores in the name: not a
space, none of `()[]";` and not the null character. -/
def symbol_char (c : Nat) : Bool :=
  !isspace c && !decide (c ∈ [0, 40, 41, 91, 93, 34, 59])

/-- Whether a first character starts another token than a symbol: a quote, a
comma, a question mark (39, 44, 63), a dot or a digit. -/
def starts_other_token (c : Nat) : Bool :=
  decide (c = 39) || decide (c = 44) || decide (c = 63) || decide (c = 46)
    || decide (48 ≤ c ∧ c ≤ 57)

/-- Whether a text starts with a sign followed by a dot or a digit, which `read`
takes for a number. -/
def starts_signed_number : List Nat → Bool
  | c :: d :: _ => (decide (c = 45) || decide (c = 43)) && (decide (d = 46) || decide (48 ≤ d ∧ d ≤ 57))
  | _ => false

/-- A name that `print` writes as it is and that `read` takes for one symbol:
it is not empty, its characters are characters of a symbol and none is a `%`,
and it does not start like another token or like a signed number. -/
def plain_name (name : List Nat) : Bool :=
  name.all (fun c => symbol_char c && !decide (c = 37))
    && (match name with
        | [] => false
        | c :: _ => !starts_other_token c)
    && !starts_signed_number name

/-- The values built from 32-bit integers, `()`, proper lists and arrays. -/
def data_value : lobj → Bool
  | NIL => true
  | integer v => decide (-2147483648 ≤ v ∧ v < 2147483648)
  | cons a d => data_value a && (listp d && data_value d)
  | array elems => listp elems && data_value elems
  | _ => false

/-- The number of nodes of a value, an integer counting for two: a bound on
the fuel that `print` and `read` take on a value built from integers, `()`,
lists and arrays. -/
def data_size : lobj → Nat
  | integer _ => 2
  | cons a d => data_size a + data_size d + 1
  | array elems => data_size elems + 1
  | _ => 1

/-- The first characters of the texts of integers, lists and arrays: `(`, `[`,
`-` and the digits. -/
def value_start (c : Nat) : Bool :=
  decide (c = 40) || decide (c = 91) || decide (c = 45) || decide (48 ≤ c ∧ c ≤ 57)

/-- What follows the text of a value in the text of a list or of an array, or
at the end of the input: nothing, a blank, `)` or `]`. -/
def value_end : List Nat → Bool
  | [] => true
  | c :: _ => decide (c = 32) || decide (c = 41) || decide (c = 93)

/-- Whether dividing `v` by the numbers of `ds` in turn, each quotient truncated
toward zero, never divides by zero nor divides the minimum `int` by -1. -/
def quot_defined : Int → List Int → Bool
  | _, [] => true
  | v, d :: ds =>
    !decide (d = 0) && !decide (v = -2147483648 ∧ d = -1) && quot_defined (Int.tdiv v d) ds

/-- Whether a number is an `int` of 32 bits. -/
def is_int32 (v : Int) : Bool := decide (-2147483648 ≤ v ∧ v < 2147483648)

/-! ## Reading results -/

/-- The value of a result, if it is one. -/
def Result.get : Result → Option lobj
  | .value o _ => some o
  | _ => none

/-- The state a result leaves, if it is a value. -/
def Result.final : Result → Option State
  | .value _ st => some st
  | _ => none

/-- The value of the global binding of `x`: the `cdr` of the first binding of
`x` in the global list. -/
def global_value (st : State) (x : lobj) : lobj :=
  cdr st (binding_global x (cdr st st.global_env))

/-- Successive top-level evaluations: each form is given to `eval` (with no
error callback) in the state the form before it left; the result is that of
the last form. -/
def toplevel (fuel : Nat) : List lobj → State → Result
  | [], st => .value NIL st
  | [e], st => eval fuel e NIL st
  | e :: es, st =>
    match eval fuel e NIL st with
    | .value _ st1 => toplevel fuel es st1
    | err => err

/-! ## Programs of the specification's scenarios -/

/-- The form `((fn (x y) (+ x y)) a b)`. -/
def fn_add_form (a b : Int) : lobj :=
  list [list [symbol "fn", list [symbol "x", symbol "y"],
      list [symbol "+", symbol "x", symbol "y"]],
    integer a, integer b]

/-- The state that the evaluation of `((fn (x y) (+ x y)) a b)` leaves when it
starts from the standard environment: the cells of `x` and `y` are the two
newest of the store and head the lexical chain. -/
def fn_add_final_state (a b : Int) : State :=
  { local_env := cons (cell (symbol "y") 67) (cons (cell (symbol "x") 66) NIL),
    global_env := cell NIL 0, callstack := NIL,
    cells := integer b :: integer a :: standard_cells, next_symbol := 0 }

/-- The form `(bind! 'fact (fn (n) (if (<= n 1) 1 (* n (fact (- n 1))))))`. -/
def fact_definition : lobj :=
  list [symbol "bind!", list [symbol "quote", symbol "fact"],
    list [symbol "fn", list [symbol "n"],
      list [symbol "if", list [symbol "<=", symbol "n", integer 1], integer 1,
        list [symbol "*", symbol "n",
          list [symbol "fact", list [symbol "-", symbol "n", integer 1]]]]]]

/-- The form `(fact n)`. -/
def fact_form (n : Int) : lobj := list [symbol "fact", integer n]

/-- The form `(bind! 'fact (fn (n) (if (<= n 1) 1 (* (fact (- n 1)) n))))`: the
factorial with the factors in the other order, so that `n` is read after the
inner call has returned. -/
def fact_definition_swapped : lobj :=
  list [symbol "bind!", list [symbol "quote", symbol "fact"],
    list [symbol "fn", list [symbol "n"],
      list [symbol "if", list [symbol "<=", symbol "n", integer 1], integer 1,
        list [symbol "*", list [symbol "fact", list [symbol "-", symbol "n", integer 1]],
          symbol "n"]]]]

/-- The function that `fact_definition` binds to `fact`. -/
def fact_function : lobj :=
  function 513 (list [symbol "n"])
    (list [symbol "if", list [symbol "<=", symbol "n", integer 1], integer 1,
      list [symbol "*", symbol "n",
        list [symbol "fact", list [symbol "-", symbol "n", integer 1]]]])

/-- The state after `fact_definition` and the top-level call `(fact n)` in the
standard environment.  The store holds `fact_function` in cell 66, and above
it one cell for each of the `n` calls: the binding of `n` made by the call
`(fact k)` is the cell of address `67 + n - k` and holds `k`.  The lexical
chain is the binding of the outermost call. -/
def fact_final_state (n : Nat) : State :=
  ⟨list [cell (symbol "n") 67], cell NIL 0, NIL,
    (List.range n).map (fun i => integer (i + 1))
      ++ store (fact_function :: standard_cells) 0
          (cons (cell (symbol "fact") 66) standard_entries), 0⟩

/-- The form `((fn ((eval x)) x) e)`. -/
def quoted_parameter_form (e : lobj) : lobj :=
  list [list [symbol "fn", list [list [symbol "eval", symbol "x"]], symbol "x"], e]

/-- The form `(bind! 'x 1)`. -/
def bind_x_form : lobj :=
  list [symbol "bind!", list [symbol "quote", symbol "x"], integer 1]

/-- The form `((fn (x) x) 5)`. -/
def identity_call_form : lobj :=
  list [list [symbol "fn", list [symbol "x"], symbol "x"], integer 5]

/-- The form `(+ 1 ((fn (x) x) 5))`: the call of the identity as an argument of
a larger expression. -/
def nested_identity_call_form : lobj :=
  list [symbol "+", integer 1, identity_call_form]

/-- The formals `(a (eval b) c)`. -/
def mixed_formals : lobj :=
  list [symbol "a", list [symbol "eval", symbol "b"], symbol "c"]

/-- The form `((fn (a (eval b) c) NAME) 1 (+ 1 1) (+ 1 2))`, which returns the
argument bound to `NAME`. -/
def mixed_formals_call (name : String) : lobj :=
  list [list [symbol "fn", mixed_formals, symbol name],
    integer 1, list [symbol "+", integer 1, integer 1],
    list [symbol "+", integer 1, integer 2]]

/-- The quoted form `(quote v)`. -/
def quote_form (v : lobj) : lobj := list [symbol "quote", v]

/-- The form `(+ 1 (call-cc (fn (k) (+ 10 (k v)))))`. -/
def call_cc_form (v : Int) : lobj :=
  list [symbol "+", integer 1,
    list [symbol "call-cc",
      list [symbol "fn", list [symbol "k"],
        list [symbol "+", integer 10, list [symbol "k", integer v]]]]]

/-- The form `(bound-value 'zzz (fn (m) 5))`: a lookup that fails when `zzz` is
unbound, with an error callback that returns `5`. -/
def bound_value_form : lobj :=
  list [symbol "bound-value", quote_form (symbol "zzz"),
    list [symbol "fn", list [symbol "m"], integer 5]]

/-- The form `(+ 1 (bound-value 'zzz (fn (m) 5)))`: the failing lookup as an
argument of a larger expression. -/
def errorback_in_argument_form : lobj :=
  list [symbol "+", integer 1, bound_value_form]

/-- The form `(fn (x y) +)`: a function of two arguments whose value is the
primitive `+`. -/
def const_add_fn : lobj := list [symbol "fn", list [symbol "x", symbol "y"], symbol "+"]

/-- The form `(fn (x y) (- x y))`. -/
def fn_sub_form : lobj :=
  list [symbol "fn", list [symbol "x", symbol "y"], list [symbol "-", symbol "x", symbol "y"]]

/-- The form `((fn (x) x) v)`. -/
def identity_call_of (v : lobj) : lobj :=
  list [list [symbol "fn", list [symbol "x"], symbol "x"], v]

/-- The form `(bind! 'f (closure (fn () y)))`. -/
def closure_y_definition : lobj :=
  list [symbol "bind!", list [symbol "quote", symbol "f"],
    list [symbol "closure", list [symbol "fn", NIL, symbol "y"]]]

/-- The form `(bind! 'y v)`. -/
def bind_y_form (v : Int) : lobj :=
  list [symbol "bind!", list [symbol "quote", symbol "y"], integer v]

/-- The form `(call-cc (fn (c) c))`, whose value is the continuation of the
form itself. -/
def current_continuation_form : lobj :=
  list [symbol "call-cc", list [symbol "fn", list [symbol "c"], symbol "c"]]

/-- The form `(if l (loop (cdr l)) (call-cc (fn (c) c)))`: a tail call of
`loop` as long as `l` is not empty, then the current continuation. -/
def tail_loop_body : lobj :=
  list [symbol "if", symbol "l", list [symbol "loop", list [symbol "cdr", symbol "l"]],
    current_continuation_form]

/-- The form `(bind! 'loop (fn (l) (if l (loop (cdr l)) (call-cc (fn (c) c)))))`. -/
def tail_loop_definition : lobj :=
  list [symbol "bind!", list [symbol "quote", symbol "loop"],
    list [symbol "fn", list [symbol "l"], tail_loop_body]]

/-- The form `(loop 'l)`. -/
def tail_loop_call (l : lobj) : lobj := list [symbol "loop", list [symbol "quote", l]]

/-- The store of the standard environment after `tail_loop_definition`: the
function is the content of cell 66, and the global list starts with the
binding of `loop`. -/
def tail_loop_cells : List lobj :=
  store (function 513 (list [symbol "l"]) tail_loop_body :: standard_cells) 0
    (cons (cell (symbol "loop") 66) standard_entries)

/-- The state in which the body of `loop` is entered from the top level: the
lexical chain holds the binding of `l` (cell 67), whose value is `l`, and the
call stack is `stack`. -/
def tail_loop_state (l stack : lobj) : State :=
  ⟨list [cell (symbol "l") 67], cell NIL 0, stack, l :: tail_loop_cells, 0⟩

/-- The call stack that a continuation holds. -/
def continuation_callstack : lobj → lobj
  | continuation stack => stack
  | _ => NIL

/-! ## Well-formed states -/

/-- An entry of an environment list: a boundary, or a cell allocated in a store
of `n` cells. -/
def entry_ok (n : Nat) : lobj → Bool
  | NIL => true
  | cell _ i => decide (i < n)
  | _ => false

/-- A list of environment entries. -/
def entries_ok (n : Nat) : lobj → Bool
  | cons b rest => entry_ok n b && entries_ok n rest
  | _ => true

/-- A well-formed environment: `global_env` is an allocated head cell, and the
lexical chain and the global list hold boundaries and allocated cells only. -/
def State.wf (st : State) : Bool :=
  (match st.global_env with
   | cell NIL g => decide (g < st.cells.length)
   | _ => false)
  && entries_ok st.cells.length st.local_env
  && entries_ok st.cells.length (cdr st st.global_env)

/-- The address of a cell of the store. -/
def address : lobj → Option Nat
  | cell _ i => some i
  | _ => none

/-- The entries of an environment list, in the order of the list. -/
def entries : lobj → List lobj
  | cons b rest => b :: entries rest
  | _ => []

/-- The binding cells of the environment are cells of memory: none of them is
the head cell of the global list, and two of them at one address are one cell,
with one `car` field. -/
def State.separate (st : State) : Bool :=
  (entries st.local_env ++ entries (cdr st st.global_env)).all
    (fun b => decide (address b ≠ address st.global_env)
      && (entries st.local_env ++ entries (cdr st st.global_env)).all
        (fun c => decide (address b = address c → b = c)))

/-- The names that a list of environment entries binds, in the order of the
list. -/
def entry_names : lobj → List lobj
  | cons b rest => car b :: entry_names rest
  | _ => []

/-- The value of a hexadecimal digit, lower or upper case. -/
def hex_value (c : Nat) : Option Nat :=
  if 48 ≤ c ∧ c ≤ 57 then some (c - 48)
  else if 97 ≤ c ∧ c ≤ 102 then some (c - 87)
  else if 65 ≤ c ∧ c ≤ 70 then some (c - 55)
  else none

/-! ## The lookup as the specification words it -/

/-- An entry that is a binding of `o`. -/
def is_binding_of (o b : lobj) : Bool := decide (b ≠ NIL) && decide (car b = o)

/-- The lookup in the words of the specification, on the lexical chain and the
global list as sequences.  The part of the chain that is scanned is all of it
for a full search and what precedes the first boundary for a local-only
search; the first binding of `o` in it is the answer; failing that, a
local-only search that met a boundary answers `()`, and otherwise the answer
is the first binding of `o` in the global list, or `()`. -/
def binding_spec (chain globals : List lobj) (o : lobj) (loc : Int) : lobj :=
  let scanned := if loc ≠ 0 then chain.takeWhile (fun b => decide (b ≠ NIL)) else chain
  match scanned.find? (is_binding_of o) with
  | some b => b
  | none =>
    if loc ≠ 0 ∧ NIL ∈ chain then NIL
    else (globals.find? (fun b => decide (car b = o))).getD NIL

/-! ## Formals specifications -/

/-- A positional formal: a plain symbol `x`, or `(eval x)`. -/
inductive Formal
  | plain (name : lobj)
  | quoted (name : lobj)

/-- The end of a formals specification: `()`, a rest symbol (the whole
specification, or after a dot), or the tail `eval NAME`. -/
inductive Rest
  | none
  | rest_symbol (name : lobj)
  | eval_name (name : lobj)

/-- The form of a positional formal. -/
def Formal.form : Formal → lobj
  | .plain x => x
  | .quoted x => list [symbol "eval", x]

/-- The tail of the formals list. -/
def Rest.form : Rest → lobj
  | .none => NIL
  | .rest_symbol s => s
  | .eval_name s => list [symbol "eval", s]

/-- The formals specification as `fn` reads it. -/
def formals_form (fs : List Formal) (r : Rest) : lobj :=
  list_with_tail (fs.map Formal.form) r.form

/-- Validity of a positional formal: its name is a symbol, and a plain formal
is not the symbol `eval`. -/
def Formal.valid : Formal → Prop
  | .plain x => symbolp x = true ∧ x ≠ symbol "eval"
  | .quoted x => symbolp x = true

/-- Validity of the end of a specification: a rest name is a symbol. -/
def Rest.valid : Rest → Prop
  | .none => True
  | .rest_symbol s => symbolp s = true
  | .eval_name s => symbolp s = true

/-- Whether the specification ends in a rest symbol (the whole specification,
or after a dot). -/
def Rest.is_rest_symbol : Rest → Bool
  | .rest_symbol _ => true
  | _ => false

/-- Whether the formal is evaluated (a plain symbol). -/
def Formal.evaluated : Formal → Bool
  | .plain _ => true
  | .quoted _ => false

/-! ## Fuel -/

/-- Information order on results: running out of fuel is below everything. -/
def Result.le (r r' : Result) : Prop := r = .out_of_fuel ∨ r = r'

/-- Information order on the outcome of one step. -/
def Next.le (x y : Next) : Prop := x = .done .out_of_fuel ∨ x = y

/-! # Theorems -/

/-! ## Fuel monotonicity -/


theorem Result.le_refl (r : Result) : Result.le r r := Or.inr rfl

theorem float_loop_le (name : String) (op : Rat → Rat → Rat) (st : State) (args : lobj) :
    ∀ (n : Nat) (acc : Rat) (ix : Nat),
      Result.le (float_loop name op st args n acc ix) (float_loop name op st args (n + 1) acc ix) := by
  intro n
  induction n with
  | zero => intro acc ix; exact Or.inl rfl
  | succ n ih =>
    intro acc ix
    rw [float_loop, float_loop]
    split
    · exact Or.inr rfl
    · split
      · exact ih _ _
      · exact Or.inr rfl

theorem evaluation_error_le {ev ev' : lobj → State → Result}
    (hev : ∀ e s, Result.le (ev e s) (ev' e s)) (eb : lobj) (msg : String) (st : State) :
    Result.le (evaluation_error ev eb msg st) (evaluation_error ev' eb msg st) := by
  unfold evaluation_error
  split
  · exact Or.inr rfl
  · exact hev _ _

theorem call_subr_le {ev ev' : lobj → State → Result}
    (hev : ∀ e s, Result.le (ev e s) (ev' e s)) (n : Nat) (s : lsubr) (args : lobj) (st : State) :
    Result.le (call_subr n ev s args st) (call_subr (n + 1) ev' s args st) := by
  cases s <;> simp only [call_subr] <;> try exact Or.inr rfl
  · unfold subr_bound_value
    simp only
    split
    · exact Or.inr rfl
    · split
      · exact hev _ _
      · exact Or.inr rfl
  · unfold subr_add; split
    · exact Or.inr rfl
    · exact float_loop_le _ _ _ _ _ _ _
  · unfold subr_mult; split
    · exact Or.inr rfl
    · exact float_loop_le _ _ _ _ _ _ _
  · unfold subr_sub; split
    · split
      · exact Or.inr rfl
      · split
        · exact float_loop_le _ _ _ _ _ _ _
        · exact Or.inr rfl
    · exact Or.inr rfl
  · unfold subr_div; split
    · split
      · exact float_loop_le _ _ _ _ _ _ _
      · exact Or.inr rfl
    · exact Or.inr rfl

theorem Next.le_done {r r' : Result} (h : Result.le r r') : Next.le (.done r) (.done r') := by
  rcases h with h | h
  · left; rw [h]
  · right; rw [h]

theorem apply_subr_le {ev ev' : lobj → State → Result}
    (hev : ∀ e s, Result.le (ev e s) (ev' e s)) (n : Nat) (s : lsubr) (vals : lobj)
    (st : State) :
    Next.le (apply_subr n ev s vals st) (apply_subr (n + 1) ev' s vals st) := by
  unfold apply_subr
  split
  all_goals first
    | exact Or.inr rfl
    | skip
  rcases call_subr_le hev n _ vals st with h | h
  · left
    rw [h]
  · rw [h]; exact Or.inr rfl

theorem eval_step_le {ev ev' : lobj → State → Result}
    (hev : ∀ e s, Result.le (ev e s) (ev' e s)) (n : Nat) (l : Label) (o eb : lobj) (st : State) :
    Next.le (eval_step n ev l o eb st) (eval_step (n + 1) ev' l o eb st) := by
  cases l
  · simp only [eval_step, eval_label]
    split
    · split
      · exact Next.le_done (evaluation_error_le hev _ _ _)
      · exact Or.inr rfl
    · exact Or.inr rfl
  · exact Or.inr rfl
  · simp only [eval_step, apply_label]
    split
    · split
      · unfold apply_function
        split
        · exact Next.le_done (evaluation_error_le hev _ _ _)
        · exact Or.inr rfl
      · unfold apply_closure
        split
        · split
          · exact Next.le_done (evaluation_error_le hev _ _ _)
          · exact Or.inr rfl
        · exact Or.inr rfl
      · unfold apply_builtin
        split
        · exact Next.le_done (evaluation_error_le hev _ _ _)
        · split
          · exact Or.inr rfl
          · exact apply_subr_le hev n _ _ st
      · unfold apply_continuation
        split
        · exact Next.le_done (evaluation_error_le hev _ _ _)
        · exact Or.inr rfl
      all_goals exact Or.inr rfl
    · exact Or.inr rfl

theorem eval_loop_le : ∀ (n : Nat) (l : Label) (o eb : lobj) (st : State),
    Result.le (eval_loop n l o eb st) (eval_loop (n + 1) l o eb st) := by
  intro n
  induction n with
  | zero => intro l o eb st; exact Or.inl rfl
  | succ n ih =>
    intro l o eb st
    rw [eval_loop, eval_loop]
    rcases eval_step_le (fun e s => ih .eval e NIL (set_callstack s NIL)) n l o eb st with h | h
    · left; rw [h]
    · rw [h]
      split
      · exact ih _ _ _ _
      · exact Or.inr rfl

/-- Fuel monotonicity: an answer reached with some fuel is reached with any
larger amount. -/
theorem eval_loop_mono {n m : Nat} {l : Label} {o eb : lobj} {st : State} {r : Result}
    (h : eval_loop n l o eb st = r) (hr : r ≠ .out_of_fuel) (hnm : n ≤ m) :
    eval_loop m l o eb st = r := by
  induction hnm with
  | refl => exact h
  | step _ ih =>
    rcases eval_loop_le _ l o eb st with h' | h'
    · rw [ih] at h'; exact absurd h' hr
    · rw [← h', ih]

theorem eval_mono {n m : Nat} {o eb : lobj} {st : State} {r : Result}
    (h : eval n o eb st = r) (hr : r ≠ .out_of_fuel) (hnm : n ≤ m) :
    eval m o eb st = r := eval_loop_mono h hr hnm

theorem toplevel_le (n : Nat) : ∀ (es : List lobj) (st : State),
    Result.le (toplevel n es st) (toplevel (n + 1) es st) := by
  intro es
  induction es with
  | nil => intro st; exact Or.inr rfl
  | cons e es ih =>
    intro st
    cases es with
    | nil => exact eval_loop_le _ _ _ _ _
    | cons e2 es =>
      simp only [toplevel]
      rcases eval_loop_le n .eval e NIL (set_callstack st NIL) with h | h
      · left; unfold eval; rw [h]
      · unfold eval; rw [h]
        split
        · exact ih _
        · exact Or.inr rfl

theorem toplevel_mono {n m : Nat} {es : List lobj} {st : State} {r : Result}
    (h : toplevel n es st = r) (hr : r ≠ .out_of_fuel) (hnm : n ≤ m) :
    toplevel m es st = r := by
  induction hnm with
  | refl => exact h
  | step _ ih =>
    rcases toplevel_le _ es st with h' | h'
    · rw [ih] at h'; exact absurd h' hr
    · rw [← h', ih]

/-- A value reached by `eval` with some fuel is reached with any larger
amount. -/
theorem eval_get_mono {n m : Nat} {o eb : lobj} {st : State} {v : lobj}
    (h : (eval n o eb st).get = some v) (hnm : n ≤ m) : (eval m o eb st).get = some v := by
  cases hr : eval n o eb st with
  | value o1 st1 =>
    rw [eval_mono hr (by simp) hnm]
    rw [hr] at h
    exact h
  | _ => rw [hr] at h; simp [Result.get] at h

/-- A final state reached by `eval` with some fuel is reached with any larger
amount. -/
theorem eval_final_mono {n m : Nat} {o eb : lobj} {st st1 : State}
    (h : (eval n o eb st).final = some st1) (hnm : n ≤ m) :
    (eval m o eb st).final = some st1 := by
  cases hr : eval n o eb st with
  | value o1 st2 =>
    rw [eval_mono hr (by simp) hnm]
    rw [hr] at h
    exact h
  | _ => rw [hr] at h; simp [Result.final] at h

/-- A value reached by `toplevel` with some fuel is reached with any larger
amount. -/
theorem toplevel_get_mono {n m : Nat} {es : List lobj} {st : State} {v : lobj}
    (h : (toplevel n es st).get = some v) (hnm : n ≤ m) :
    (toplevel m es st).get = some v := by
  cases hr : toplevel n es st with
  | value o1 st1 =>
    rw [toplevel_mono hr (by simp) hnm]
    rw [hr] at h
    exact h
  | _ => rw [hr] at h; simp [Result.get] at h

/-- A final state reached by `toplevel` with some fuel is reached with any
larger amount. -/
theorem toplevel_final_mono {n m : Nat} {es : List lobj} {st st1 : State}
    (h : (toplevel n es st).final = some st1) (hnm : n ≤ m) :
    (toplevel m es st).final = some st1 := by
  cases hr : toplevel n es st with
  | value o1 st2 =>
    rw [toplevel_mono hr (by simp) hnm]
    rw [hr] at h
    exact h
  | _ => rw [hr] at h; simp [Result.final] at h

/-! ## The standard environment -/

set_option maxRecDepth 100000 in
/-- The state built by the calls of `bind` in `subr_initialize`, written
out. -/
theorem subr_initialize_eq : subr_initialize = standard_state := by decide!

/-! ## Machine integers -/

theorem wrap32_add_wrap32 (x y : Int) : wrap32 (wrap32 x + y) = wrap32 (x + y) := by
  unfold wrap32; omega

theorem wrap32_of_range (x : Int) (h1 : -2147483648 ≤ x) (h2 : x < 2147483648) :
    wrap32 x = x := by
  unfold wrap32; omega

/-! ## Function application (C1, C2, C3, C8) -/

set_option maxRecDepth 100000 in
/-- The run of `((fn (x y) (+ x y)) a b)` in the standard environment: the sum
is computed by the loop of `subr_add`, and the state left has `y` and `x`
bound, in this order, at the head of the lexical chain. -/
theorem fn_add_run (a b : Int) :
    eval 30 (fn_add_form a b) NIL standard_state
      = .value (integer (wrap32 (wrap32 (0 + a) + b))) (fn_add_final_state a b) := by
  rfl

set_option maxRecDepth 100000 in
/-- In the state that the run of `((fn (x y) (+ x y)) a b)` leaves, `x` is bound
to `a` and `y` to `b`. -/
theorem fn_add_final (a b : Int) :
    cdr (fn_add_final_state a b) (binding (fn_add_final_state a b) (symbol "x") 0) = integer a
    ∧ cdr (fn_add_final_state a b) (binding (fn_add_final_state a b) (symbol "y") 0)
        = integer b :=
  ⟨rfl, rfl⟩

/-- C1: for all integers `a` and `b`, `((fn (x y) (+ x y)) a b)` evaluated in
the standard environment yields the sum of `a` and `b` in the 32-bit integer
arithmetic of the language, which is `a + b` itself whenever that number is
a 32-bit integer; the state left has `x` bound to `a` and `y` bound to `b`. -/
theorem C1_fn_add_applies (a b : Int) (fuel : Nat) (hfuel : 30 ≤ fuel) :
    (eval fuel (fn_add_form a b) NIL ( subr_initialize)).get = some (integer (wrap32 (a + b)))
    ∧ (-2147483648 ≤ a + b → a + b < 2147483648 →
        (eval fuel (fn_add_form a b) NIL ( subr_initialize)).get = some (integer (a + b)))
    ∧ ∃ st, (eval fuel (fn_add_form a b) NIL ( subr_initialize)).final = some st
        ∧ cdr st (binding st (symbol "x") 0) = integer a
        ∧ cdr st (binding st (symbol "y") 0) = integer b := by
  rw [ subr_initialize_eq]
  have hrun := fn_add_run a b
  have hv : (eval fuel (fn_add_form a b) NIL standard_state).get
      = some (integer (wrap32 (a + b))) := by
    apply eval_get_mono _ hfuel
    rw [hrun, wrap32_add_wrap32, Int.zero_add]
    rfl
  refine ⟨hv, ?_, ?_⟩
  · intro h1 h2
    rw [hv, wrap32_of_range _ h1 h2]
  · exact ⟨_, eval_final_mono (by rw [hrun]; rfl) hfuel, fn_add_final a b⟩

/-- Witness of C1: with `a = 10` and `b = 32` the result is `42`. -/
theorem C1_fn_add_applies_witness :
    (eval 30 (fn_add_form 10 32) NIL ( subr_initialize)).get = some (integer 42) :=
  (C1_fn_add_applies 10 32 30 (by decide)).2.1 (by decide) (by decide)

set_option maxRecDepth 100000 in
set_option maxHeartbeats 1000000 in
/-- C2: after `(bind! 'fact (fn (n) (if (<= n 1) 1 (* n (fact (- n 1))))))` has
been evaluated in the standard environment, `(fact n)` evaluates to `n!` for
every `1 <= n <= 12`, and each recursive call binds its own `n`: the call
leaves the state `fact_final_state n`, in which each of the `n` calls has
allocated one binding cell of `n`, the cell of the call `(fact k)` still
holding `k` after all the inner calls have returned, and in which the lexical
chain is the binding of the outermost call, holding `n`.  So `n` has the
caller's value when the inner call returns: with the factors in the other
order, `(* (fact (- n 1)) n)`, where `n` is read after the inner call, the
value is `n!` as well. -/
theorem C2_fact (n : Nat) (h1 : 1 ≤ n) (h12 : n ≤ 12) (fuel : Nat) (hfuel : 700 ≤ fuel) :
    toplevel fuel [fact_definition, fact_form n] ( subr_initialize)
        = .value (integer n.factorial) (fact_final_state n)
    ∧ cdr (fact_final_state n) (binding (fact_final_state n) (symbol "n") 0) = integer n
    ∧ (fact_final_state n).cells.take n = (List.range n).map (fun i => integer (i + 1))
    ∧ (toplevel fuel [fact_definition_swapped, fact_form n] ( subr_initialize)).get
        = some (integer n.factorial) := by
  rw [ subr_initialize_eq]
  refine ⟨?_, ?_, ?_, ?_⟩
  · apply toplevel_mono _ (fun h => Result.noConfusion h) hfuel
    interval_cases n <;> decide!
  · interval_cases n <;> decide!
  · interval_cases n <;> rfl
  · apply toplevel_get_mono _ hfuel
    interval_cases n <;> decide!

/-- Witness of C2: `(fact 5)` evaluates to `120`, and leaves five bindings of `n`
holding 5, 4, 3, 2 and 1. -/
theorem C2_fact_witness :
    toplevel 700 [fact_definition, fact_form 5] ( subr_initialize)
      = .value (integer 120) (fact_final_state 5) :=
  (C2_fact 5 (by decide) (by decide) 700 (by decide)).1

/-- C3 (failing input): with `x` globally bound to `1` and an empty lexical
chain, the top-level call `((fn (x) x) 5)` returns `5` and leaves the global
binding of `x` equal to `5`: `bind(x, 5, 1)` finds no boundary on the chain,
goes on to the global list and overwrites the binding it finds there.  The
same call made as an argument, `(+ 1 ((fn (x) x) 5))`, is under a boundary
and leaves the global binding equal to `1`. -/
theorem C3_toplevel_call_overwrites_global :
    (eval 30 bind_x_form NIL ( subr_initialize)).final.map
        (fun st => (st.local_env, global_value st (symbol "x"))) = some (NIL, integer 1)
    ∧ (toplevel 30 [bind_x_form, identity_call_form] ( subr_initialize)).get
        = some (integer 5)
    ∧ (toplevel 30 [bind_x_form, identity_call_form] ( subr_initialize)).final.map
        (fun st => global_value st (symbol "x")) = some (integer 5)
    ∧ (toplevel 40 [bind_x_form, nested_identity_call_form] ( subr_initialize)).final.map
        (fun st => global_value st (symbol "x")) = some (integer 1) := by
  rw [ subr_initialize_eq]
  decide!

/-- C6 (failing input): for the formals `(a (eval b) c)` the function built by
`subr_fn` has the eval pattern binary 011, not 101: the branch of `(eval x)`
does not shift `mask`, so the bit of `c` lands on the position of `b`.  In a
call, the second argument is therefore evaluated and the third is passed
unevaluated. -/
theorem C6_mixed_formals_pattern :
    subr_fn (list [mixed_formals, NIL]) initial_state
      = .value (function 1539 (list [symbol "a", symbol "b", symbol "c"]) NIL) initial_state
    ∧ eval_pattern (function 1539 (list [symbol "a", symbol "b", symbol "c"]) NIL) = 3
    ∧ (eval 60 (mixed_formals_call "b") NIL ( subr_initialize)).get = some (integer 2)
    ∧ (eval 60 (mixed_formals_call "c") NIL ( subr_initialize)).get
        = some (list [symbol "+", integer 1, integer 2]) := by
  rw [ subr_initialize_eq]
  decide!

set_option maxRecDepth 100000 in
/-- The run of `((fn ((eval x)) x) e)` in the standard environment. -/
theorem quoted_parameter_run (e : lobj) :
    (eval 30 (quoted_parameter_form e) NIL standard_state).get = some e := by
  rfl

/-- C8: for every form `e`, `((fn ((eval x)) x) e)` evaluates to `e` itself,
unevaluated; with `e = (+ 1 2)` the result is the list `(+ 1 2)`. -/
theorem C8_quoted_parameter (e : lobj) (fuel : Nat) (hfuel : 30 ≤ fuel) :
    (eval fuel (quoted_parameter_form e) NIL ( subr_initialize)).get = some e := by
  rw [ subr_initialize_eq]
  exact eval_get_mono (quoted_parameter_run e) hfuel

/-- Witness of C8: with `e = (+ 1 2)` the result is the list `(+ 1 2)`, not
`3`. -/
theorem C8_quoted_parameter_witness :
    (eval 30 (quoted_parameter_form (list [symbol "+", integer 1, integer 2])) NIL
        ( subr_initialize)).get
      = some (list [symbol "+", integer 1, integer 2]) :=
  C8_quoted_parameter _ 30 (by decide)

/-! ## The environment (C4, C5) -/

theorem load_cons (v : lobj) (cells : List lobj) (i : Nat) (h : i < cells.length) :
    load (v :: cells) i = load cells i := by
  unfold load
  have e : (v :: cells).length - 1 - i = (cells.length - 1 - i) + 1 := by
    simp only [List.length_cons]; omega
  rw [e]
  rfl

theorem entry_ok_cdr (st : State) (v : lobj) (b : lobj)
    (h : entry_ok st.cells.length b = true) :
    cdr ⟨st.local_env, st.global_env, st.callstack, v :: st.cells, st.next_symbol⟩ b
      = cdr st b := by
  cases b <;> simp [entry_ok] at h
  · rfl
  · simp only [cdr]
    exact load_cons _ _ _ h

theorem binding_global_ok (n : Nat) (o : lobj) : ∀ (l : lobj), entries_ok n l = true →
    entry_ok n (binding_global o l) = true := by
  intro l
  induction l with
  | cons b rest _ ih =>
    intro h
    simp only [entries_ok, Bool.and_eq_true] at h
    rw [binding_global]
    split
    · exact h.1
    · exact ih h.2
  | _ => intro _; rfl

theorem binding_local_ok (st : State) (n : Nat) (o : lobj) (loc : Int)
    (hg : entries_ok n (cdr st st.global_env) = true) :
    ∀ (l : lobj), entries_ok n l = true → entry_ok n (binding_local st o loc l) = true := by
  intro l
  induction l with
  | cons b rest _ ih =>
    intro h
    simp only [entries_ok, Bool.and_eq_true] at h
    rw [binding_local]
    split
    · rfl
    · split
      · exact h.1
      · exact ih h.2
  | _ => intro _; simp only [binding_local]; exact binding_global_ok n o _ hg

theorem binding_local_congr (st st' : State) (o : lobj) (loc : Int)
    (hg : cdr st' st'.global_env = cdr st st.global_env) :
    ∀ (l : lobj), binding_local st' o loc l = binding_local st o loc l := by
  intro l
  induction l with
  | cons b rest _ ih =>
    rw [binding_local, binding_local, ih]
  | _ => simp only [binding_local, hg]

theorem bind_under_boundary (st : State) (o v : lobj) (loc : Int) (hloc : loc ≠ 0) :
    bind o v loc (env_boundary st)
      = ⟨cons (cell o st.cells.length) (cons NIL st.local_env), st.global_env, st.callstack,
          v :: st.cells, st.next_symbol⟩ := by
  cases st
  simp [bind, binding, binding_local, env_boundary, alloc, hloc]

theorem wf_global_env {st : State} (h : st.wf = true) :
    ∃ g, st.global_env = cell NIL g ∧ g < st.cells.length := by
  unfold State.wf at h
  simp only [Bool.and_eq_true] at h
  obtain ⟨⟨h1, _⟩, _⟩ := h
  split at h1
  · next g heq => exact ⟨g, heq, by simpa using h1⟩
  · simp at h1

/-- C4: in every environment state, after `env_boundary()` a call
`bind(o, v, local)` with non-zero `local` prepends a new binding `(o . v)` to
the lexical chain, leaves `global_env` and the content of every existing cell
(binding cells and the head of the global list) as they were; and in a
well-formed state, once `local_env` is reset to its value before the
boundary, `binding(x, 0)` returns for every `x` the cell it returned before,
holding the same value. -/
theorem C4_bind_under_boundary (st : State) (o v : lobj) (loc : Int) (hloc : loc ≠ 0) :
    (bind o v loc (env_boundary st)).local_env
        = cons (cell o st.cells.length) (cons NIL st.local_env)
    ∧ (bind o v loc (env_boundary st)).cells = v :: st.cells
    ∧ (bind o v loc (env_boundary st)).global_env = st.global_env
    ∧ (∀ i, i < st.cells.length →
        load (bind o v loc (env_boundary st)).cells i = load st.cells i)
    ∧ (st.wf = true → ∀ x,
        binding (set_env (bind o v loc (env_boundary st)) st.local_env st.global_env) x 0
            = binding st x 0
        ∧ cdr (set_env (bind o v loc (env_boundary st)) st.local_env st.global_env)
              (binding st x 0)
            = cdr st (binding st x 0)) := by
  rw [bind_under_boundary st o v loc hloc]
  refine ⟨rfl, rfl, rfl, fun i hi => load_cons _ _ _ hi, ?_⟩
  intro hwf x
  obtain ⟨g, hge, hlt⟩ := wf_global_env hwf
  simp only [State.wf, Bool.and_eq_true] at hwf
  obtain ⟨⟨_, hl⟩, hgl⟩ := hwf
  have hg : cdr ⟨st.local_env, st.global_env, st.callstack, v :: st.cells, st.next_symbol⟩
      st.global_env = cdr st st.global_env := by
    apply entry_ok_cdr
    rw [hge]
    simpa [entry_ok] using hlt
  constructor
  · simp only [set_env, binding]
    exact binding_local_congr _ _ _ _ hg _
  · simp only [set_env]
    exact entry_ok_cdr st v _ (binding_local_ok st _ x 0 hgl _ hl)

/-- Witness of C4: in the standard environment, binding `+` locally under a
boundary and dropping the lexical chain again leaves the lookup of `+` as it
was. -/
theorem C4_bind_under_boundary_witness :
    binding (set_env (bind (symbol "+") (integer 1) 1 (env_boundary standard_state))
        standard_state.local_env standard_state.global_env) (symbol "+") 0
      = binding standard_state (symbol "+") 0 :=
  ((C4_bind_under_boundary standard_state (symbol "+") (integer 1) 1 (by decide)).2.2.2.2
    (by decide!) (symbol "+")).1

theorem binding_global_list (o : lobj) : ∀ (globals : List lobj),
    binding_global o (list globals)
      = (globals.find? (fun b => decide (car b = o))).getD NIL := by
  intro globals
  induction globals with
  | nil => rfl
  | cons b bs ih =>
    show binding_global o (cons b (list bs)) = _
    rw [binding_global, List.find?_cons]
    by_cases h : car b = o
    · simp [h]
    · simp only [h, if_false, decide_False]
      exact ih

/-- C5: `binding(o, local)` is the lookup that the specification words: the
first binding of `o` on the lexical chain (boundaries skipped) for a full
search, the first one before the first boundary for a local-only search,
`()` when a local-only search meets a boundary first, and otherwise the first
binding of `o` in the global list, or `()`. -/
theorem C5_binding_refines_spec (st : State) (chain globals : List lobj) (o : lobj)
    (loc : Int) (hl : st.local_env = list chain)
    (hg : cdr st st.global_env = list globals) :
    binding st o loc = binding_spec chain globals o loc := by
  unfold binding binding_spec
  rw [hl]
  clear hl
  induction chain with
  | nil =>
    show binding_global o (cdr st st.global_env) = _
    rw [hg, binding_global_list]
    by_cases h : loc = 0 <;> simp [h]
  | cons b bs ih =>
    show binding_local st o loc (cons b (list bs)) = _
    rw [binding_local, ih]
    by_cases hloc : loc = 0
    · subst hloc
      by_cases hb : b ≠ NIL ∧ car b = o
      · have : is_binding_of o b = true := by simp [is_binding_of, hb.1, hb.2]
        simp [hb, List.find?_cons, this]
      · have : is_binding_of o b = false := by
          simp only [is_binding_of, Bool.and_eq_false_imp, decide_eq_true_eq, decide_eq_false_iff_not]
          intro h1 h2; exact hb ⟨h1, h2⟩
        simp [hb, List.find?_cons, this]
    · by_cases hnil : b = NIL
      · subst hnil
        simp [hloc]
      · by_cases hb : car b = o
        · have : is_binding_of o b = true := by simp [is_binding_of, hnil, hb]
          simp [hloc, hnil, hb, List.takeWhile_cons, List.find?_cons, this]
        · have : is_binding_of o b = false := by simp [is_binding_of, hnil, hb]
          have hne : ¬ NIL = b := fun h => hnil h.symm
          simp [hloc, hnil, hb, List.takeWhile_cons, List.find?_cons, this, hne]

/-- Witness of C5: with the lexical chain `((x . 7) NIL (y . 5))` and the
global list `((y . 3))`, the local-only lookup of `y` meets the boundary. -/
theorem C5_binding_refines_spec_witness :
    binding ⟨list [cell (symbol "x") 3, NIL, cell (symbol "y") 2], cell NIL 0, NIL,
        [integer 7, integer 5, integer 3, list [cell (symbol "y") 1]], 0⟩ (symbol "y") 1
      = binding_spec [cell (symbol "x") 3, NIL, cell (symbol "y") 2] [cell (symbol "y") 1]
          (symbol "y") 1 :=
  C5_binding_refines_spec _ _ _ _ _ rfl rfl

/-! ## Arity descriptors (C6, C7) -/

theorem bits32_lt (x : Int) : bits32 x < 4294967296 := by
  unfold bits32; omega

theorem bits32_wrap32 (x : Int) : bits32 (wrap32 x) = bits32 x := by
  unfold bits32 wrap32
  congr 1
  omega

theorem bits32_natCast (n : Nat) (h : n < 4294967296) : bits32 (n : Int) = n := by
  unfold bits32; omega

theorem bits32_or32 (x y : Int) : bits32 (or32 x y) = bits32 x ||| bits32 y := by
  unfold or32
  rw [bits32_wrap32, bits32_natCast]
  have hx : bits32 x < 2 ^ 32 := bits32_lt x
  have hy : bits32 y < 2 ^ 32 := bits32_lt y
  exact Nat.or_lt_two_pow hx hy

theorem bits32_shl32_mod (x : Int) (n : Fin 32) (h : 9 ≤ n.val) :
    bits32 (shl32 x n) % 512 = 0 := by
  unfold shl32
  rw [bits32_wrap32]
  unfold bits32
  obtain ⟨k, hk⟩ : ∃ k, n.val = 9 + k := ⟨n.val - 9, by omega⟩
  have e : x * 2 ^ n.val = 512 * (x * 2 ^ k) := by rw [hk, pow_add]; ring
  rw [e]
  omega

theorem min_args_eq (d : Int) : min_args d = ((bits32 d % 512 % 256 : Nat) : Int) := by
  unfold min_args bits32; omega

theorem variadic_eq (d : Int) : variadic d = decide (bits32 d % 512 / 256 = 1) := by
  unfold variadic bits32
  congr 1
  apply propext
  omega

theorem or_mod_512 (a b : Nat) : (a ||| b) % 512 = a % 512 ||| b % 512 := by
  apply Nat.eq_of_testBit_eq
  intro i
  have e : (512 : Nat) = 2 ^ 9 := rfl
  rw [e]
  simp only [Nat.testBit_mod_two_pow, Nat.testBit_or]
  cases decide (i < 9) <;> simp

theorem or_256_small (len : Nat) (h : len < 256) : (256 ||| len) = 256 + len := by
  have h8 : len < 2 ^ 8 := h
  have := Nat.mul_add_lt_is_or h8 1
  simpa using this.symm

/-- The low nine bits of the descriptor of a function without rest parameter. -/
theorem low_bits_plain (pattern : Int) (len : Nat) (h : len < 256) :
    bits32 (or32 (shl32 pattern 9) len) % 512 = len := by
  rw [bits32_or32, or_mod_512, bits32_shl32_mod _ 9 (by decide),
    bits32_natCast _ (by omega), Nat.zero_or]
  omega

/-- The low nine bits of the descriptor of a function with an `eval NAME`
tail. -/
theorem low_bits_quoted_rest (pattern : Int) (len : Nat) (h : len < 256) :
    bits32 (or32 (or32 (shl32 pattern 9) 256) len) % 512 = 256 + len := by
  rw [bits32_or32, or_mod_512, bits32_or32, or_mod_512, bits32_shl32_mod _ 9 (by decide),
    bits32_natCast _ (by omega), Nat.zero_or]
  have e : bits32 (256 : Int) = 256 := by decide
  rw [e]
  have : len % 512 = len := by omega
  rw [this]
  exact or_256_small len h

/-- The low nine bits of the descriptor of a function with a rest symbol. -/
theorem low_bits_rest (pattern : Int) (len : Nat) (h : 9 + len < 32) :
    bits32 (or32 (or32 (or32 (shl32 (-1) ⟨9 + len, h⟩) (shl32 pattern 9)) 256) len) % 512
      = 256 + len := by
  rw [bits32_or32, or_mod_512, bits32_or32, or_mod_512, bits32_or32, or_mod_512,
    bits32_shl32_mod _ 9 (by decide), bits32_shl32_mod _ ⟨9 + len, h⟩ (by simp),
    bits32_natCast _ (by omega), Nat.zero_or, Nat.zero_or]
  have e : bits32 (256 : Int) = 256 := by decide
  rw [e]
  have : len % 512 = len := by omega
  rw [this]
  exact or_256_small len (by omega)

theorem descriptor_plain (pattern : Int) (len : Nat) (h : len < 256) :
    min_args (or32 (shl32 pattern 9) len) = len
    ∧ variadic (or32 (shl32 pattern 9) len) = false := by
  rw [min_args_eq, variadic_eq, low_bits_plain _ _ h]
  constructor
  · congr 1; omega
  · rw [decide_eq_false_iff_not]; omega

theorem descriptor_quoted_rest (pattern : Int) (len : Nat) (h : len < 256) :
    min_args (or32 (or32 (shl32 pattern 9) 256) len) = len
    ∧ variadic (or32 (or32 (shl32 pattern 9) 256) len) = true := by
  rw [min_args_eq, variadic_eq, low_bits_quoted_rest _ _ h]
  constructor
  · congr 1; omega
  · rw [decide_eq_true_eq]; omega

theorem descriptor_rest (pattern : Int) (len : Nat) (h : 9 + len < 32) :
    min_args (or32 (or32 (or32 (shl32 (-1) ⟨9 + len, h⟩) (shl32 pattern 9)) 256) len) = len
    ∧ variadic (or32 (or32 (or32 (shl32 (-1) ⟨9 + len, h⟩) (shl32 pattern 9)) 256) len)
        = true := by
  rw [min_args_eq, variadic_eq, low_bits_rest _ _ h]
  constructor
  · congr 1; omega
  · rw [decide_eq_true_eq]; omega

theorem subr_fn_loop_cons (st : State) (body f rest : lobj) (names : List lobj)
    (pattern mask : Int) (len : Nat) :
    subr_fn_loop st body (cons f rest) names pattern mask len
      = if f = symbol "eval" then
          (if symbolp (car rest) then
            .value (function (or32 (or32 (shl32 pattern 9) 256) len)
              (list_with_tail names (car rest)) body) st
          else .lisp_error "invalid syntax in subr \"fn\".")
        else if !consp f then
          subr_fn_loop st body rest (names ++ [f])
            (or32 pattern (and32 mask (-1))) (shl32 mask 1) (incr_uchar len)
        else if car f = symbol "eval" ∧ symbolp (car (cdr st f)) then
          subr_fn_loop st body rest (names ++ [car (cdr st f)]) pattern mask (incr_uchar len)
        else .lisp_error "invalid syntax in subr \"fn\"." := rfl

/-- The loop of `subr_fn` at a rest symbol. -/
theorem subr_fn_loop_symbol (st : State) (body s : lobj) (hs : symbolp s = true)
    (names : List lobj) (pattern mask : Int) (len : Nat) :
    subr_fn_loop st body s names pattern mask len
      = if h : 9 + len < 32 then
          .value (function
            (or32 (or32 (or32 (shl32 (-1) ⟨9 + len, h⟩) (shl32 pattern 9)) 256) len)
            (list_with_tail names s) body) st
        else .undefined "shift of an int by 32 bits or more" := by
  cases s <;> simp [symbolp] at hs <;> rfl

/-- The loop of `subr_fn` on the rest of a valid specification whose shifts are
defined (no rest symbol, or at most 22 positional formals in all): the
function built has `len` plus the number of remaining positional formals as
its minimum argument count, and its variadic flag tells whether the
specification ends in a rest parameter. -/
theorem subr_fn_loop_arity (st : State) (body : lobj) (r : Rest) (hr : r.valid) :
    ∀ (fs : List Formal) (names : List lobj) (pattern mask : Int) (len : Nat),
      len + fs.length ≤ 255 → (r.is_rest_symbol = false ∨ len + fs.length ≤ 22) →
      (∀ f ∈ fs, f.valid) →
      ∃ d formals, subr_fn_loop st body (formals_form fs r) names pattern mask len
          = .value (function d formals body) st
        ∧ min_args d = ((len + fs.length : Nat) : Int) ∧ (variadic d = true ↔ r ≠ Rest.none) := by
  intro fs
  induction fs with
  | nil =>
    intro names pattern mask len hlen hshift _
    simp only [List.length_nil, Nat.add_zero] at hlen hshift ⊢
    cases r with
    | none =>
      refine ⟨_, _, rfl, (descriptor_plain pattern len (by omega)).1, ?_⟩
      rw [(descriptor_plain pattern len (by omega)).2]
      simp
    | rest_symbol s =>
      have hs : symbolp s = true := hr
      have h22 : 9 + len < 32 := by
        rcases hshift with h | h
        · exact absurd h (by simp [Rest.is_rest_symbol])
        · omega
      refine ⟨or32 (or32 (or32 (shl32 (-1) ⟨9 + len, h22⟩) (shl32 pattern 9)) 256) len,
        list_with_tail names s, ?_, (descriptor_rest pattern len h22).1, ?_⟩
      · show subr_fn_loop st body s names pattern mask len = _
        rw [subr_fn_loop_symbol st body s hs, dif_pos h22]
      · rw [(descriptor_rest pattern len h22).2]
        simp
    | eval_name s =>
      have hs : symbolp s = true := hr
      refine ⟨or32 (or32 (shl32 pattern 9) 256) len, list_with_tail names s, ?_,
        (descriptor_quoted_rest pattern len (by omega)).1, ?_⟩
      · show subr_fn_loop st body (cons (symbol "eval") (cons s NIL)) names pattern mask len = _
        rw [subr_fn_loop_cons]
        simp only [car, hs, if_true]
      · rw [(descriptor_quoted_rest pattern len (by omega)).2]
        simp
  | cons f fs ih =>
    intro names pattern mask len hlen hshift hv
    have hvf := hv f (List.mem_cons_self _ _)
    have hvfs : ∀ g ∈ fs, g.valid := fun g hg => hv g (List.mem_cons_of_mem _ hg)
    simp only [List.length_cons] at hlen hshift
    have hinc : incr_uchar len = len + 1 := by unfold incr_uchar; omega
    have hsum : len + (f :: fs).length = (len + 1) + fs.length := by
      simp only [List.length_cons]; omega
    have hshift2 : r.is_rest_symbol = false ∨ (len + 1) + fs.length ≤ 22 := by
      rcases hshift with h | h
      · exact Or.inl h
      · exact Or.inr (by omega)
    rw [hsum]
    cases f with
    | plain x =>
      obtain ⟨hx, hne⟩ : symbolp x = true ∧ x ≠ symbol "eval" := hvf
      have hnc : consp x = false := by cases x <;> simp [symbolp] at hx <;> rfl
      obtain ⟨d, formals, h1, h2, h3⟩ :=
        ih (names ++ [x]) (or32 pattern (and32 mask (-1))) (shl32 mask 1) (len + 1)
          (by omega) hshift2 hvfs
      refine ⟨d, formals, ?_, h2, h3⟩
      show subr_fn_loop st body (cons x (formals_form fs r)) names pattern mask len = _
      rw [subr_fn_loop_cons]
      simp only [hne, if_false, hnc, Bool.not_false, if_true, hinc]
      exact h1
    | quoted x =>
      have hx : symbolp x = true := hvf
      obtain ⟨d, formals, h1, h2, h3⟩ :=
        ih (names ++ [x]) pattern mask (len + 1) (by omega) hshift2 hvfs
      refine ⟨d, formals, ?_, h2, h3⟩
      show subr_fn_loop st body (cons (cons (symbol "eval") (cons x NIL)) (formals_form fs r))
        names pattern mask len = _
      rw [subr_fn_loop_cons]
      simp only [consp, car, cdr, hx, hinc]
      simpa using h1

/-- The loop of `subr_fn` on the rest of a valid specification that ends in a
rest symbol after 23 positional formals or more in all: the shift
`~0 << (9 + len)` is by 32 bits or more. -/
theorem subr_fn_loop_shift (st : State) (body s : lobj) (hs : symbolp s = true) :
    ∀ (fs : List Formal) (names : List lobj) (pattern mask : Int) (len : Nat),
      len + fs.length ≤ 255 → 23 ≤ len + fs.length → (∀ f ∈ fs, f.valid) →
      subr_fn_loop st body (formals_form fs (.rest_symbol s)) names pattern mask len
        = .undefined "shift of an int by 32 bits or more" := by
  intro fs
  induction fs with
  | nil =>
    intro names pattern mask len _ h23 _
    simp only [List.length_nil, Nat.add_zero] at h23
    show subr_fn_loop st body s names pattern mask len = _
    rw [subr_fn_loop_symbol st body s hs, dif_neg (by omega)]
  | cons f fs ih =>
    intro names pattern mask len hlen h23 hv
    have hvf := hv f (List.mem_cons_self _ _)
    have hvfs : ∀ g ∈ fs, g.valid := fun g hg => hv g (List.mem_cons_of_mem _ hg)
    simp only [List.length_cons] at hlen h23
    have hinc : incr_uchar len = len + 1 := by unfold incr_uchar; omega
    cases f with
    | plain x =>
      obtain ⟨hx, hne⟩ : symbolp x = true ∧ x ≠ symbol "eval" := hvf
      have hnc : consp x = false := by cases x <;> simp [symbolp] at hx <;> rfl
      show subr_fn_loop st body (cons x (formals_form fs (.rest_symbol s))) names pattern mask
        len = _
      rw [subr_fn_loop_cons]
      simp only [hne, if_false, hnc, Bool.not_false, if_true, hinc]
      exact ih _ _ _ _ (by omega) (by omega) hvfs
    | quoted x =>
      have hx : symbolp x = true := hvf
      show subr_fn_loop st body
        (cons (cons (symbol "eval") (cons x NIL)) (formals_form fs (.rest_symbol s)))
        names pattern mask len = _
      rw [subr_fn_loop_cons]
      simp only [consp, car, cdr, hx, hinc]
      simpa using ih (names ++ [x]) pattern mask (len + 1) (by omega) (by omega) hvfs

theorem subr_fn_cons (st : State) (body f rest : lobj) :
    subr_fn (cons (cons f rest) (cons body NIL)) st
      = if f = symbol "eval" then
          (if symbolp (car rest) then .value (function 256 (car rest) body) st
          else .lisp_error "invalid syntax in subr \"fn\".")
        else if !consp f then subr_fn_loop st body rest [f] 1 2 1
        else if car f = symbol "eval" ∧ symbolp (car (cdr st f)) then
          subr_fn_loop st body rest [car (cdr st f)] 0 2 1
        else .lisp_error "invalid syntax in subr \"fn\"." := rfl

/-- The primitive `subr_fn` on a valid specification with at least one
positional formal: the loop, entered after the first formal. -/
theorem subr_fn_first (st : State) (body : lobj) (f : Formal) (fs : List Formal) (r : Rest)
    (hf : f.valid) :
    ∃ (x : lobj) (pattern : Int),
      subr_fn (list [formals_form (f :: fs) r, body]) st
        = subr_fn_loop st body (formals_form fs r) [x] pattern 2 1 := by
  cases f with
  | plain x =>
    obtain ⟨hx, hne⟩ : symbolp x = true ∧ x ≠ symbol "eval" := hf
    have hnc : consp x = false := by cases x <;> simp [symbolp] at hx <;> rfl
    refine ⟨x, 1, ?_⟩
    show subr_fn (cons (cons x (formals_form fs r)) (cons body NIL)) st = _
    rw [subr_fn_cons]
    simp only [hne, if_false, hnc, Bool.not_false, if_true]
  | quoted x =>
    have hx : symbolp x = true := hf
    refine ⟨x, 0, ?_⟩
    show subr_fn (cons (cons (cons (symbol "eval") (cons x NIL)) (formals_form fs r))
      (cons body NIL)) st = _
    rw [subr_fn_cons]
    simp only [consp, car, cdr, hx]
    simp

/-- The descriptor of a function with 23 positional formals and a rest symbol
on a processor that takes the count of a shift modulo 32. -/
theorem descriptor_rest_wrapped (pattern : Int) :
    min_args (or32 (or32 (or32 (shl32 (-1) (Fin.ofNat (9 + 23))) (shl32 pattern 9)) 256) 23)
      = 255 := by
  rw [min_args_eq, bits32_or32, or_mod_512, bits32_or32, or_mod_512, bits32_or32, or_mod_512,
    bits32_shl32_mod _ 9 (by decide)]
  have e1 : bits32 (shl32 (-1) (Fin.ofNat (9 + 23))) % 512 = 511 := by decide
  have e2 : bits32 (256 : Int) % 512 = 256 := by decide
  have e3 : bits32 (23 : Int) % 512 = 23 := by decide
  rw [e1, e2, e3]
  decide

/-- C7 (failing input): `(fn (a b c d e f g h i j k l m n o p q s t u v w x . r)
BODY)`, 23 positional formals and a rest symbol.  For every valid formals
specification with `k <= 255` positional formals that does not end in a rest
symbol after 23 positional formals or more, `subr_fn` builds a function whose
descriptor has `k` in its low 8 bits and whose variadic flag (bit 8) is set
exactly when the specification ends in a rest parameter (a rest symbol, or an
`eval NAME` tail).  At a rest symbol the source computes `~0 << (9 + len)`:
after 23 positional formals or more this shifts an `int` by 32 bits or more,
which C leaves undefined, and no descriptor is determined.  Where the
processor takes the count modulo 32, the shift by 32 bits is the shift by 0
bits and gives `~0`: the descriptor of the failing input then has 255 in its
low 8 bits, not 23. -/
theorem C7_descriptor_arity (fs : List Formal) (r : Rest) (body : lobj) (st : State)
    (hk : fs.length ≤ 255) (hfs : ∀ f ∈ fs, f.valid) (hr : r.valid) :
    (r.is_rest_symbol = false ∨ fs.length ≤ 22 →
      ∃ d formals, subr_fn (list [formals_form fs r, body]) st
          = .value (function d formals body) st
        ∧ min_args d = (fs.length : Int) ∧ (variadic d = true ↔ r ≠ Rest.none))
    ∧ (r.is_rest_symbol = true → 23 ≤ fs.length →
      subr_fn (list [formals_form fs r, body]) st
        = .undefined "shift of an int by 32 bits or more")
    ∧ (∀ pattern : Int,
      min_args (or32 (or32 (or32 (shl32 (-1) (Fin.ofNat (9 + 23))) (shl32 pattern 9)) 256) 23)
        = 255) := by
  refine ⟨?_, ?_, descriptor_rest_wrapped⟩
  · intro hshift
    cases fs with
    | nil =>
      cases r with
      | none =>
        refine ⟨0, NIL, rfl, by decide, ?_⟩
        constructor
        · intro h; exact absurd h (by decide)
        · intro h; exact absurd rfl h
      | rest_symbol s =>
        have hs : symbolp s = true := hr
        cases s <;> simp [symbolp] at hs
        all_goals exact ⟨shl32 (-1) 8, _, rfl, by decide, by simp; decide⟩
      | eval_name s =>
        have hs : symbolp s = true := hr
        refine ⟨256, s, ?_, by decide, by simp; decide⟩
        show subr_fn (cons (cons (symbol "eval") (cons s NIL)) (cons body NIL)) st = _
        rw [subr_fn_cons]
        simp only [car, hs, if_true]
    | cons f fs =>
      have hvf := hfs f (List.mem_cons_self _ _)
      have hvfs : ∀ g ∈ fs, g.valid := fun g hg => hfs g (List.mem_cons_of_mem _ hg)
      simp only [List.length_cons] at hk hshift
      have hsum : (((f :: fs).length : Nat) : Int) = ((1 + fs.length : Nat) : Int) := by
        simp only [List.length_cons]; congr 1; omega
      rw [hsum]
      obtain ⟨x, pattern, hfirst⟩ := subr_fn_first st body f fs r hvf
      obtain ⟨d, formals, h1, h2, h3⟩ :=
        subr_fn_loop_arity st body r hr fs [x] pattern 2 1 (by omega)
          (by
            rcases hshift with h | h
            · exact Or.inl h
            · exact Or.inr (by omega))
          hvfs
      exact ⟨d, formals, hfirst.trans h1, h2, h3⟩
  · intro hrest h23
    cases r with
    | none => exact absurd hrest (by simp [Rest.is_rest_symbol])
    | eval_name s => exact absurd hrest (by simp [Rest.is_rest_symbol])
    | rest_symbol s =>
      have hs : symbolp s = true := hr
      cases fs with
      | nil => simp only [List.length_nil] at h23; omega
      | cons f fs =>
        have hvf := hfs f (List.mem_cons_self _ _)
        have hvfs : ∀ g ∈ fs, g.valid := fun g hg => hfs g (List.mem_cons_of_mem _ hg)
        simp only [List.length_cons] at hk h23
        obtain ⟨x, pattern, hfirst⟩ := subr_fn_first st body f fs (.rest_symbol s) hvf
        rw [hfirst]
        exact subr_fn_loop_shift st body s hs fs [x] pattern 2 1 (by omega) (by omega) hvfs

/-- Witness of C7: the specification `(a (eval b) . r)` has two positional
formals and a rest symbol; the specification of the 23 plain formals `a` to
`x` (without `r`) and the rest symbol `r` has no descriptor. -/
theorem C7_descriptor_arity_witness :
    (∃ d formals,
      subr_fn (list [formals_form [.plain (symbol "a"), .quoted (symbol "b")]
          (.rest_symbol (symbol "r")), NIL]) initial_state
        = .value (function d formals NIL) initial_state
      ∧ min_args d = (([Formal.plain (symbol "a"), Formal.quoted (symbol "b")].length : Nat) : Int)
      ∧ (variadic d = true ↔ Rest.rest_symbol (symbol "r") ≠ Rest.none))
    ∧ subr_fn (list [formals_form
          (["a", "b", "c", "d", "e", "f", "g", "h", "i", "j", "k", "l", "m", "n", "o", "p", "q",
            "s", "t", "u", "v", "w", "x"].map (fun name => Formal.plain (symbol name)))
          (.rest_symbol (symbol "r")), NIL]) initial_state
        = .undefined "shift of an int by 32 bits or more" :=
  ⟨(C7_descriptor_arity [.plain (symbol "a"), .quoted (symbol "b")] (.rest_symbol (symbol "r"))
      NIL initial_state (by decide)
      (by
        intro f hf
        simp only [List.mem_cons, List.mem_singleton, List.not_mem_nil, or_false] at hf
        rcases hf with rfl | rfl
        · exact ⟨rfl, by decide⟩
        · exact rfl)
      rfl).1 (Or.inr (by decide)),
    (C7_descriptor_arity _ (.rest_symbol (symbol "r")) NIL initial_state (by decide)
      (by
        intro f hf
        obtain ⟨name, hname, rfl⟩ := List.mem_map.mp hf
        refine ⟨rfl, ?_⟩
        intro h
        injection h with h
        subst h
        revert hname
        decide)
      rfl).2.1 rfl (by decide)⟩

/-! ## Arity checks and partial application (C9, C10) -/

set_option maxRecDepth 100000 in
/-- The run of `(f 'a)` for a function `f` of two evaluated formals. -/
theorem under_application_run (fs body a : lobj) :
    eval 11 (list [function 1538 fs body, quote_form a]) NIL standard_state
      = .value (pa 1 (function 1538 fs body) (list [a])) standard_state := by
  rfl

set_option maxRecDepth 100000 in
/-- The run of `((f 'a) 'b)` up to the application of `f`. -/
theorem curried_call_run (fs body a b : lobj) (n : Nat) :
    eval (n + 19) (list [list [function 1538 fs body, quote_form a], quote_form b]) NIL
        standard_state
      = eval_loop n .apply (pa 0 (function 1538 fs body) (list [a, b])) NIL standard_state := by
  rfl

set_option maxRecDepth 100000 in
/-- The run of `(f 'a 'b)` up to the application of `f`. -/
theorem full_call_run (fs body a b : lobj) (n : Nat) :
    eval (n + 15) (list [function 1538 fs body, quote_form a, quote_form b]) NIL
        standard_state
      = eval_loop n .apply (pa 0 (function 1538 fs body) (list [a, b])) NIL standard_state := by
  rfl

/-- C9: for every function `f` built by `fn` from two plain formals `(x y)`
(its descriptor is 1538: two positions, both evaluated, no rest) and all values
`a` and `b`: `(f 'a)` evaluates to a partial application holding `f` and `a`;
applying a partial application that holds `f` and `a` to `b` is applying `f`
to `a` and `b` in this order; and `((f 'a) 'b)` has the same result as
`(f 'a 'b)`. -/
theorem C9_partial_application (x y body a b : lobj)
    (hx : symbolp x = true ∧ x ≠ symbol "eval") (hy : symbolp y = true ∧ y ≠ symbol "eval") :
    subr_fn (list [list [x, y], body]) standard_state
        = .value (function 1538 (list [x, y]) body) standard_state
    ∧ (∀ fuel, 11 ≤ fuel →
        eval fuel (list [function 1538 (list [x, y]) body, quote_form a]) NIL
            ( subr_initialize)
          = .value (pa 1 (function 1538 (list [x, y]) body) (list [a])) ( subr_initialize))
    ∧ (∀ fuel ev p errorback st,
        eval_step fuel ev .apply (pa p (function 1538 (list [x, y]) body) (list [a]))
            errorback st
          = .goto .ret (pa p (function 1538 (list [x, y]) body) (list [a])) st)
    ∧ (∀ fuel ev p q errorback st,
        eval_step fuel ev .apply
            (pa q (pa p (function 1538 (list [x, y]) body) (list [a])) (list [b])) errorback st
          = .goto .apply (pa 0 (function 1538 (list [x, y]) body) (list [a, b])) st)
    ∧ (∀ r, r ≠ .out_of_fuel →
        ((∃ n, eval n (list [list [function 1538 (list [x, y]) body, quote_form a],
              quote_form b]) NIL ( subr_initialize) = r)
          ↔ (∃ n, eval n (list [function 1538 (list [x, y]) body, quote_form a, quote_form b])
              NIL ( subr_initialize) = r))) := by
  rw [ subr_initialize_eq]
  refine ⟨?_, ?_, ?_, ?_, ?_⟩
  · obtain ⟨hx1, hx2⟩ := hx
    obtain ⟨hy1, hy2⟩ := hy
    have hxc : consp x = false := by cases x <;> simp [symbolp] at hx1 <;> rfl
    have hyc : consp y = false := by cases y <;> simp [symbolp] at hy1 <;> rfl
    show subr_fn (cons (cons x (cons y NIL)) (cons body NIL)) standard_state = _
    rw [subr_fn_cons]
    simp only [hx2, if_false, hxc, Bool.not_false, if_true]
    rw [subr_fn_loop_cons]
    simp only [hy2, if_false, hyc, Bool.not_false, if_true]
    rfl
  · intro fuel hfuel
    exact eval_mono (under_application_run _ body a) (by simp) hfuel
  · intro fuel ev p errorback st
    rfl
  · intro fuel ev p q errorback st
    rfl
  · intro r hr
    constructor
    · rintro ⟨n, hn⟩
      refine ⟨n + 15, ?_⟩
      rw [full_call_run, ← curried_call_run]
      exact eval_mono hn hr (by omega)
    · rintro ⟨n, hn⟩
      refine ⟨n + 19, ?_⟩
      rw [curried_call_run, ← full_call_run]
      exact eval_mono hn hr (by omega)

/-- Witness of C9: the function `(fn (x y) x)` and the values `1` and `2`. -/
theorem C9_partial_application_witness :
    subr_fn (list [list [symbol "x", symbol "y"], symbol "x"]) standard_state
      = .value (function 1538 (list [symbol "x", symbol "y"]) (symbol "x")) standard_state :=
  (C9_partial_application (symbol "x") (symbol "y") (symbol "x") (integer 1) (integer 2)
    ⟨rfl, by decide⟩ ⟨rfl, by decide⟩).1

/-- C10: when APPLY is given more values than the minimum argument count of
the descriptor `d` of a function, of a closure or of a built-in, it raises the
evaluation error "too many arguments applied to ..." if the variadic flag of
`d` is clear (a fatal error when there is no error callback), and if the flag
is set it goes on with the application: the formals are bound and the body
evaluated, the closure's function is applied in the captured environments,
the built-in is called. -/
theorem C10_too_many_arguments (fuel : Nat) (ev : lobj → State → Result) (p d : Int)
    (vals errorback : lobj) (st : State) (hmany : min_args d < (length vals : Int)) :
    (variadic d = false →
      (∀ fs body,
        eval_step fuel ev .apply (pa p (function d fs body) vals) errorback st
          = .done (evaluation_error ev errorback
              "too many arguments applied to a function." st))
      ∧ (∀ fs body lenv genv,
        eval_step fuel ev .apply (pa p (lobj.closure (function d fs body) lenv genv) vals)
            errorback st
          = .done (evaluation_error ev errorback
              "too many arguments applied to a closure." st))
      ∧ (∀ s, subr_args s = d →
        eval_step fuel ev .apply (pa p (subr s) vals) errorback st
          = .done (evaluation_error ev errorback "too many arguments applied to a subr." st))
      ∧ (∀ msg, evaluation_error ev NIL msg st = .lisp_error msg)
      ∧ (∀ fs body,
        eval_loop (fuel + 1) .apply (pa p (function d fs body) vals) NIL st
          = .lisp_error "too many arguments applied to a function."))
    ∧ (variadic d = true →
      (∀ fs body,
        eval_step fuel ev .apply (pa p (function d fs body) vals) errorback st
          = .goto .eval body (bind_formals fs vals st))
      ∧ (∀ fs body lenv genv,
        eval_step fuel ev .apply (pa p (lobj.closure (function d fs body) lenv genv) vals)
            errorback st
          = .goto .apply (pa p (function d fs body) vals) (set_env st lenv genv))
      ∧ (∀ s, subr_args s = d →
        eval_step fuel ev .apply (pa p (subr s) vals) errorback st
          = apply_subr fuel ev s vals st)) := by
  have hfew : ¬ ((length vals : Int) < min_args d) := by omega
  constructor
  · intro hv
    refine ⟨?_, ?_, ?_, ?_, ?_⟩
    · intro fs body
      simp [eval_step, apply_label, apply_function, hmany, hv]
    · intro fs body lenv genv
      simp [eval_step, apply_label, apply_closure, hmany, hv]
    · intro s hs
      subst hs
      simp [eval_step, apply_label, apply_builtin, hmany, hv]
    · intro msg
      simp [evaluation_error]
    · intro fs body
      rw [eval_loop]
      simp [eval_step, apply_label, apply_function, hmany, hv, evaluation_error]
  · intro hv
    refine ⟨?_, ?_, ?_⟩
    · intro fs body
      simp [eval_step, apply_label, apply_function, hv, hfew]
    · intro fs body lenv genv
      simp [eval_step, apply_label, apply_closure, hv, hfew, pa_set_function]
    · intro s hs
      subst hs
      simp [eval_step, apply_label, apply_builtin, hv, hfew]

/-- Witness of C10: the function `(fn (x) x)`, of descriptor 513, applied to
the two values `1` and `2` with no error callback. -/
theorem C10_too_many_arguments_witness :
    eval_loop 1 .apply (pa 0 (function 513 (list [symbol "x"]) (symbol "x"))
        (list [integer 1, integer 2])) NIL standard_state
      = .lisp_error "too many arguments applied to a function." :=
  ((C10_too_many_arguments 0 (fun _ _ => .out_of_fuel) 0 513 (list [integer 1, integer 2]) NIL
    standard_state (by decide)).1 (by decide)).2.2.2.2 _ _

/-! ## Continuations, conditionals and symbols (C11, C12, C13, C14) -/

/-- One unfolding of `eval_loop`. -/
theorem eval_loop_succ (n : Nat) (l : Label) (o eb : lobj) (st : State) :
    eval_loop (n + 1) l o eb st
      = match eval_step n (fun e s => eval_loop n .eval e NIL (set_callstack s NIL)) l o eb st with
        | .goto l1 o1 st1 => eval_loop n l1 o1 eb st1
        | .done r => r := rfl

/-- The label `eval` on a bound symbol. -/
theorem eval_label_symbol (ev : lobj → State → Result) (o eb : lobj) (st : State)
    (hsym : symbolp o = true) (hb : binding st o 0 ≠ NIL) :
    eval_label ev o eb st = .goto .ret (cdr st (binding st o 0)) st := by
  unfold eval_label
  rw [if_pos hsym]
  split
  · next h => exact absurd h hb
  · rfl

/-- The label `eval` on an unbound symbol. -/
theorem eval_label_unbound (ev : lobj → State → Result) (o eb : lobj) (st : State)
    (hsym : symbolp o = true) (hb : binding st o 0 = NIL) :
    eval_label ev o eb st = .done (evaluation_error ev eb "reference to unbound symbol." st) := by
  unfold eval_label
  rw [if_pos hsym]
  split
  · rfl
  · next h => exact absurd hb h

set_option maxRecDepth 100000 in
/-- The run of `(+ 1 (call-cc (fn (k) (+ 10 (k v)))))` in the standard
environment. -/
theorem call_cc_run (v : Int) :
    (eval 40 (call_cc_form v) NIL standard_state).get = some (integer (wrap32 (1 + v))) := by
  rfl

/-- C11: for every integer `v`, `(+ 1 (call-cc (fn (k) (+ 10 (k v)))))`
evaluated in the standard environment yields `1 + v` in the 32-bit integer
arithmetic of the language, which is `1 + v` itself whenever that number is a
32-bit integer.  The primitive `call-cc` applies its argument to a
continuation that holds the call stack current at that point, and applying a
continuation to one value makes the held call stack the current one and returns
the value to it, whatever the call stack was before: the frame of the pending
`(+ 10 ...)` is dropped. -/
theorem C11_call_cc_escapes (v : Int) (fuel : Nat) (hfuel : 40 ≤ fuel) :
    (eval fuel (call_cc_form v) NIL ( subr_initialize)).get = some (integer (wrap32 (1 + v)))
    ∧ (-2147483648 ≤ 1 + v → 1 + v < 2147483648 →
        (eval fuel (call_cc_form v) NIL ( subr_initialize)).get = some (integer (1 + v)))
    ∧ (∀ n ev p f errorback st,
        eval_step n ev .apply (pa p (subr .subr_call_cc) (list [f])) errorback st
          = .goto .apply (pa (eval_pattern f >>> 1) f (list [continuation st.callstack])) st)
    ∧ (∀ n ev p stack x errorback st,
        eval_step n ev .apply (pa p (continuation stack) (list [x])) errorback st
          = .goto .ret x (set_callstack st stack)) := by
  rw [ subr_initialize_eq]
  have hv := eval_get_mono (call_cc_run v) hfuel
  refine ⟨hv, ?_, ?_, ?_⟩
  · intro h1 h2
    rw [hv, wrap32_of_range _ h1 h2]
  · intro n ev p f errorback st
    rfl
  · intro n ev p stack x errorback st
    rfl

/-- Witness of C11: with `v = 41` the result is `42`. -/
theorem C11_call_cc_escapes_witness :
    (eval 40 (call_cc_form 41) NIL ( subr_initialize)).get = some (integer 42) :=
  (C11_call_cc_escapes 41 40 (by decide)).2.1 (by decide) (by decide)

/-- C13: `eval` of a symbol, with no error callback: when the full lookup
`binding(o, 0)` finds a binding, the result is the value stored in it, also
when that value is `()`; when it finds none, the evaluation fails with the
fatal error "reference to unbound symbol.". -/
theorem C13_symbol_lookup (o : lobj) (st : State) (fuel : Nat) (hsym : symbolp o = true)
    (hfuel : 2 ≤ fuel) :
    (binding st o 0 ≠ NIL →
      eval fuel o NIL st = .value (cdr st (binding st o 0)) (set_callstack st NIL))
    ∧ (binding st o 0 = NIL → eval fuel o NIL st = .lisp_error "reference to unbound symbol.")
    ∧ (binding st o 0 ≠ NIL → cdr st (binding st o 0) = NIL →
        eval fuel o NIL st = .value NIL (set_callstack st NIL)) := by
  obtain ⟨n, rfl⟩ : ∃ n, fuel = n + 1 + 1 := ⟨fuel - 2, by omega⟩
  obtain ⟨lenv, genv, stack, cells, k⟩ := st
  have hb : binding (set_callstack ⟨lenv, genv, stack, cells, k⟩ NIL) o 0
      = binding ⟨lenv, genv, stack, cells, k⟩ o 0 :=
    binding_local_congr ⟨lenv, genv, stack, cells, k⟩ ⟨lenv, genv, NIL, cells, k⟩ o 0 rfl lenv
  have hfound : binding ⟨lenv, genv, stack, cells, k⟩ o 0 ≠ NIL →
      eval (n + 1 + 1) o NIL ⟨lenv, genv, stack, cells, k⟩
        = .value (cdr ⟨lenv, genv, stack, cells, k⟩ (binding ⟨lenv, genv, stack, cells, k⟩ o 0))
            (set_callstack ⟨lenv, genv, stack, cells, k⟩ NIL) := by
    intro hne
    unfold eval
    rw [eval_loop_succ]
    simp only [eval_step]
    rw [eval_label_symbol _ o NIL _ hsym (by rw [hb]; exact hne), hb]
    rfl
  refine ⟨hfound, ?_, ?_⟩
  · intro hnil
    unfold eval
    rw [eval_loop_succ]
    simp only [eval_step]
    rw [eval_label_unbound _ o NIL _ hsym (by rw [hb]; exact hnil)]
    rfl
  · intro hne hval
    rw [hfound hne, hval]

/-- Witness of C13: in the standard environment the symbol `nil` is bound to
`()` and evaluates to `()`. -/
theorem C13_symbol_lookup_witness :
    eval 2 (symbol "nil") NIL standard_state = .value NIL (set_callstack standard_state NIL) :=
  (C13_symbol_lookup (symbol "nil") standard_state 2 rfl (by decide)).2.2
    (by decide!) (by decide!)

/-- C14 (failing input): with `zzz` unbound, the form
`(bound-value 'zzz (fn (m) 5))` evaluates to `5`, the result of the error
callback, and `(+ 1 5)` evaluates to `6`; but
`(+ 1 (bound-value 'zzz (fn (m) 5)))` evaluates to `5`: the primitive runs the
callback through `eval`, whose entry empties `callstack`, so the frame of the
pending `(+ 1 ...)` is gone when the primitive returns. -/
theorem C14_errorback_drops_pending_frames :
    (eval 60 bound_value_form NIL ( subr_initialize)).get = some (integer 5)
    ∧ (eval 60 (list [symbol "+", integer 1, integer 5]) NIL ( subr_initialize)).get
        = some (integer 6)
    ∧ (eval 60 errorback_in_argument_form NIL ( subr_initialize)).get = some (integer 5) := by
  rw [ subr_initialize_eq]
  decide!

/-! ## Calls on numbers (C15) -/

set_option maxRecDepth 100000 in
/-- The run of `(n)`. -/
theorem number_call_run (n : Int) (st : State) :
    eval 5 (list [integer n]) NIL st = .value (integer n) (set_callstack st NIL) := by
  rfl

set_option maxRecDepth 100000 in
/-- The run of `(n 'f)` in the standard environment. -/
theorem number_curry_run (n : Int) (f : lobj) :
    eval 12 (list [integer n, quote_form f]) NIL standard_state
      = .value (pa (eval_pattern f >>> 1) f (list [integer n])) standard_state := by
  rfl

set_option maxRecDepth 100000 in
/-- The runs of `(n + a)` and `(+ n a)` in the standard environment. -/
theorem number_add_run (n a : Int) :
    (eval 40 (list [integer n, symbol "+", integer a]) NIL standard_state).get
        = some (integer (wrap32 (wrap32 (0 + n) + a)))
    ∧ (eval 40 (list [symbol "+", integer n, integer a]) NIL standard_state).get
        = some (integer (wrap32 (wrap32 (0 + n) + a))) :=
  ⟨rfl, rfl⟩

set_option maxRecDepth 100000 in
/-- The runs of `(n (fn (x y) (- x y)) a)` and `((fn (x y) (- x y)) n a)` in the
standard environment. -/
theorem number_sub_run (n a : Int) :
    (eval 40 (list [integer n, fn_sub_form, integer a]) NIL standard_state).get
        = some (integer (wrap32 (n - a)))
    ∧ (eval 40 (list [fn_sub_form, integer n, integer a]) NIL standard_state).get
        = some (integer (wrap32 (n - a))) :=
  ⟨rfl, rfl⟩

/-- C15 (counterexample): `f` is `(fn (x y) +)`, a function of two arguments.
`(f 1 2)` evaluates to the primitive `+`, but `(1 f 2)` evaluates to `0`: the
value of `(f 1 2)` is called with no arguments, and `(+)` is `0`. -/
theorem C15_callable_value_is_called :
    (eval 60 (list [const_add_fn, integer 1, integer 2]) NIL ( subr_initialize)).get
        = some (subr .subr_add)
    ∧ (eval 60 (list [integer 1, const_add_fn, integer 2]) NIL ( subr_initialize)).get
        = some (integer 0)
    ∧ (eval 60 (list [integer 1, const_add_fn, integer 2]) NIL ( subr_initialize)).get
        ≠ (eval 60 (list [const_add_fn, integer 1, integer 2]) NIL ( subr_initialize)).get := by
  rw [ subr_initialize_eq]
  decide!

/-- C15 (amended): a number is callable.  For every integer `n`: `(n)`
evaluates to `n`; `(n f)` evaluates to a partial application that holds `f` and
`n` as its first argument, `f` not being applied; `(n f a)` is `((f n a))`: the
application of `f` to `n` and `a` is started on top of a frame that, when a
value `r` is returned to it, applies `r` to no argument, which returns `r`
itself when `r` is a number.  So `(n + a)` and `(+ n a)` evaluate to the same
integer, `n + a` in 32-bit arithmetic, and `(n f a)` and `(f n a)` evaluate to
the same integer for `f = (fn (x y) (- x y))`. -/
theorem C15_number_is_callable (n a : Int) (fuel : Nat) (hfuel : 40 ≤ fuel) :
    (∀ st, eval fuel (list [integer n]) NIL st = .value (integer n) (set_callstack st NIL))
    ∧ (∀ f, eval fuel (list [integer n, quote_form f]) NIL ( subr_initialize)
        = .value (pa (eval_pattern f >>> 1) f (list [integer n])) ( subr_initialize))
    ∧ (∀ k ev p f x errorback st,
        eval_step k ev .apply (pa p (integer n) (list [f, x])) errorback st
          = .goto .apply (pa 0 f (list [integer n, x]))
              (set_callstack st (cons (frame (pa 0 (subr .subr_apply) NIL) (list [NIL])
                st.local_env st.global_env) st.callstack)))
    ∧ (∀ m r errorback lenv genv lenv2 genv2 stack cells k,
        eval_loop (m + 3) .ret r errorback
            ⟨lenv2, genv2,
              cons (frame (pa 0 (subr .subr_apply) NIL) (list [NIL]) lenv genv) stack, cells, k⟩
          = eval_loop m .apply (pa (eval_pattern r) r NIL) errorback
              ⟨lenv, genv, stack, cells, k⟩)
    ∧ (∀ k ev p r errorback st,
        eval_step k ev .apply (pa p (integer r) NIL) errorback st = .goto .ret (integer r) st)
    ∧ (eval fuel (list [integer n, symbol "+", integer a]) NIL ( subr_initialize)).get
        = some (integer (wrap32 (n + a)))
    ∧ (eval fuel (list [symbol "+", integer n, integer a]) NIL ( subr_initialize)).get
        = some (integer (wrap32 (n + a)))
    ∧ (eval fuel (list [integer n, fn_sub_form, integer a]) NIL ( subr_initialize)).get
        = some (integer (wrap32 (n - a)))
    ∧ (eval fuel (list [fn_sub_form, integer n, integer a]) NIL ( subr_initialize)).get
        = some (integer (wrap32 (n - a))) := by
  rw [ subr_initialize_eq]
  have hadd : wrap32 (wrap32 (0 + n) + a) = wrap32 (n + a) := by
    rw [wrap32_add_wrap32, Int.zero_add]
  refine ⟨?_, ?_, ?_, ?_, ?_, ?_, ?_, ?_, ?_⟩
  · intro st
    exact eval_mono (number_call_run n st) (by simp) (by omega)
  · intro f
    exact eval_mono (number_curry_run n f) (by simp) (by omega)
  · intro k ev p f x errorback st
    rfl
  · intro m r errorback lenv genv lenv2 genv2 stack cells k
    rfl
  · intro k ev p r errorback st
    rfl
  · rw [← hadd]
    exact eval_get_mono (number_add_run n a).1 hfuel
  · rw [← hadd]
    exact eval_get_mono (number_add_run n a).2 hfuel
  · exact eval_get_mono (number_sub_run n a).1 hfuel
  · exact eval_get_mono (number_sub_run n a).2 hfuel

/-- Witness of C15: `(1 + 2)` evaluates to `3`. -/
theorem C15_number_is_callable_witness :
    (eval 40 (list [integer 1, symbol "+", integer 2]) NIL ( subr_initialize)).get
      = some (integer 3) :=
  (C15_number_is_callable 1 2 40 (by decide)).2.2.2.2.2.1

/-! ## Round trip of strings (C16) -/

/-- One turn of the hexadecimal loop on a digit that `%x` wrote. -/
theorem hex_turn_digit (v d : Nat) (rest : List Nat) (hd : d < 16) :
    hex_turn v (hex_digit d :: rest) = ((v * 16 + d) % 256, rest) := by
  unfold hex_turn hex_digit getc
  by_cases h : d < 10
  · simp only [h, if_true]
    have h1 : (48 : Int) ≤ ((48 + d : Nat) : Int) ∧ ((48 + d : Nat) : Int) ≤ 57 := by omega
    rw [if_pos h1]
    have h2 : (((48 + d : Nat) : Int) - 48).toNat = d := by omega
    rw [h2]
  · simp only [h, if_false]
    have h1 : ¬ ((48 : Int) ≤ ((87 + d : Nat) : Int) ∧ ((87 + d : Nat) : Int) ≤ 57) := by omega
    have h3 : (97 : Int) ≤ ((87 + d : Nat) : Int) ∧ ((87 + d : Nat) : Int) ≤ 102 := by omega
    rw [if_neg h1, if_pos h3]
    have h2 : (((87 + d : Nat) : Int) - 97).toNat + 10 = d := by omega
    rw [Nat.add_assoc, h2]

/-- The three shapes of the text of a character: a two-character escape
sequence, the character itself, a hexadecimal constant. -/
theorem put_literal_char_shape (b : Nat) :
    (∃ c : Nat, put_literal_char b = [92, c]
        ∧ ((c = 97 ∧ b = 7) ∨ (c = 98 ∧ b = 8) ∨ (c = 102 ∧ b = 12) ∨ (c = 110 ∧ b = 10)
          ∨ (c = 114 ∧ b = 13) ∨ (c = 116 ∧ b = 9) ∨ (c = 118 ∧ b = 11) ∨ (c = 92 ∧ b = 92)
          ∨ (c = 34 ∧ b = 34)))
    ∨ (put_literal_char b = [b] ∧ 32 ≤ b ∧ b ≤ 126 ∧ b ≠ 92 ∧ b ≠ 34)
    ∨ (put_literal_char b = [92, 120, hex_digit (b % 256 / 16), hex_digit (b % 16)]) := by
  have hcases : b = 7 ∨ b = 8 ∨ b = 12 ∨ b = 10 ∨ b = 13 ∨ b = 9 ∨ b = 11 ∨ b = 92 ∨ b = 34
      ∨ (b ≠ 7 ∧ b ≠ 8 ∧ b ≠ 12 ∧ b ≠ 10 ∧ b ≠ 13 ∧ b ≠ 9 ∧ b ≠ 11 ∧ b ≠ 92 ∧ b ≠ 34) := by
    omega
  rcases hcases with h | h | h | h | h | h | h | h | h | ⟨h1, h2, h3, h4, h5, h6, h7, h8, h9⟩
  · subst h; left; exact ⟨97, rfl, by omega⟩
  · subst h; left; exact ⟨98, rfl, by omega⟩
  · subst h; left; exact ⟨102, rfl, by omega⟩
  · subst h; left; exact ⟨110, rfl, by omega⟩
  · subst h; left; exact ⟨114, rfl, by omega⟩
  · subst h; left; exact ⟨116, rfl, by omega⟩
  · subst h; left; exact ⟨118, rfl, by omega⟩
  · subst h; left; exact ⟨92, rfl, by omega⟩
  · subst h; left; exact ⟨34, rfl, by omega⟩
  · right
    have e : put_literal_char b
        = if isprint b then [b]
          else [92, 120, hex_digit (b % 256 / 16), hex_digit (b % 16)] := by
      unfold put_literal_char
      rw [if_neg h1, if_neg h2, if_neg h3, if_neg h4, if_neg h5, if_neg h6, if_neg h7, if_neg h8,
        if_neg h9]
    by_cases hp : isprint b = true
    · left
      rw [e, if_pos hp]
      simp only [isprint, decide_eq_true_eq] at hp
      exact ⟨rfl, by omega, by omega, h8, h9⟩
    · right
      rw [e, if_neg hp]

/-- The function `get_literal_char` reads back what `put_literal_char` wrote for a
byte, whatever the accumulator of a hexadecimal constant held. -/
theorem get_literal_char_put (junk : Nat) (endchar : Int) (b : Nat) (rest : List Nat)
    (hb : b < 256) (hend : endchar = 34 ∨ endchar = -1) :
    get_literal_char junk endchar (put_literal_char b ++ rest) = ((b : Int), rest) := by
  have hne : (92 : Int) ≠ endchar := by rcases hend with h | h <;> omega
  rcases put_literal_char_shape b with ⟨c, hc, hcases⟩ | ⟨hc, h32, h126, h92, h34⟩ | hc
  · rw [hc]
    show get_literal_char junk endchar (92 :: c :: rest) = _
    rcases hcases with h | h | h | h | h | h | h | h | h <;> obtain ⟨rfl, rfl⟩ := h <;>
      simp [get_literal_char, getc, hne]
  · rw [hc]
    have hne2 : ((b : Nat) : Int) ≠ endchar := by rcases hend with h | h <;> omega
    have h92i : ((b : Nat) : Int) ≠ 92 := by omega
    simp only [List.singleton_append, get_literal_char, getc, hne2, if_false, h92i, ne_eq,
      not_false_eq_true, if_true]
  · rw [hc]
    show get_literal_char junk endchar
      (92 :: 120 :: hex_digit (b % 256 / 16) :: hex_digit (b % 16) :: rest) = _
    have e : get_literal_char junk endchar
        (92 :: 120 :: hex_digit (b % 256 / 16) :: hex_digit (b % 16) :: rest)
        = match hex_turn (junk % 256) (hex_digit (b % 256 / 16) :: hex_digit (b % 16) :: rest) with
          | (v1, rest2) =>
            match hex_turn v1 rest2 with
            | (v2, rest3) => ((v2 : Int), rest3) := by
      simp [get_literal_char, getc, hne]
    rw [e, hex_turn_digit _ _ _ (by omega)]
    simp only
    rw [hex_turn_digit _ _ _ (by omega)]
    simp only
    congr 2
    omega

/-- The text of a character starts with a byte that is not a double quote. -/
theorem put_literal_char_head (b : Nat) (hb : b < 256) :
    ∃ c t, put_literal_char b = c :: t ∧ c < 256 ∧ c ≠ 34 := by
  rcases put_literal_char_shape b with ⟨c, hc, _⟩ | ⟨hc, _, h126, _, h34⟩ | hc
  · exact ⟨92, [c], hc, by omega, by omega⟩
  · exact ⟨b, [], hc, hb, h34⟩
  · exact ⟨92, _, hc, by omega, by omega⟩

/-- The text of the characters of a string has at least one byte for each. -/
theorem string_text_length (s : List Nat) (hs : ∀ b ∈ s, b < 256) :
    s.length ≤ ((s.map put_literal_char).flatten).length := by
  induction s with
  | nil => simp
  | cons b s ih =>
    obtain ⟨c, t, hc, _, _⟩ := put_literal_char_head b (hs b (List.mem_cons_self _ _))
    have := ih (fun x hx => hs x (List.mem_cons_of_mem _ hx))
    simp only [List.map_cons, List.flatten_cons, List.length_append, List.length_cons, hc]
    omega

/-- The loop of the string case on the text of the characters of a string. -/
theorem read_string_loop_text (junk : Nat) (rest : List Nat) :
    ∀ (s : List Nat), (∀ b ∈ s, b < 256) → ∀ (fuel : Nat) (chars : List Nat),
      s.length + 1 ≤ fuel →
      read_string_loop junk fuel chars ((s.map put_literal_char).flatten ++ 34 :: rest)
        = .value (string (chars ++ s)) none rest := by
  intro s
  induction s with
  | nil =>
    intro _ fuel chars hfuel
    obtain ⟨n, rfl⟩ : ∃ n, fuel = n + 1 := ⟨fuel - 1, by simp at hfuel; omega⟩
    simp [read_string_loop, get_literal_char, getc]
  | cons b s ih =>
    intro hs fuel chars hfuel
    obtain ⟨n, rfl⟩ : ∃ n, fuel = n + 1 := ⟨fuel - 1, by simp at hfuel; omega⟩
    have hb := hs b (List.mem_cons_self _ _)
    simp only [List.map_cons, List.flatten_cons, List.append_assoc]
    rw [read_string_loop, get_literal_char_put junk 34 b _ hb (Or.inl rfl)]
    have h1 : ((b : Nat) : Int) ≠ -2 := by omega
    have h2 : ((b : Nat) : Int) ≠ -1 := by omega
    have h3 : ((b : Nat) : Int) ≠ -3 := by omega
    have h4 : (((b : Nat) : Int) % 256).toNat = b := by omega
    simp only [h1, h2, h3, if_false, h4]
    rw [ih (fun x hx => hs x (List.mem_cons_of_mem _ hx)) n (chars ++ [b])
      (by simp only [List.length_cons] at hfuel; omega)]
    simp

/-- The string case of `read` on the text of a string, after the opening double
quote. -/
theorem read_string_text (junk : Nat) (s rest : List Nat) (hs : ∀ b ∈ s, b < 256) :
    read_string junk ((s.map put_literal_char).flatten ++ 34 :: rest)
      = .value (string s) none rest := by
  cases s with
  | nil => simp [read_string, getc]
  | cons b s =>
    have hb := hs b (List.mem_cons_self _ _)
    have hs2 : ∀ x ∈ s, x < 256 := fun x hx => hs x (List.mem_cons_of_mem _ hx)
    obtain ⟨c, t, hc, hc256, hc34⟩ := put_literal_char_head b hb
    have hput := get_literal_char_put junk (-1) b
      ((s.map put_literal_char).flatten ++ 34 :: rest) hb (Or.inr rfl)
    simp only [List.map_cons, List.flatten_cons, List.append_assoc]
    rw [hc] at hput ⊢
    have hc34i : ((c : Nat) : Int) ≠ 34 := by omega
    have hci : ((c : Nat) : Int) ≠ -1 := by omega
    have hcm : (((c : Nat) : Int) % 256).toNat = c := by omega
    simp only [read_string, List.cons_append, getc, hc34i, if_false, ungetc, hci, hcm]
    rw [List.cons_append] at hput
    rw [hput]
    have h2 : ((b : Nat) : Int) ≠ -1 := by omega
    have h3 : ((b : Nat) : Int) ≠ -3 := by omega
    have h4 : (((b : Nat) : Int) % 256).toNat = b := by omega
    simp only [h2, h3, if_false, h4]
    rw [read_string_loop_text junk rest s hs2 _ [b]]
    · simp
    · have := string_text_length s hs2
      simp only [List.length_append, List.length_cons]
      omega

/-- The dispatch of `read` on a double quote. -/
theorem read_string_start (junk max fuel : Nat) (text : List Nat) :
    read junk max (fuel + 1) (34 :: text) = read_string junk text := by
  simp [read, read_char, isspace]

/-- C16: for every string `s` of 8-bit bytes, `print` writes a text for `s`
(with any fuel but zero) and `read` on that text (with any fuel but zero, any
value of the uninitialized accumulator and any maximum symbol length) returns
a string equal to `s`, so of the same length and bytes, with `last_parse_error`
equal to `NULL` and the whole text taken. -/
theorem C16_string_roundtrip (s : List Nat) (hs : ∀ b ∈ s, b < 256) (junk max : Nat) (st : State)
    (n m : Nat) :
    ∃ text, print st (n + 1) (string s) = some text
      ∧ read junk max (m + 1) text = .value (string s) none [] := by
  refine ⟨[34] ++ (s.map put_literal_char).flatten ++ [34], rfl, ?_⟩
  show read junk max (m + 1) (34 :: ((s.map put_literal_char).flatten ++ [34])) = _
  rw [read_string_start, read_string_text junk s [] hs]

/-- Witness of C16: the string of the bytes 34 (a double quote), 92 (a
backslash), 7, 0, 65, 200 and 255. -/
theorem C16_string_roundtrip_witness :
    ∃ text, print standard_state 1 (string [34, 92, 7, 0, 65, 200, 255]) = some text
      ∧ read 0 255 1 text = .value (string [34, 92, 7, 0, 65, 200, 255]) none [] :=
  C16_string_roundtrip [34, 92, 7, 0, 65, 200, 255] (by decide) 0 255 standard_state 0 0

/-! ## Round trip of integers, lists and arrays (C17) -/

/-- The digit loop of `read` on the digits that `%d` wrote. -/
theorem read_digits_decimal : ∀ (f n : Nat) (acc s : List Nat), n < 10 ^ f →
    read_digits 0 (decimal_digits f n acc ++ s) = read_digits n (acc ++ s) := by
  intro f
  induction f with
  | zero =>
    intro n acc s h
    have : n = 0 := by simpa using h
    subst this
    rfl
  | succ f ih =>
    intro n acc s h
    rw [decimal_digits]
    by_cases h10 : n < 10
    · rw [if_pos h10]
      show read_digits 0 ((48 + n) :: (acc ++ s)) = _
      rw [read_digits, if_pos (by omega)]
      congr 1
      omega
    · rw [if_neg h10, ih (n / 10) _ s (by rw [pow_succ] at h; omega)]
      show read_digits (n / 10) ((48 + n % 10) :: (acc ++ s)) = _
      rw [read_digits, if_pos (by omega)]
      congr 1
      omega

/-- The digit loop stops at the end of a value. -/
theorem read_digits_end (n : Nat) (rest : List Nat) (h : value_end rest = true) :
    read_digits n rest = (n, rest) := by
  cases rest with
  | nil => rfl
  | cons c r =>
    simp only [value_end, Bool.or_eq_true, decide_eq_true_eq] at h
    rw [read_digits, if_neg (by omega)]

/-- The digits written in front of a digit start with a digit. -/
theorem decimal_digits_head : ∀ (f n c : Nat) (acc : List Nat), 48 ≤ c ∧ c ≤ 57 →
    ∃ c1 t, decimal_digits f n (c :: acc) = c1 :: t ∧ 48 ≤ c1 ∧ c1 ≤ 57 := by
  intro f
  induction f with
  | zero => intro n c acc h; exact ⟨c, acc, rfl, h⟩
  | succ f ih =>
    intro n c acc h
    rw [decimal_digits]
    by_cases h10 : n < 10
    · rw [if_pos h10]; exact ⟨48 + n, c :: acc, rfl, by omega⟩
    · rw [if_neg h10]; exact ih _ _ _ (by omega)

/-- The text of a natural number starts with a digit. -/
theorem decimal_digits_start (f n : Nat) :
    ∃ c1 t, decimal_digits (f + 1) n [] = c1 :: t ∧ 48 ≤ c1 ∧ c1 ≤ 57 := by
  rw [decimal_digits]
  by_cases h10 : n < 10
  · rw [if_pos h10]; exact ⟨48 + n, [], rfl, by omega⟩
  · rw [if_neg h10]; exact decimal_digits_head _ _ _ _ (by omega)

/-- The number case of `read` on the digits of a natural number. -/
theorem read_number_decimal (n : Nat) (rest : List Nat) (hn : n < 10 ^ 10)
    (hrest : value_end rest = true) :
    read_number (decimal_digits 10 n [] ++ rest)
      = .value (integer (wrap32 ((n % 4294967296 : Nat) : Int))) none rest := by
  unfold read_number
  rw [read_digits_decimal 10 n [] rest hn, List.nil_append, read_digits_end n rest hrest]
  cases rest with
  | nil => rfl
  | cons c r =>
    simp only [value_end, Bool.or_eq_true, decide_eq_true_eq] at hrest
    simp only
    rw [if_neg (by omega), if_neg (by omega)]

/-- The dispatch of `read` on a digit. -/
theorem read_digit_start (junk max m c : Nat) (t : List Nat) (hc : 48 ≤ c ∧ c ≤ 57) :
    read junk max (m + 1) (c :: t) = read_number (c :: t) := by
  have e1 : read_char (c :: t) = ((c : Int), t) := by
    rw [read_char]
    have : isspace (c : Int) = false := by
      simp only [isspace, Bool.or_eq_false_iff, decide_eq_false_iff_not]
      omega
    rw [this]; rfl
  rw [read, e1]
  simp only
  repeat rw [if_neg (by omega)]
  rw [if_pos (by omega)]
  simp

/-- The dispatch of `read` on a minus sign followed by a digit. -/
theorem read_minus_start (junk max m c : Nat) (t : List Nat) (hc : 48 ≤ c ∧ c ≤ 57) :
    read junk max (m + 1 + 1) (45 :: c :: t)
      = match read_number (c :: t) with
        | .value (integer v) err rest2 => .value (integer (wrap32 (-v))) err rest2
        | .value (floating v) err rest2 => .value (floating (-v)) err rest2
        | .value _ _ _ => .internal_error "unexpected non-number value after '-'."
        | e => e := by
  have e1 : read_char (45 :: c :: t) = (45, c :: t) := by
    simp [read_char, isspace]
  rw [read, e1]
  simp only [getc]
  have hcm : (((c : Nat) : Int) % 256).toNat = c := by omega
  have hne : ((c : Nat) : Int) ≠ -1 := by omega
  have hd : ((c : Nat) : Int) = 46 ∨ (48 ≤ ((c : Nat) : Int) ∧ ((c : Nat) : Int) ≤ 57) := by omega
  rw [if_pos hd]
  simp only [ungetc, hne, if_false, hcm]
  rw [read_digit_start junk max m c t hc]
  simp

/-- The function `read` on the text that `%d` wrote for a 32-bit integer. -/
theorem read_decimal (junk max : Nat) (v : Int) (hv : -2147483648 ≤ v ∧ v < 2147483648)
    (m : Nat) (hm : 2 ≤ m) (rest : List Nat) (hrest : value_end rest = true) :
    read junk max m (decimal v ++ rest) = .value (integer v) none rest := by
  obtain ⟨k, rfl⟩ : ∃ k, m = k + 1 + 1 := ⟨m - 2, by omega⟩
  unfold decimal
  by_cases hneg : v < 0
  · rw [if_pos hneg]
    obtain ⟨c, t, hct, hc⟩ := decimal_digits_start 9 (-v).toNat
    have hnum := read_number_decimal (-v).toNat rest (by omega) hrest
    rw [hct] at hnum ⊢
    simp only [List.cons_append]
    rw [read_minus_start junk max k c _ hc]
    simp only [List.cons_append] at hnum
    rw [hnum]
    simp only
    have hw : wrap32 (-wrap32 ((((-v).toNat % 4294967296 : Nat) : Int))) = v := by
      unfold wrap32
      omega
    rw [hw]
  · rw [if_neg hneg]
    obtain ⟨c, t, hct, hc⟩ := decimal_digits_start 9 v.toNat
    have hnum := read_number_decimal v.toNat rest (by omega) hrest
    rw [hct] at hnum ⊢
    simp only [List.cons_append]
    rw [read_digit_start junk max (k + 1) c _ hc]
    simp only [List.cons_append] at hnum
    rw [hnum]
    have hw : wrap32 (((v.toNat % 4294967296 : Nat) : Int)) = v := by
      unfold wrap32
      omega
    rw [hw]

/-- Moving the last of the elements read so far to the front of the tail. -/
theorem list_with_tail_snoc (items : List lobj) (a d : lobj) :
    list_with_tail (items ++ [a]) d = list_with_tail items (cons a d) := by
  induction items with
  | nil => rfl
  | cons x xs ih =>
    show cons x (list_with_tail (xs ++ [a]) d) = cons x (list_with_tail xs (cons a d))
    rw [ih]

/-- The first character of the text of a value is read by `read_char` and pushed
back by `ungetc` as it is, and is none of `)`, `]`, `.` and `EOF`. -/
theorem value_start_read_char (c : Nat) (t : List Nat) (hc : value_start c = true) :
    read_char (c :: t) = ((c : Int), t)
    ∧ ungetc (c : Int) t = c :: t
    ∧ (c : Int) ≠ 41 ∧ (c : Int) ≠ 93 ∧ (c : Int) ≠ -1 ∧ (c : Int) ≠ 46 := by
  simp only [value_start, Bool.or_eq_true, decide_eq_true_eq] at hc
  have hsp : isspace (c : Int) = false := by
    simp only [isspace, Bool.or_eq_false_iff, decide_eq_false_iff_not]
    omega
  refine ⟨?_, ?_, by omega, by omega, by omega, by omega⟩
  · rw [read_char, hsp]; rfl
  · have hcm : (((c : Nat) : Int) % 256).toNat = c := by omega
    rw [ungetc, if_neg (by omega), hcm]

/-- The list case of `read` on the text that the loop of `print` wrote for the
elements of a list: reading an element and going on with the loop gives the
elements read so far followed by the list. -/
theorem read_list_text (junk max : Nat) (st : State) (pr : lobj → Option (List Nat)) (m : Nat)
    (hpr : ∀ V text, data_value V = true → pr V = some text →
      (∃ c t, text = c :: t ∧ value_start c = true)
      ∧ ∀ rest, data_size V ≤ m → value_end rest = true →
          read junk max m (text ++ rest) = .value V none rest) :
    ∀ (k : Nat) (a d : lobj) (tl : List Nat), data_value (cons a d) = true →
      print_list pr st k (cons a d) = some tl →
      (∃ c t, tl = c :: t ∧ value_start c = true)
      ∧ ∀ (j : Nat) (items : List lobj) (rest : List Nat),
          data_size (cons a d) ≤ m + 1 → length (cons a d) ≤ j →
          (match read junk max m (tl ++ rest) with
            | .value x e r => read_list_loop (fun s => read junk max m s) j (items ++ [x]) e r
            | e => e) = .value (list_with_tail items (cons a d)) none rest := by
  intro k
  induction k with
  | zero =>
    intro a d tl _ h
    simp [print_list] at h
  | succ k ih =>
    intro a d tl hdata hprint
    rw [print_list] at hprint
    simp only [cdr, car] at hprint
    simp only [data_value, Bool.and_eq_true] at hdata
    obtain ⟨hda, hld, hdd⟩ := hdata
    cases d with
    | NIL =>
      simp only [if_true] at hprint
      obtain ⟨ta, hta, rfl⟩ := Option.map_eq_some'.mp hprint
      obtain ⟨⟨c, t, hct, hc⟩, hread⟩ := hpr a ta hda hta
      refine ⟨⟨c, t ++ [41], by rw [hct]; rfl, hc⟩, ?_⟩
      intro j items rest hsize hj
      simp only [data_size] at hsize
      simp only [length] at hj
      obtain ⟨j, rfl⟩ : ∃ j2, j = j2 + 1 := ⟨j - 1, by omega⟩
      rw [List.append_assoc, hread ([41] ++ rest) (by omega) (by simp [value_end])]
      simp only
      rw [read_list_loop]
      simp only [List.singleton_append, read_char, isspace]
      simp only [list]
      rw [list_with_tail_snoc]
      simp
    | cons a2 d2 =>
      have hne : (cons a2 d2 : lobj) ≠ NIL := by intro h; exact lobj.noConfusion h
      rw [if_neg hne] at hprint
      simp only [consp, Bool.not_true, Bool.false_eq_true, if_false] at hprint
      obtain ⟨ta, hta, hrest⟩ := Option.bind_eq_some.mp hprint
      obtain ⟨tl2, htl2, rfl⟩ := Option.map_eq_some'.mp hrest
      obtain ⟨⟨c, t, hct, hc⟩, hread⟩ := hpr a ta hda hta
      obtain ⟨⟨c2, t2, hct2, hc2⟩, hloop⟩ := ih a2 d2 tl2 hdd htl2
      refine ⟨⟨c, t ++ [32] ++ tl2, by rw [hct]; rfl, hc⟩, ?_⟩
      intro j items rest hsize hj
      simp only [data_size] at hsize
      simp only [length] at hj
      obtain ⟨j, rfl⟩ : ∃ j2, j = j2 + 1 := ⟨j - 1, by omega⟩
      have e1 : ta ++ [32] ++ tl2 ++ rest = ta ++ (32 :: (tl2 ++ rest)) := by simp
      rw [e1, hread (32 :: (tl2 ++ rest)) (by omega) (by simp [value_end])]
      simp only
      obtain ⟨hrc, hung, h41, _, hm1, h46⟩ := value_start_read_char c2 (t2 ++ rest) hc2
      have e2 : read_char (32 :: (tl2 ++ rest)) = ((c2 : Int), t2 ++ rest) := by
        rw [read_char]
        have : isspace ((32 : Nat) : Int) = true := by decide
        rw [this, if_pos rfl, hct2]
        exact hrc
      rw [read_list_loop, e2]
      simp only
      rw [if_neg h41, if_neg hm1, if_neg h46, hung]
      have e3 : c2 :: (t2 ++ rest) = tl2 ++ rest := by rw [hct2]; rfl
      rw [e3]
      have := hloop j (items ++ [a]) rest (by simp only [data_size]; omega)
        (by simp only [length]; omega)
      rw [list_with_tail_snoc] at this
      exact this
    | _ => simp [listp, consp, data_value] at hld hdd

/-- The parts of a list of values. -/
theorem data_value_cons (a d : lobj) (h : data_value (cons a d) = true) :
    data_value a = true ∧ listp d = true ∧ data_value d = true := by
  have h2 : (data_value a && (listp d && data_value d)) = true := h
  simpa only [Bool.and_eq_true] using h2

/-- The array case of `read` on the text that `print` wrote for the elements of
an array. -/
theorem read_array_text (junk max : Nat) (pr : lobj → Option (List Nat)) (m : Nat)
    (hpr : ∀ V text, data_value V = true → pr V = some text →
      (∃ c t, text = c :: t ∧ value_start c = true)
      ∧ ∀ rest, data_size V ≤ m → value_end rest = true →
          read junk max m (text ++ rest) = .value V none rest) :
    ∀ (d a : lobj) (tl : List Nat), data_value (cons a d) = true →
      print_array_items pr (cons a d) = some tl →
      (∃ c t, tl = c :: t ∧ value_start c = true)
      ∧ ∀ (j : Nat) (items : List lobj) (rest : List Nat),
          data_size (cons a d) ≤ m + 1 → length (cons a d) ≤ j →
          (match read junk max m (tl ++ 93 :: rest) with
            | .value x e r => read_array_loop (fun s => read junk max m s) j (items ++ [x]) e r
            | e => e) = .value (array (list_with_tail items (cons a d))) none rest := by
  intro d
  induction d with
  | NIL =>
    intro a tl hdata hprint
    simp only [data_value, Bool.and_eq_true] at hdata
    obtain ⟨hda, _, _⟩ := hdata
    have hta : pr a = some tl := hprint
    obtain ⟨hstart, hread⟩ := hpr a tl hda hta
    refine ⟨hstart, ?_⟩
    intro j items rest hsize hj
    simp only [data_size] at hsize
    simp only [length] at hj
    obtain ⟨j, rfl⟩ : ∃ j2, j = j2 + 1 := ⟨j - 1, by omega⟩
    rw [hread (93 :: rest) (by omega) (by simp [value_end])]
    simp only
    rw [read_array_loop]
    simp only [read_char, isspace]
    simp only [list]
    rw [list_with_tail_snoc]
    simp
  | cons a2 d2 _ ih =>
    intro a tl hdata hprint
    obtain ⟨hda, _, hdd⟩ := data_value_cons a _ hdata
    have hprint2 : (pr a).bind (fun x =>
        (print_array_items pr (cons a2 d2)).map (fun r => x ++ [32] ++ r)) = some tl := hprint
    obtain ⟨ta, hta, hrest⟩ := Option.bind_eq_some.mp hprint2
    obtain ⟨tl2, htl2, rfl⟩ := Option.map_eq_some'.mp hrest
    obtain ⟨⟨c, t, hct, hc⟩, hread⟩ := hpr a ta hda hta
    obtain ⟨⟨c2, t2, hct2, hc2⟩, hloop⟩ := ih a2 tl2 hdd htl2
    refine ⟨⟨c, t ++ [32] ++ tl2, by rw [hct]; rfl, hc⟩, ?_⟩
    intro j items rest hsize hj
    simp only [data_size] at hsize
    simp only [length] at hj
    obtain ⟨j, rfl⟩ : ∃ j2, j = j2 + 1 := ⟨j - 1, by omega⟩
    have e1 : ta ++ [32] ++ tl2 ++ 93 :: rest = ta ++ (32 :: (tl2 ++ 93 :: rest)) := by simp
    rw [e1, hread (32 :: (tl2 ++ 93 :: rest)) (by omega) (by simp [value_end])]
    simp only
    obtain ⟨hrc, hung, _, h93, hm1, _⟩ := value_start_read_char c2 (t2 ++ 93 :: rest) hc2
    have e2 : read_char (32 :: (tl2 ++ 93 :: rest)) = ((c2 : Int), t2 ++ 93 :: rest) := by
      rw [read_char]
      have : isspace ((32 : Nat) : Int) = true := by decide
      rw [this, if_pos rfl, hct2]
      exact hrc
    rw [read_array_loop, e2]
    simp only
    rw [if_neg h93, if_neg hm1, hung]
    have e3 : c2 :: (t2 ++ 93 :: rest) = tl2 ++ 93 :: rest := by rw [hct2]; rfl
    rw [e3]
    have := hloop j (items ++ [a]) rest (by simp only [data_size]; omega)
      (by simp only [length]; omega)
    rw [list_with_tail_snoc] at this
    exact this
  | _ =>
    intro a tl hdata
    simp [listp, consp, data_value] at hdata

/-- The text of an integer starts with a minus sign or a digit. -/
theorem decimal_start (v : Int) : ∃ c t, decimal v = c :: t ∧ value_start c = true := by
  unfold decimal
  by_cases hneg : v < 0
  · rw [if_pos hneg]; exact ⟨45, _, rfl, rfl⟩
  · rw [if_neg hneg]
    obtain ⟨c, t, hct, hc⟩ := decimal_digits_start 9 v.toNat
    refine ⟨c, t, hct, ?_⟩
    simp only [value_start, Bool.or_eq_true, decide_eq_true_eq]
    omega

/-- The dispatch of `read` on an opening parenthesis. -/
theorem read_paren_start (junk max m : Nat) (text : List Nat) :
    read junk max (m + 1) (40 :: text)
      = match read_char text with
        | (ch1, rest1) =>
          if ch1 = 41 then .value NIL none rest1
          else
            match read junk max m (ungetc ch1 rest1) with
            | .value o err rest2 =>
              read_list_loop (fun s => read junk max m s) m [o] err rest2
            | e => e := by
  simp [read, read_char, isspace]

/-- The dispatch of `read` on an opening bracket. -/
theorem read_bracket_start (junk max m : Nat) (text : List Nat) :
    read junk max (m + 1) (91 :: text)
      = match read_char text with
        | (ch1, rest1) =>
          if ch1 = 93 then .value (array NIL) none rest1
          else
            match read junk max m (ungetc ch1 rest1) with
            | .value o err rest2 =>
              read_array_loop (fun s => read junk max m s) m [o] err rest2
            | e => e := by
  simp [read, read_char, isspace]

/-- The function `read` on a text that `print` wrote for a value built from
integers, `()`, lists and arrays, followed by the end of the input, a blank,
`)` or `]`. -/
theorem read_data_text (junk max : Nat) (st : State) :
    ∀ (n : Nat) (V : lobj) (text : List Nat), data_value V = true → print st n V = some text →
      (∃ c t, text = c :: t ∧ value_start c = true)
      ∧ ∀ m rest, data_size V ≤ m → value_end rest = true →
          read junk max m (text ++ rest) = .value V none rest := by
  intro n
  induction n with
  | zero =>
    intro V text _ h
    simp [print] at h
  | succ n ih =>
    intro V text hdata hprint
    cases V with
    | NIL =>
      have ht : text = [40, 41] := by
        have : some ([40, 41] : List Nat) = some text := hprint
        exact (Option.some.inj this).symm
      subst ht
      refine ⟨⟨40, [41], rfl, rfl⟩, ?_⟩
      intro m rest hm _
      obtain ⟨m, rfl⟩ : ∃ m2, m = m2 + 1 := ⟨m - 1, by simp only [data_size] at hm; omega⟩
      simp [read, read_char, isspace]
    | integer v =>
      have ht : text = decimal v := by
        have : some (decimal v) = some text := hprint
        exact (Option.some.inj this).symm
      subst ht
      refine ⟨decimal_start v, ?_⟩
      intro m rest hm hrest
      simp only [data_value, decide_eq_true_eq] at hdata
      simp only [data_size] at hm
      exact read_decimal junk max v hdata m hm rest hrest
    | cons a d =>
      have hp : (print_list (fun x => print st n x) st n (cons a d)).map (fun t => 40 :: t)
          = some text := hprint
      obtain ⟨tl, htl, rfl⟩ := Option.map_eq_some'.mp hp
      refine ⟨⟨40, tl, rfl, rfl⟩, ?_⟩
      intro m rest hm _
      obtain ⟨m, rfl⟩ : ∃ m2, m = m2 + 1 := ⟨m - 1, by simp only [data_size] at hm; omega⟩
      have hpr : ∀ V text, data_value V = true → (fun x => print st n x) V = some text →
          (∃ c t, text = c :: t ∧ value_start c = true)
          ∧ ∀ rest, data_size V ≤ m → value_end rest = true →
              read junk max m (text ++ rest) = .value V none rest := by
        intro V text hV hp
        obtain ⟨h1, h2⟩ := ih V text hV hp
        exact ⟨h1, fun rest hs hr => h2 m rest hs hr⟩
      obtain ⟨⟨c, t, hct, hc⟩, hloop⟩ := read_list_text junk max st _ m hpr n a d tl hdata htl
      obtain ⟨hrc, hung, h41, _, _, _⟩ := value_start_read_char c (t ++ rest) hc
      have hlen : length (cons a d) ≤ m := by
        have : ∀ o : lobj, length o + 1 ≤ data_size o := by
          intro o
          induction o with
          | cons x y _ ihy => simp only [length, data_size]; omega
          | integer _ => simp only [length, data_size]; omega
          | array _ _ => simp only [length, data_size]; omega
          | _ => simp only [length, data_size]; omega
        have := this (cons a d)
        omega
      have e2 : read_char (tl ++ rest) = ((c : Int), t ++ rest) := by
        rw [hct]; exact hrc
      have e3 : c :: (t ++ rest) = tl ++ rest := by rw [hct]; rfl
      have hres := hloop m [] rest hm hlen
      rw [List.cons_append, read_paren_start]
      rw [e2]
      simp only
      rw [if_neg h41, hung, e3]
      exact hres
    | array elems =>
      have hp : (print_array_items (fun x => print st n x) elems).map
          (fun t => [91] ++ t ++ [93]) = some text := hprint
      obtain ⟨tl, htl, rfl⟩ := Option.map_eq_some'.mp hp
      refine ⟨⟨91, tl ++ [93], by simp, rfl⟩, ?_⟩
      intro m rest hm _
      obtain ⟨m, rfl⟩ : ∃ m2, m = m2 + 1 := ⟨m - 1, by simp only [data_size] at hm; omega⟩
      simp only [data_value, Bool.and_eq_true] at hdata
      obtain ⟨hl, hd⟩ := hdata
      have e0 : [91] ++ tl ++ [93] ++ rest = 91 :: (tl ++ 93 :: rest) := by simp
      cases elems with
      | NIL =>
        have : tl = [] := by
          have : some ([] : List Nat) = some tl := htl
          exact (Option.some.inj this).symm
        subst this
        rw [e0, read_bracket_start]
        simp [read_char, isspace]
      | cons a d =>
        have hpr : ∀ V text, data_value V = true → (fun x => print st n x) V = some text →
            (∃ c t, text = c :: t ∧ value_start c = true)
            ∧ ∀ rest, data_size V ≤ m → value_end rest = true →
                read junk max m (text ++ rest) = .value V none rest := by
          intro V text hV hp
          obtain ⟨h1, h2⟩ := ih V text hV hp
          exact ⟨h1, fun rest hs hr => h2 m rest hs hr⟩
        obtain ⟨⟨c, t, hct, hc⟩, hloop⟩ := read_array_text junk max _ m hpr d a tl hd htl
        obtain ⟨hrc, hung, _, h93, _, _⟩ := value_start_read_char c (t ++ 93 :: rest) hc
        simp only [data_size] at hm
        have hlen : length (cons a d) ≤ m := by
          have : ∀ o : lobj, length o + 1 ≤ data_size o := by
            intro o
            induction o with
            | cons x y _ ihy => simp only [length, data_size]; omega
            | integer _ => simp only [length, data_size]; omega
            | array _ _ => simp only [length, data_size]; omega
            | _ => simp only [length, data_size]; omega
          have := this (cons a d)
          simp only [data_size] at this
          omega
        have e2 : read_char (tl ++ 93 :: rest) = ((c : Int), t ++ 93 :: rest) := by
          rw [hct]; exact hrc
        have e3 : c :: (t ++ 93 :: rest) = tl ++ 93 :: rest := by rw [hct]; rfl
        have hres := hloop m [] rest (by simp only [data_size]; omega) hlen
        rw [e0, read_bracket_start]
        rw [e2]
        simp only
        rw [if_neg h93, hung, e3]
        exact hres
      | _ => simp [listp, consp, data_value] at hl hd
    | _ => simp [data_value] at hdata

/-- The size of a value bounds the length of its spine. -/
theorem length_lt_data_size : ∀ o : lobj, length o + 1 ≤ data_size o := by
  intro o
  induction o with
  | cons x y _ ihy => simp only [length, data_size]; omega
  | integer _ => simp only [length, data_size]; omega
  | array _ _ => simp only [length, data_size]; omega
  | _ => simp only [length, data_size]; omega

/-- The loop of `print` on a list of values writes a text. -/
theorem print_list_some (st : State) (pr : lobj → Option (List Nat)) (n : Nat)
    (hpr : ∀ V, data_value V = true → data_size V ≤ n → ∃ t, pr V = some t) :
    ∀ (k : Nat) (a d : lobj), data_value (cons a d) = true → data_size (cons a d) ≤ n + 1 →
      length (cons a d) ≤ k → ∃ tl, print_list pr st k (cons a d) = some tl := by
  intro k
  induction k with
  | zero =>
    intro a d _ _ hk
    simp only [length] at hk
    omega
  | succ k ih =>
    intro a d hdata hsize hk
    obtain ⟨hda, hld, hdd⟩ := data_value_cons a d hdata
    simp only [data_size] at hsize
    simp only [length] at hk
    have hd1 := length_lt_data_size d
    obtain ⟨ta, hta⟩ := hpr a hda (by omega)
    rw [print_list]
    simp only [cdr, car]
    cases d with
    | NIL => exact ⟨ta ++ [41], by simp [hta]⟩
    | cons a2 d2 =>
      have hne : (cons a2 d2 : lobj) ≠ NIL := by intro h; exact lobj.noConfusion h
      obtain ⟨tl2, htl2⟩ := ih a2 d2 hdd (by omega) (by omega)
      rw [if_neg hne]
      simp only [consp, Bool.not_true, Bool.false_eq_true, if_false]
      exact ⟨ta ++ [32] ++ tl2, by simp [hta, htl2]⟩
    | _ => simp [listp, consp, data_value] at hld hdd

/-- The function `print` writes a text for the elements of an array of values. -/
theorem print_array_some (pr : lobj → Option (List Nat)) (n : Nat)
    (hpr : ∀ V, data_value V = true → data_size V ≤ n → ∃ t, pr V = some t) :
    ∀ (elems : lobj), data_value elems = true → data_size elems ≤ n + 1 →
      ∃ tl, print_array_items pr elems = some tl := by
  intro elems
  induction elems with
  | cons a d _ ih =>
    intro hdata hsize
    obtain ⟨hda, hld, hdd⟩ := data_value_cons a d hdata
    simp only [data_size] at hsize
    have hd1 := length_lt_data_size d
    obtain ⟨ta, hta⟩ := hpr a hda (by omega)
    cases d with
    | NIL => exact ⟨ta, hta⟩
    | cons a2 d2 =>
      obtain ⟨tl2, htl2⟩ := ih hdd (by omega)
      refine ⟨ta ++ [32] ++ tl2, ?_⟩
      show (pr a).bind (fun x =>
        (print_array_items pr (cons a2 d2)).map (fun r => x ++ [32] ++ r)) = _
      simp [hta, htl2]
    | _ => simp [listp, consp, data_value] at hld hdd
  | _ => intro _ _; exact ⟨[], rfl⟩

/-- With fuel at least the size of a value, `print` writes a text for it. -/
theorem print_data (st : State) : ∀ (n : Nat) (V : lobj), data_value V = true →
    data_size V ≤ n → ∃ text, print st n V = some text := by
  intro n
  induction n with
  | zero =>
    intro V _ h
    have := length_lt_data_size V
    omega
  | succ n ih =>
    intro V hdata hsize
    cases V with
    | NIL => exact ⟨_, rfl⟩
    | integer v => exact ⟨_, rfl⟩
    | cons a d =>
      have hlen := length_lt_data_size (cons a d)
      obtain ⟨tl, htl⟩ := print_list_some st (fun x => print st n x) n ih n a d hdata hsize
        (by omega)
      refine ⟨40 :: tl, ?_⟩
      show (print_list (fun x => print st n x) st n (cons a d)).map (fun t => 40 :: t) = _
      rw [htl]
      rfl
    | array elems =>
      simp only [data_value, Bool.and_eq_true] at hdata
      simp only [data_size] at hsize
      obtain ⟨tl, htl⟩ := print_array_some (fun x => print st n x) n ih elems hdata.2 (by omega)
      refine ⟨[91] ++ tl ++ [93], ?_⟩
      show (print_array_items (fun x => print st n x) elems).map
        (fun t => [91] ++ t ++ [93]) = _
      rw [htl]
      rfl
    | _ => simp [data_value] at hdata

/-- C17: for every value `V` built from 32-bit signed integers, `()`, proper
lists and arrays, nested to any depth, `print` writes a text for `V` (with
fuel at least the size of `V`) and `read` on that text (with fuel at least the
size of `V`) returns a value equal to `V`, with `last_parse_error` equal to
`NULL` and the whole text taken. -/
theorem C17_data_roundtrip (V : lobj) (junk max : Nat) (st : State) (n m : Nat)
    (hV : data_value V = true) (hn : data_size V ≤ n) (hm : data_size V ≤ m) :
    ∃ text, print st n V = some text ∧ read junk max m text = .value V none [] := by
  obtain ⟨text, htext⟩ := print_data st n V hV hn
  refine ⟨text, htext, ?_⟩
  have := (read_data_text junk max st n V text hV htext).2 m [] hm rfl
  rwa [List.append_nil] at this

/-- Witness of C17: the list `(1 -2147483648 () (3) [4 []])`. -/
theorem C17_data_roundtrip_witness :
    ∃ text,
      print standard_state 30 (list [integer 1, integer (-2147483648), NIL,
          list [integer 3], array (list [integer 4, array NIL])]) = some text
      ∧ read 0 255 30 text
          = .value (list [integer 1, integer (-2147483648), NIL,
              list [integer 3], array (list [integer 4, array NIL])]) none [] :=
  C17_data_roundtrip _ 0 255 standard_state 30 30 (by decide) (by decide) (by decide)

/-! ## Round trip of symbols (C18) -/

/-- The symbol of the bytes of a name is the symbol of that name. -/
theorem intern_bytes (name : String) : intern (bytes name) = symbol name := by
  unfold intern bytes
  rw [List.map_map]
  have : (Char.ofNat ∘ Char.toNat) = id := by
    funext c
    simp
  rw [this, List.map_id]
  rfl

/-- The symbol loop of `read` on characters of a symbol, up to the end of the
input. -/
theorem read_symbol_text (max : Nat) : ∀ (text buf : List Nat),
    (∀ c ∈ text, symbol_char c = true) → buf.length + text.length < max →
    read_symbol max buf text = .value (intern (buf ++ text)) none [] := by
  intro text
  induction text with
  | nil =>
    intro buf _ hlen
    simp only [List.length_nil, Nat.add_zero] at hlen
    rw [read_symbol, if_neg (by omega), List.append_nil]
  | cons c rest ih =>
    intro buf hc hlen
    simp only [List.length_cons] at hlen
    have hcc := hc c (List.mem_cons_self _ _)
    simp only [symbol_char, Bool.and_eq_true, Bool.not_eq_true', decide_eq_false_iff_not] at hcc
    rw [read_symbol, if_neg (by omega), if_neg (by
      intro h
      rcases h with h | h
      · rw [hcc.1] at h; exact Bool.noConfusion h
      · exact hcc.2 h)]
    rw [ih (buf ++ [c]) (fun x hx => hc x (List.mem_cons_of_mem _ hx))
      (by simp only [List.length_append, List.length_cons, List.length_nil]; omega)]
    simp

/-- The function `print` on a symbol whose name has no `%`. -/
theorem print_symbol (st : State) (n : Nat) (name : String) (h : 37 ∉ bytes name) :
    print st (n + 1) (symbol name) = some (bytes name) := by
  simp [print, h]

/-- The dispatch of `read` on a plain name: the symbol loop is entered with an
empty buffer, or with the sign that starts the name in the buffer. -/
theorem read_plain_dispatch (junk max m : Nat) (name : List Nat) (h : plain_name name = true) :
    ∃ buf text, buf ++ text = name ∧ buf.length ≤ 1 ∧ (∀ x ∈ text, symbol_char x = true)
      ∧ read junk max (m + 1) name = read_symbol max buf text := by
  cases name with
  | nil => simp [plain_name] at h
  | cons c rest =>
    simp only [plain_name, List.all_cons, Bool.and_eq_true, Bool.not_eq_true',
      decide_eq_false_iff_not] at h
    obtain ⟨⟨⟨⟨hc, _⟩, hrest⟩, hstart⟩, hsign⟩ := h
    have hrest2 : ∀ x ∈ rest, symbol_char x = true := by
      intro x hx
      have := List.all_eq_true.mp hrest x hx
      simp only [Bool.and_eq_true] at this
      exact this.1
    have hall : ∀ x ∈ c :: rest, symbol_char x = true := by
      intro x hx
      rcases List.mem_cons.mp hx with rfl | hx
      · exact hc
      · exact hrest2 x hx
    have hc2 := hc
    simp only [symbol_char, Bool.and_eq_true, Bool.not_eq_true', decide_eq_false_iff_not,
      List.mem_cons, List.mem_singleton, List.not_mem_nil, or_false, not_or] at hc2
    obtain ⟨hsp, h0, h40, h41, h91, h93, h34, h59⟩ := hc2
    simp only [starts_other_token, Bool.or_eq_false_iff, decide_eq_false_iff_not] at hstart
    obtain ⟨⟨⟨⟨h39, h44⟩, h63⟩, h46⟩, hdig⟩ := hstart
    have e1 : read_char (c :: rest) = ((c : Int), rest) := by
      rw [read_char, hsp]; rfl
    by_cases hs : c = 45 ∨ c = 43
    · -- a sign that starts a symbol
      have hnext : ∀ d rest2, rest = d :: rest2 → ¬ (d = 46 ∨ (48 ≤ d ∧ d ≤ 57)) := by
        intro d rest2 hr
        subst hr
        simp only [starts_signed_number, Bool.and_eq_false_iff, Bool.or_eq_false_iff,
          decide_eq_false_iff_not] at hsign
        rcases hsign with hsign | hsign
        · exact absurd hs (by omega)
        · omega
      have e2 : read junk max (m + 1) (c :: rest) = read_symbol max [c] rest := by
        rw [read, e1]
        simp only
        repeat rw [if_neg (by omega)]
        rw [if_pos (by omega)]
        cases rest with
        | nil => simp [getc]
        | cons d rest2 =>
          have := hnext d rest2 rfl
          simp only [getc]
          rw [if_neg (by omega)]
          simp
      exact ⟨[c], rest, rfl, by simp, hrest2, e2⟩
    · have e2 : read junk max (m + 1) (c :: rest) = read_symbol max [] (c :: rest) := by
        rw [read, e1]
        simp only
        repeat rw [if_neg (by omega)]
        simp
      exact ⟨[], c :: rest, rfl, by simp, hall, e2⟩

/-- The function `read` on a plain name. -/
theorem read_plain_name (junk max m : Nat) (name : List Nat) (h : plain_name name = true)
    (hlen : name.length < max) :
    read junk max (m + 1) name = .value (intern name) none [] := by
  obtain ⟨buf, text, hname, _, htext, hread⟩ := read_plain_dispatch junk max m name h
  rw [hread, read_symbol_text max text buf htext (by rw [← List.length_append, hname]; exact hlen),
    hname]

/-- A plain name has no `%`. -/
theorem plain_name_no_percent (name : List Nat) (h : plain_name name = true) : 37 ∉ name := by
  intro hmem
  simp only [plain_name, Bool.and_eq_true] at h
  have := List.all_eq_true.mp h.1.1 37 hmem
  simp at this

/-- C18 (amended): for every name that is not empty and shorter than the
maximum symbol length, whose characters are neither spaces nor one of
`()[]";` nor `%` nor the null character, and that does not start like
another token (with a quote, a comma, a question mark, a dot or a digit, or
with a sign followed by a dot or a digit), `print` writes the name for the
symbol `intern(name)` and `read` on that text returns the same symbol, with
`last_parse_error` equal to `NULL`. -/
theorem C18_plain_symbol_roundtrip (name : String) (junk max : Nat) (st : State) (n m : Nat)
    (hname : plain_name (bytes name) = true) (hlen : (bytes name).length < max) :
    ∃ text, print st (n + 1) (intern (bytes name)) = some text
      ∧ read junk max (m + 1) text = .value (intern (bytes name)) none [] := by
  refine ⟨bytes name, ?_, read_plain_name junk max m _ hname hlen⟩
  rw [intern_bytes]
  exact print_symbol st n name (plain_name_no_percent _ hname)

/-- Witness of C18: the name `set-car!`. -/
theorem C18_plain_symbol_roundtrip_witness :
    ∃ text, print standard_state 1 (intern (bytes "set-car!")) = some text
      ∧ read 0 255 1 text = .value (intern (bytes "set-car!")) none [] :=
  C18_plain_symbol_roundtrip "set-car!" 0 255 standard_state 0 0 (by decide) (by decide)

set_option maxRecDepth 100000 in
/-- C18 (counterexample): the name `a b`, of three characters.  For the symbol
`intern("a b")`, `print` writes the text `a b`; `read` on that text returns
the symbol `a` and leaves ` b` in the input. -/
theorem C18_name_with_blank_is_split :
    print standard_state 1 (intern (bytes "a b")) = some (bytes "a b")
    ∧ read 0 255 1 (bytes "a b") = .value (intern (bytes "a")) none (bytes " b")
    ∧ read 0 255 1 (bytes "a b") ≠ .value (intern (bytes "a b")) none [] := by
  decide!

/-! ## Parse errors and comments (C19, C20) -/

set_option maxRecDepth 100000 in
/-- C19 (failing input): the text `(a ] b)`.  A stray `]` alone, or as the last
element of a list as in `(a ])`, leaves `last_parse_error` set; but on
`(a ] b)` the call of `read` for `b`, which starts with
`last_parse_error = NULL`, clears the error of the call before it: `read`
returns the list `(a () b)` with `last_parse_error` equal to `NULL`. -/
theorem C19_stray_bracket_error_is_lost :
    read 0 255 20 (bytes "]") = .value NIL (some "too many ']' in expression.") []
    ∧ read 0 255 20 (bytes "(a ])")
        = .value (list [symbol "a", NIL]) (some "too many ']' in expression.") []
    ∧ read 0 255 20 (bytes "(a ] b)") = .value (list [symbol "a", NIL, symbol "b"]) none [] := by
  decide!

set_option maxRecDepth 100000 in
/-- C20 (failing input): the text `(a ; c`, a newline, `)`.  With the newline
alone between `a` and `)` the list `(a)` is read, and a comment in front of an
expression is skipped; but the comment between the last element and `)` is met
by the list loop, which calls `read` for one more element: that call skips the
comment, meets `)` and fails, and the list loop then meets the end of the
input: `read` returns `()` with the parse error "unexpected EOF in a list.". -/
theorem C20_comment_before_closing_paren :
    read 0 255 20 (bytes "(a\n)") = .value (list [symbol "a"]) none []
    ∧ read 0 255 20 (bytes "(; c\na)") = .value (list [symbol "a"]) none []
    ∧ read 0 255 20 (bytes "(a ; c\n)") = .value NIL (some "unexpected EOF in a list.") [] := by
  decide!

/-! ## Parse errors of characters and symbols, escapes and numbers (C21 to C25) -/

/-- C21 (failing input): the text `?` followed by the end of the input.  The
character case of `read` calls `get_literal_char(-1)`; the end character -1 is
`EOF` itself, so at the end of the input `get_literal_char` answers -2, the
code of the end character, and not `EOF`: the test `ch == EOF` of `read` fails,
`last_parse_error` stays `NULL` and `read` returns the character made of -2,
which is the character 254. -/
theorem C21_question_mark_at_end_of_input (junk max n : Nat) :
    get_literal_char junk (-1) [] = (-2, [])
    ∧ read junk max (n + 1) (bytes "?") = .value (character 254) none [] :=
  ⟨rfl, rfl⟩

/-- The symbol loop of `read` on at least as many characters of a symbol as the
buffer still takes: the fatal error of `internal_error`. -/
theorem read_symbol_overlong (max : Nat) : ∀ (text buf : List Nat),
    (∀ c ∈ text, symbol_char c = true) → buf.length ≤ max → max ≤ buf.length + text.length →
    read_symbol max buf text = .internal_error "too long symbol name given." := by
  intro text
  induction text with
  | nil =>
    intro buf _ h1 h2
    simp only [List.length_nil, Nat.add_zero] at h2
    rw [read_symbol, if_pos (by omega)]
  | cons c rest ih =>
    intro buf hc h1 h2
    simp only [List.length_cons] at h2
    rw [read_symbol]
    by_cases hfull : buf.length = max
    · rw [if_pos hfull]
    · have hcc := hc c (List.mem_cons_self _ _)
      simp only [symbol_char, Bool.and_eq_true, Bool.not_eq_true', decide_eq_false_iff_not] at hcc
      rw [if_neg hfull, if_neg (by
        intro h
        rcases h with h | h
        · rw [hcc.1] at h; exact Bool.noConfusion h
        · exact hcc.2 h)]
      exact ih (buf ++ [c]) (fun x hx => hc x (List.mem_cons_of_mem _ hx))
        (by simp only [List.length_append, List.length_cons, List.length_nil]; omega)
        (by simp only [List.length_append, List.length_cons, List.length_nil]; omega)

set_option maxRecDepth 100000 in
/-- C22 (counterexample): with the maximum symbol length 255, the name of 256
letters `a`: `read` does not return, it ends in the fatal error of
`internal_error`, which terminates the process. -/
theorem C22_overlong_symbol_is_fatal :
    read 0 255 1 (List.replicate 256 97) = .internal_error "too long symbol name given."
    ∧ ∀ o err rest, read 0 255 1 (List.replicate 256 97) ≠ .value o err rest := by
  have h : read 0 255 1 (List.replicate 256 97)
      = .internal_error "too long symbol name given." := by decide!
  refine ⟨h, ?_⟩
  intro o err rest
  rw [h]
  exact fun e => ReadResult.noConfusion e

/-- C22 (amended): reading a symbol whose name (a plain name, up to the end of
the input) is longer than the maximum symbol length ends in the fatal error
"too long symbol name given." of `internal_error`, which terminates the
process: `read` does not return and no parse error is set. -/
theorem C22_overlong_symbol (junk max m : Nat) (name : List Nat)
    (hmax : 0 < max) (hname : plain_name name = true) (hlen : max < name.length) :
    read junk max (m + 1) name = .internal_error "too long symbol name given." := by
  obtain ⟨buf, text, hn, hbuf, htext, hread⟩ := read_plain_dispatch junk max m name hname
  rw [hread]
  exact read_symbol_overlong max text buf htext (by omega)
    (by rw [← List.length_append, hn]; omega)

/-- Witness of C22: the name `abcd` with the maximum symbol length 3. -/
theorem C22_overlong_symbol_witness :
    read 0 3 1 (bytes "abcd") = .internal_error "too long symbol name given." :=
  C22_overlong_symbol 0 3 0 (bytes "abcd") (by decide) (by decide) (by decide)

set_option maxRecDepth 100000 in
/-- C23 (failing input): the string literal written backslash `1010` between
double quotes.  After the first digit of an octal constant the loop of
`get_literal_char` takes up to three more digits, and it takes `8` for a
digit: the four digits `1010` are one constant, of value 520, which is the
character 8 in an `unsigned char`, and the string read has this one character.
The literal backslash `101` is the character `A`, and backslash `8` is the
character 8. -/
theorem C23_octal_escape_takes_four_digits :
    read 0 255 1 (bytes "\"\\1010\"") = .value (string [8]) none []
    ∧ read 0 255 1 (bytes "\"\\101\"") = .value (string [65]) none []
    ∧ read 0 255 1 (bytes "\"\\8\"") = .value (string [8]) none []
    ∧ read 0 255 1 (bytes "?\\1010") = .value (character 8) none [] := by
  decide!

set_option maxRecDepth 100000 in
/-- C24 (failing input): the text `+5`.  The sign case of `read` negates the
number after either sign: `-5` reads as the integer -5, and `+5` reads as the
integer -5 too, where `5` reads as 5; `+1.5` reads as the float -1.5. -/
theorem C24_plus_sign_negates :
    read 0 255 2 (bytes "5") = .value (integer 5) none []
    ∧ read 0 255 2 (bytes "-5") = .value (integer (-5)) none []
    ∧ read 0 255 2 (bytes "+5") = .value (integer (-5)) none []
    ∧ read 0 255 2 (bytes "+1.5") = .value (floating (-3 / 2)) none [] := by
  decide!

set_option maxRecDepth 100000 in
/-- C25 (failing input): the literals `1.05` and `1.1`.  The digits after the
dot are read as a whole number, which is divided by ten as long as it is above
one: `05` is 5 and gives 0.5, so `1.05` reads as 1.5, and `1` is not above one
and stays 1, so `1.1` reads as 2; `1.25` reads as 1.25. -/
theorem C25_fraction_digits :
    read 0 255 1 (bytes "1.05") = .value (floating (3 / 2)) none []
    ∧ read 0 255 1 (bytes "1.1") = .value (floating 2) none []
    ∧ read 0 255 1 (bytes "1.25") = .value (floating (5 / 4)) none [] := by
  decide!

/-! ## Arithmetic primitives (C26 to C30) -/

/-- A list of integers is a list of integers for `all_integerp`. -/
theorem all_integerp_integers (vs : List Int) : all_integerp (list (vs.map integer)) = true := by
  induction vs with
  | nil => rfl
  | cons v vs ih =>
    show all_integerp (cons (integer v) (list (vs.map integer))) = true
    rw [all_integerp]
    simpa [integerp] using ih

/-- The integer loop of `subr_add` adds up the list in 32-bit arithmetic. -/
theorem add_integers_sum : ∀ (vs : List Int) (acc : Int),
    add_integers (list (vs.map integer)) (wrap32 acc) = wrap32 (acc + vs.sum) := by
  intro vs
  induction vs with
  | nil => intro acc; simp [list, list_with_tail, add_integers]
  | cons v vs ih =>
    intro acc
    show add_integers (cons (integer v) (list (vs.map integer))) (wrap32 acc) = _
    rw [add_integers, integer_value, wrap32_add_wrap32, ih, List.sum_cons, Int.add_assoc]

/-- C26: for every list of integers, the primitive `+` returns the integer that
is the sum of the list reduced to 32-bit two's complement; the empty list
gives 0, and `(+ 1 2 3)` evaluates to 6 in the standard environment. -/
theorem C26_add_integers (vs : List Int) (fuel : Nat) (ev : lobj → State → Result)
    (st : State) :
    call_subr fuel ev .subr_add (list (vs.map integer)) st
        = .value (integer (wrap32 vs.sum)) st
    ∧ call_subr fuel ev .subr_add NIL st = .value (integer 0) st
    ∧ (eval 30 (list [symbol "+", integer 1, integer 2, integer 3]) NIL
          ( subr_initialize)).get = some (integer 6) := by
  refine ⟨?_, rfl, ?_⟩
  · show subr_add fuel (list (vs.map integer)) st = _
    unfold subr_add
    rw [if_pos (all_integerp_integers vs)]
    have h := add_integers_sum vs 0
    have h0 : wrap32 0 = 0 := by decide
    rw [h0, Int.zero_add] at h
    rw [h]
  · rw [ subr_initialize_eq]
    decide!

/-- The loop of the float branches never ends on a list that is not empty and
starts with a number: no turn advances `args`. -/
theorem float_loop_diverges (name : String) (op : Rat → Rat → Rat) (st : State) (args : lobj)
    (hne : args ≠ NIL) (hnum : integerp (car args) = true ∨ floatingp (car args) = true) :
    ∀ (fuel : Nat) (acc : Rat) (ix : Nat),
      float_loop name op st args fuel acc ix = .out_of_fuel := by
  intro fuel
  induction fuel with
  | zero => intro acc ix; rfl
  | succ n ih =>
    intro acc ix
    rw [float_loop, if_neg hne, if_pos hnum]
    exact ih _ _

/-- The primitive `+` on a list that starts with a number and holds an object that
is not an integer. -/
theorem subr_add_diverges (a d : lobj) (fuel : Nat) (st : State)
    (hnum : integerp a = true ∨ floatingp a = true) (hfl : all_integerp (cons a d) = false) :
    subr_add fuel (cons a d) st = .out_of_fuel := by
  unfold subr_add
  rw [if_neg (by rw [hfl]; exact Bool.noConfusion)]
  exact float_loop_diverges _ _ st (cons a d) (fun h => lobj.noConfusion h) hnum fuel 0 0

/-- The primitive `div` on a list of two numbers or more. -/
theorem subr_div_diverges (a b d : lobj) (fuel : Nat) (st : State)
    (ha : integerp a = true ∨ floatingp a = true)
    (hb : integerp b = true ∨ floatingp b = true) :
    subr_div fuel (cons a (cons b d)) st = .out_of_fuel := by
  unfold subr_div
  simp only [cdr, car]
  rw [if_pos (fun h => lobj.noConfusion h), if_pos ha]
  exact float_loop_diverges _ _ st (cons b d) (fun h => lobj.noConfusion h) hb fuel _ 1

/-- An evaluation that is out of fuel for every amount above a bound is out of
fuel for every amount. -/
theorem eval_never_returns {o eb : lobj} {st : State} (k : Nat)
    (h : ∀ n, eval (n + k) o eb st = .out_of_fuel) : ∀ fuel, eval fuel o eb st = .out_of_fuel := by
  intro fuel
  by_contra hne
  have := eval_mono (rfl : eval fuel o eb st = eval fuel o eb st) hne (Nat.le_add_right fuel k)
  rw [h fuel] at this
  exact hne this.symm

set_option maxRecDepth 100000 in
/-- The run of `(+ 1 2.0)` in the standard environment up to the call of the
primitive. -/
theorem add_float_run (n : Nat) :
    eval (n + 8) (list [symbol "+", integer 1, floating 2]) NIL standard_state
      = eval_loop (n + 1) .apply (pa (-1) (subr .subr_add) (list [integer 1, floating 2])) NIL
          standard_state := by
  rfl

set_option maxRecDepth 100000 in
/-- The run of `(div 6 3)` in the standard environment up to the call of the
primitive. -/
theorem div_run (n : Nat) :
    eval (n + 8) (list [symbol "div", integer 6, integer 3]) NIL standard_state
      = eval_loop (n + 1) .apply (pa (-1) (subr .subr_div) (list [integer 6, integer 3])) NIL
          standard_state := by
  rfl

/-- The call of a primitive that the evaluator does not intercept, with an
accepted number of arguments, ends the evaluation when the primitive gives no
value. -/
theorem apply_native_fails (n : Nat) (k : Int) (s : lsubr) (vals eb : lobj) (st : State)
    (r : Result)
    (hstep : ∀ ev, eval_step n ev .apply (pa k (subr s) vals) eb st
      = match call_subr n ev s vals st with
        | .value v st1 => .goto .ret v st1
        | e => .done e)
    (hcall : ∀ ev, call_subr n ev s vals st = r) (hr : ∀ v st1, r ≠ .value v st1) :
    eval_loop (n + 1) .apply (pa k (subr s) vals) eb st = r := by
  rw [eval_loop_succ, hstep, hcall]
  cases r <;> first | rfl | exact absurd rfl (hr _ _)

/-- C27 (failing input): the list `(1 2.0)`.  On every list of integers and
floats that holds a float, the primitive `+` enters the loop of its float
branch, which adds `car(args)` and increments `ix` but never advances `args`:
the loop does not end, whatever the fuel, and `(+ 1 2.0)` never returns. -/
theorem C27_add_with_float_diverges (fuel : Nat) (ev : lobj → State → Result) (st : State) :
    call_subr fuel ev .subr_add (list [integer 1, floating 2]) st = .out_of_fuel
    ∧ (∀ a d, (integerp a = true ∨ floatingp a = true) → all_integerp (cons a d) = false →
        call_subr fuel ev .subr_add (cons a d) st = .out_of_fuel)
    ∧ eval fuel (list [symbol "+", integer 1, floating 2]) NIL ( subr_initialize)
        = .out_of_fuel := by
  refine ⟨?_, ?_, ?_⟩
  · exact subr_add_diverges _ _ fuel st (Or.inl rfl) rfl
  · intro a d ha hd
    exact subr_add_diverges a d fuel st ha hd
  · rw [ subr_initialize_eq]
    apply eval_never_returns 8
    intro n
    rw [add_float_run]
    exact apply_native_fails n _ .subr_add _ _ _ _ (fun _ => rfl)
      (fun _ => subr_add_diverges (integer 1) (list [floating 2]) n _ (Or.inl rfl) rfl)
      (fun _ _ h => Result.noConfusion h)

/-- C28 (failing input): the list `(6 3)`.  On every list of two numbers or more
the primitive `div` enters its loop, which divides by `car(args)` and
increments `ix` but never advances `args`, as the loop of the float branch of
`+` (C27): the loop does not end, whatever the fuel, and `(div 6 3)` never
returns. -/
theorem C28_div_diverges (fuel : Nat) (ev : lobj → State → Result) (st : State) :
    call_subr fuel ev .subr_div (list [integer 6, integer 3]) st = .out_of_fuel
    ∧ (∀ a b d, (integerp a = true ∨ floatingp a = true) →
        (integerp b = true ∨ floatingp b = true) →
        call_subr fuel ev .subr_div (cons a (cons b d)) st = .out_of_fuel)
    ∧ eval fuel (list [symbol "div", integer 6, integer 3]) NIL ( subr_initialize)
        = .out_of_fuel := by
  refine ⟨?_, ?_, ?_⟩
  · exact subr_div_diverges _ _ _ fuel st (Or.inl rfl) (Or.inl rfl)
  · intro a b d ha hb
    exact subr_div_diverges a b d fuel st ha hb
  · rw [ subr_initialize_eq]
    apply eval_never_returns 8
    intro n
    rw [div_run]
    exact apply_native_fails n _ .subr_div _ _ _ _ (fun _ => rfl)
      (fun _ => subr_div_diverges (integer 6) (integer 3) NIL n _ (Or.inl rfl) (Or.inl rfl))
      (fun _ _ h => Result.noConfusion h)

/-- The truncated quotient of a 32-bit integer by a divisor that is not zero is a
32-bit integer, the quotient of the minimum by -1 apart. -/
theorem tdiv_int32 (v d : Int) (hv : is_int32 v = true) (hd : d ≠ 0)
    (hmin : ¬ (v = -2147483648 ∧ d = -1)) : is_int32 (Int.tdiv v d) = true := by
  simp only [is_int32, decide_eq_true_eq] at hv ⊢
  have habs := Int.natAbs_tdiv v d
  have hle : (Int.tdiv v d).natAbs ≤ v.natAbs / d.natAbs := by rw [habs]; exact Nat.le_refl _
  by_cases h1 : d = 1
  · subst h1; rw [Int.tdiv_one]; exact hv
  · by_cases h2 : d = -1
    · subst h2
      have : Int.tdiv v (-1) = -v := by
        have := Int.tdiv_neg v 1
        rw [Int.tdiv_one] at this
        exact this
      rw [this]
      omega
    · have hd2 : 2 ≤ d.natAbs := by omega
      have : v.natAbs / d.natAbs ≤ v.natAbs / 2 := Nat.div_le_div_left hd2 (by decide)
      omega

/-- The loop of `subr_quot` on a list of divisors that it accepts. -/
theorem quot_loop_integers (st : State) : ∀ (ds : List Int) (v : Int) (i : Nat),
    quot_defined v ds = true →
    quot_loop st (list (ds.map integer)) v i = .value (integer (ds.foldl Int.tdiv v)) st := by
  intro ds
  induction ds with
  | nil => intro v i _; rfl
  | cons d ds ih =>
    intro v i h
    simp only [quot_defined, Bool.and_eq_true, Bool.not_eq_true', decide_eq_false_iff_not] at h
    obtain ⟨⟨hd, hmin⟩, hrest⟩ := h
    show quot_loop st (cons (integer d) (list (ds.map integer))) v i = _
    rw [quot_loop]
    simp only [integerp, integer_value, if_true]
    rw [if_neg hd, if_neg hmin, ih _ _ hrest]
    rfl

/-- The quotients of a 32-bit integer by accepted divisors stay 32-bit integers. -/
theorem quot_int32 : ∀ (ds : List Int) (v : Int), is_int32 v = true → quot_defined v ds = true →
    is_int32 (ds.foldl Int.tdiv v) = true := by
  intro ds
  induction ds with
  | nil => intro v hv _; exact hv
  | cons d ds ih =>
    intro v hv h
    simp only [quot_defined, Bool.and_eq_true, Bool.not_eq_true', decide_eq_false_iff_not] at h
    obtain ⟨⟨hd, hmin⟩, hrest⟩ := h
    exact ih _ (tdiv_int32 v d hv hd hmin) hrest

/-- C29: for every list of integers `v, ds...` whose divisors `ds` are not zero and
that never divides the minimum integer by -1 (`quot_defined`), the primitive
`/` returns the integer got by dividing `v` by each divisor from left to
right, each quotient truncated toward zero, and no error branch is reached; a
single integer is returned unchanged; the result of 32-bit operands is a
32-bit integer. -/
theorem C29_quot_integers (v : Int) (ds : List Int) (fuel : Nat) (ev : lobj → State → Result) (st : State)
    (hdef : quot_defined v ds = true) :
    call_subr fuel ev .subr_quot (list (integer v :: ds.map integer)) st
        = .value (integer (ds.foldl Int.tdiv v)) st
    ∧ call_subr fuel ev .subr_quot (list [integer v]) st = .value (integer v) st
    ∧ (is_int32 v = true → is_int32 (ds.foldl Int.tdiv v) = true) := by
  refine ⟨?_, rfl, fun hv => quot_int32 ds v hv hdef⟩
  show subr_quot (cons (integer v) (list (ds.map integer))) st = _
  unfold subr_quot
  simp only [car, integerp, if_true, cdr, integer_value]
  exact quot_loop_integers st ds v 1 hdef

/-- C29 (witness): `(/ -7 2)` is -3 and `(/ 7 -2 -1)` is 3. -/
theorem C29_quot_integers_witness :
    quot_defined (-7) [2] = true
    ∧ call_subr 0 (fun _ _ => .out_of_fuel) .subr_quot (list [integer (-7), integer 2])
        standard_state = .value (integer (-3)) standard_state :=
  ⟨by decide,
    (C29_quot_integers (-7) [2] 0 (fun _ _ => .out_of_fuel) standard_state (by decide)).1⟩

/-- The loop of `DEFINE_ORD_SUBR` on a list of integers, once `last` is assigned. -/
theorem ord_loop_integers (name : String) (cmp : Rat → Rat → Bool) (R : Int → Int → Prop)
    [DecidableRel R] (hR : ∀ a b : Int, cmp (a : Rat) (b : Rat) = decide (R a b)) (st : State) :
    ∀ (vs : List Int) (v : Int) (ix : Nat) (p : lobj), car p = integer v →
      ord_loop name cmp st (list (vs.map integer)) (v : Rat) ix (some p)
        = .value (if List.Chain R v vs then integer ((v :: vs).getLast (List.cons_ne_nil _ _))
            else NIL) st := by
  intro vs
  induction vs with
  | nil =>
    intro v ix p hp
    show Result.value (car p) st = _
    rw [hp]
    simp
  | cons w ws ih =>
    intro v ix p _
    show ord_loop name cmp st (cons (integer w) (list (ws.map integer))) (v : Rat) ix (some p) = _
    rw [ord_loop]
    simp only [integerp, true_or, if_true, number_value, hR]
    by_cases hvw : R v w
    · simp only [hvw, decide_True, Bool.not_true, Bool.false_eq_true, if_false]
      rw [ih w (ix + 1) (cons (integer w) (list (ws.map integer))) rfl]
      simp [List.chain_cons, hvw]
    · simp [List.chain_cons, hvw]

/-- A primitive made by `DEFINE_ORD_SUBR` on a list of two integers or more. -/
theorem ord_subr_integers (name : String) (cmp : Rat → Rat → Bool) (R : Int → Int → Prop)
    [DecidableRel R] (hR : ∀ a b : Int, cmp (a : Rat) (b : Rat) = decide (R a b)) (st : State)
    (v : Int) (vs : List Int) (hvs : vs ≠ []) :
    ord_subr name cmp (list (integer v :: vs.map integer)) st
      = .value (if List.Chain R v vs then integer ((v :: vs).getLast (List.cons_ne_nil _ _))
          else NIL) st := by
  cases vs with
  | nil => exact absurd rfl hvs
  | cons w ws =>
    show ord_subr name cmp (cons (integer v) (cons (integer w) (list (ws.map integer)))) st = _
    unfold ord_subr
    rw [if_neg (fun h => lobj.noConfusion h)]
    simp only [car, integerp, true_or, if_true, cdr, number_value]
    rw [ord_loop]
    simp only [integerp, true_or, if_true, number_value, hR]
    by_cases hvw : R v w
    · simp only [hvw, decide_True, Bool.not_true, Bool.false_eq_true, if_false]
      rw [ord_loop_integers name cmp R hR st ws w 2 (cons (integer w) (list (ws.map integer))) rfl]
      simp [List.chain_cons, hvw]
    · simp [List.chain_cons, hvw]

/-- C30: for every list of two integers or more, `<=` returns the last element
of the list when every adjacent pair `(a, b)` satisfies `a <= b` and returns
`()` otherwise; the same holds for `<`, `>=`, `>` and `=` with their own
relations. -/
theorem C30_ord_subr_integers (v : Int) (vs : List Int) (fuel : Nat) (ev : lobj → State → Result) (st : State)
    (hvs : vs ≠ []) :
    call_subr fuel ev .subr_le (list (integer v :: vs.map integer)) st
        = .value (if List.Chain (· ≤ ·) v vs
            then integer ((v :: vs).getLast (List.cons_ne_nil _ _)) else NIL) st
    ∧ call_subr fuel ev .subr_lt (list (integer v :: vs.map integer)) st
        = .value (if List.Chain (· < ·) v vs
            then integer ((v :: vs).getLast (List.cons_ne_nil _ _)) else NIL) st
    ∧ call_subr fuel ev .subr_ge (list (integer v :: vs.map integer)) st
        = .value (if List.Chain (· ≥ ·) v vs
            then integer ((v :: vs).getLast (List.cons_ne_nil _ _)) else NIL) st
    ∧ call_subr fuel ev .subr_gt (list (integer v :: vs.map integer)) st
        = .value (if List.Chain (· > ·) v vs
            then integer ((v :: vs).getLast (List.cons_ne_nil _ _)) else NIL) st
    ∧ call_subr fuel ev .subr_num_eq (list (integer v :: vs.map integer)) st
        = .value (if List.Chain (· = ·) v vs
            then integer ((v :: vs).getLast (List.cons_ne_nil _ _)) else NIL) st := by
  refine ⟨?_, ?_, ?_, ?_, ?_⟩
  · exact ord_subr_integers _ _ (· ≤ ·) (by intro a b; simp) st v vs hvs
  · exact ord_subr_integers _ _ (· < ·) (by intro a b; simp) st v vs hvs
  · exact ord_subr_integers _ _ (· ≥ ·) (by intro a b; simp) st v vs hvs
  · exact ord_subr_integers _ _ (· > ·) (by intro a b; simp) st v vs hvs
  · exact ord_subr_integers _ _ (· = ·) (by intro a b; simp) st v vs hvs


/-- C30 (witness): `(<= 1 2 2)` is 2. -/
theorem C30_ord_subr_integers_witness :
    ([2, 2] : List Int) ≠ []
    ∧ call_subr 0 (fun _ _ => .out_of_fuel) .subr_le (list [integer 1, integer 2, integer 2])
        standard_state = .value (integer 2) standard_state :=
  ⟨by decide,
    (C30_ord_subr_integers 1 [2, 2] 0 (fun _ _ => .out_of_fuel) standard_state (by decide)).1.trans
      (by rw [if_pos (by simp)]; rfl)⟩

/-! ## Comparisons of one argument, arrays (C31 to C33) -/

/-- C31 (failing input): `(<= 5)`.  With one argument the `while(args)` loop of
`DEFINE_ORD_SUBR` is not entered, so `last` is never assigned, and the
`return car(last)` that follows reads it: the result of `<=`, `<`, `>=`, `>`
and `=` on a single integer or float, and of `char=` on a single character,
is the `car` of an uninitialised variable and not the argument. -/
theorem C31_single_argument_reads_last (v : Int) (q : Rat) (c fuel : Nat)
    (ev : lobj → State → Result) (st : State) :
    (∀ s ∈ [lsubr.subr_le, lsubr.subr_lt, lsubr.subr_ge, lsubr.subr_gt, lsubr.subr_num_eq],
        call_subr fuel ev s (list [integer v]) st = .undefined "last"
        ∧ call_subr fuel ev s (list [floating q]) st = .undefined "last")
    ∧ call_subr fuel ev .subr_char_eq (list [character c]) st = .undefined "last"
    ∧ eval 30 (list [symbol "<=", integer 5]) NIL ( subr_initialize) = .undefined "last" := by
  refine ⟨?_, rfl, ?_⟩
  · intro s hs
    simp only [List.mem_cons, List.mem_singleton, List.not_mem_nil, or_false] at hs
    rcases hs with h | h | h | h | h <;> subst h <;> exact ⟨rfl, rfl⟩
  · rw [ subr_initialize_eq]
    decide!

/-- C32 (failing input): `(aset! [7 8] 1 5)`.  The descriptor of `subr_aset` is
`E E, _`: two arguments and no rest, so the evaluator refuses the call with
the three arguments of `(aset! ARRAY N O)` ("too many arguments applied to a
subr.") before the primitive runs; and the body takes `car(cdr(args))` both
for the index and for the object stored, so that on the two arguments it gets
it stores the index in the slot and returns it: `(aset! [7 8] 1)` makes the
array `[7 1]` and returns 1. -/
theorem C32_aset_takes_two_arguments (a i v eb : lobj) (k : Int) (fuel : Nat)
    (ev : lobj → State → Result) (st : State) :
    apply_label fuel ev (pa k (subr .subr_aset) (list [a, i, v])) eb st
        = .done (evaluation_error ev eb "too many arguments applied to a subr." st)
    ∧ min_args (subr_args .subr_aset) = 2 ∧ variadic (subr_args .subr_aset) = false
    ∧ eval 30 (list [symbol "aset!", array (list [integer 7, integer 8]), integer 1, integer 5])
          NIL ( subr_initialize)
        = .lisp_error "too many arguments applied to a subr."
    ∧ subr_aset (list [array (list [integer 7, integer 8]), integer 1]) st
        = (.value (integer 1) st, array (list [integer 7, integer 1])) := by
  refine ⟨rfl, by decide, by decide, ?_, rfl⟩
  rw [ subr_initialize_eq]
  decide!

/-- The number of cells of a proper list. -/
theorem length_list (xs : List lobj) : length (list xs) = xs.length := by
  induction xs with
  | nil => rfl
  | cons x xs ih =>
    show length (cons x (list xs)) = _
    rw [length, ih, List.length_cons]

/-- The slots of an array made of a proper list. -/
theorem array_slot_list : ∀ (xs : List lobj) (n : Nat), array_slot (list xs) n = xs.getD n NIL := by
  intro xs
  induction xs with
  | nil => intro n; cases n <;> rfl
  | cons x xs ih =>
    intro n
    cases n with
    | zero => rfl
    | succ n =>
      show array_slot (cons x (list xs)) (n + 1) = _
      rw [array_slot, ih]
      rfl

/-- C33: for every array of slots `xs`, every string of bytes `bs` and every
integer `i`, `(aref a i)` returns slot `i` of the array, and for the string the
character holding byte `i`, when `0 <= i < n`; it fails with "array boundary
error" when `i >= n`, and with a type error on argument 1 when `i < 0`; and
`(aref "abc" 1)` evaluates to the character `b`. -/
theorem C33_aref (xs : List lobj) (bs : List Nat) (i : Int) (fuel : Nat)
    (ev : lobj → State → Result) (st : State) (hbs : ∀ b ∈ bs, b < 256) :
    (0 ≤ i → i < xs.length →
      call_subr fuel ev .subr_aref (list [array (list xs), integer i]) st
        = .value (xs.getD i.toNat NIL) st)
    ∧ (0 ≤ i → i < bs.length →
      call_subr fuel ev .subr_aref (list [string bs, integer i]) st
        = .value (character (bs.getD i.toNat 0)) st)
    ∧ ((xs.length : Int) ≤ i →
      call_subr fuel ev .subr_aref (list [array (list xs), integer i]) st
        = .lisp_error "array boundary error")
    ∧ ((bs.length : Int) ≤ i →
      call_subr fuel ev .subr_aref (list [string bs, integer i]) st
        = .lisp_error "array boundary error")
    ∧ (i < 0 →
      call_subr fuel ev .subr_aref (list [array (list xs), integer i]) st
          = .type_error "subr \"aref\"" 1 "positive integer"
      ∧ call_subr fuel ev .subr_aref (list [string bs, integer i]) st
          = .type_error "subr \"aref\"" 1 "positive integer")
    ∧ (eval 30 (list [symbol "aref", string (bytes "abc"), integer 1]) NIL
          ( subr_initialize)).get = some (character 98) := by
  have harr : call_subr fuel ev .subr_aref (list [array (list xs), integer i]) st
      = if i < 0 then .type_error "subr \"aref\"" 1 "positive integer"
        else if xs.length ≤ i.toNat then .lisp_error "array boundary error"
        else .value (xs.getD i.toNat NIL) st := by
    show subr_aref (cons (array (list xs)) (cons (integer i) NIL)) st = _
    unfold subr_aref
    simp only [cdr, car, integerp, integer_value, Bool.not_true, Bool.false_eq_true, if_false,
      length_list, array_slot_list]
  have hstr : call_subr fuel ev .subr_aref (list [string bs, integer i]) st
      = if i < 0 then .type_error "subr \"aref\"" 1 "positive integer"
        else if bs.length ≤ i.toNat then .lisp_error "array boundary error"
        else .value (character (bs.getD i.toNat 0 % 256)) st := by
    show subr_aref (cons (string bs) (cons (integer i) NIL)) st = _
    unfold subr_aref
    simp only [cdr, car, integerp, integer_value, Bool.not_true, Bool.false_eq_true, if_false]
  rw [harr, hstr]
  refine ⟨?_, ?_, ?_, ?_, ?_, ?_⟩
  · intro h0 hn
    rw [if_neg (by omega), if_neg (by omega)]
  · intro h0 hn
    rw [if_neg (by omega), if_neg (by omega)]
    have hlt : i.toNat < bs.length := by omega
    have hmem : bs.getD i.toNat 0 ∈ bs := by
      rw [List.getD_eq_getElem _ _ hlt]
      exact List.getElem_mem _
    rw [Nat.mod_eq_of_lt (hbs _ hmem)]
  · intro hn
    rw [if_neg (by omega), if_pos (by omega)]
  · intro hn
    rw [if_neg (by omega), if_pos (by omega)]
  · intro hneg
    rw [if_pos hneg, if_pos hneg]
    exact ⟨rfl, rfl⟩
  · rw [ subr_initialize_eq]
    decide!

/-- Witness of C33: slot 1 of the array `[7 8]` is 8. -/
theorem C33_aref_witness :
    (∀ b ∈ ([] : List Nat), b < 256)
    ∧ call_subr 0 (fun _ _ => .out_of_fuel) .subr_aref
        (list [array (list [integer 7, integer 8]), integer 1]) standard_state
      = .value (integer 8) standard_state :=
  ⟨by simp,
    (C33_aref [integer 7, integer 8] [] 1 0 (fun _ _ => .out_of_fuel) standard_state
      (by simp)).1 (by decide) (by decide)⟩

/-! ## The standard environment and the hexadecimal escape (C34, C35) -/

set_option maxRecDepth 100000 in
/-- C34 (counterexample): the table of `subr_initialize` has 65 names, not 62,
and the global list that it builds holds 65 bindings. -/
theorem C34_table_has_65_names :
    standard_bindings.length = 65
    ∧ (entry_names (cdr ( subr_initialize) ( subr_initialize).global_env)).length = 65
    ∧ (entry_names (cdr ( subr_initialize) ( subr_initialize).global_env)).length ≠ 62 := by
  rw [ subr_initialize_eq]
  decide!

set_option maxRecDepth 100000 in
/-- C34 (amended): after `subr_initialize` the lexical chain is empty and the
global list holds exactly one binding for each of the 65 names of the table,
from `nil` to `quote` (the newest first): for each such name
`binding(intern(name), 0)` returns a binding whose value is the corresponding
primitive, and `nil` is bound to `()`. -/
theorem C34_standard_environment :
    ( subr_initialize).local_env = NIL
    ∧ entry_names (cdr ( subr_initialize) ( subr_initialize).global_env)
        = (standard_bindings.map (fun b => symbol b.1)).reverse
    ∧ (standard_bindings.map Prod.fst).Nodup
    ∧ standard_bindings.length = 65
    ∧ (∀ b ∈ standard_bindings,
        binding ( subr_initialize) (symbol b.1) 0 ≠ NIL
        ∧ car (binding ( subr_initialize) (symbol b.1) 0) = symbol b.1
        ∧ cdr ( subr_initialize) (binding ( subr_initialize) (symbol b.1) 0) = b.2)
    ∧ standard_bindings.head? = some ("nil", NIL)
    ∧ standard_bindings.getLast? = some ("quote", subr .subr_quote) := by
  rw [ subr_initialize_eq]
  refine ⟨rfl, by decide!, by decide, by decide, ?_, rfl, by decide⟩
  have h : standard_bindings.all (fun b =>
      decide (binding standard_state (symbol b.1) 0 ≠ NIL)
      && decide (car (binding standard_state (symbol b.1) 0) = symbol b.1)
      && decide (cdr standard_state (binding standard_state (symbol b.1) 0) = b.2)) = true := by
    decide!
  intro b hb
  have hb2 := List.all_eq_true.mp h b hb
  simp only [Bool.and_eq_true, decide_eq_true_eq] at hb2
  exact ⟨hb2.1.1, hb2.1.2, hb2.2⟩

/-- One turn of the hexadecimal loop on a hexadecimal digit. -/
theorem hex_turn_value (v c h : Nat) (rest : List Nat) (hc : hex_value c = some h) :
    hex_turn v (c :: rest) = ((v * 16 + h) % 256, rest) ∧ h < 16 := by
  unfold hex_value at hc
  unfold hex_turn getc
  simp only
  by_cases h1 : 48 ≤ c ∧ c ≤ 57
  · rw [if_pos h1] at hc
    have e : h = c - 48 := (Option.some.inj hc).symm
    rw [if_pos (by omega)]
    have h2 : ((c : Int) - 48).toNat = h := by omega
    rw [h2]
    exact ⟨rfl, by omega⟩
  · rw [if_neg h1] at hc
    by_cases h3 : 97 ≤ c ∧ c ≤ 102
    · rw [if_pos h3] at hc
      have e : h = c - 87 := (Option.some.inj hc).symm
      rw [if_neg (by omega), if_pos (by omega)]
      have h2 : ((c : Int) - 97).toNat + 10 = h := by omega
      rw [Nat.add_assoc, h2]
      exact ⟨rfl, by omega⟩
    · rw [if_neg h3] at hc
      by_cases h4 : 65 ≤ c ∧ c ≤ 70
      · rw [if_pos h4] at hc
        have e : h = c - 55 := (Option.some.inj hc).symm
        rw [if_neg (by omega), if_neg (by omega), if_pos (by omega)]
        have h2 : ((c : Int) - 65).toNat + 10 = h := by omega
        rw [Nat.add_assoc, h2]
        exact ⟨rfl, by omega⟩
      · rw [if_neg h4] at hc
        exact Option.noConfusion hc

/-- C35: a hexadecimal escape with the two hexadecimal digits `c1` and `c2`, of
values `h1` and `h2`, yields the byte `16 * h1 + h2` whatever value `junk` the
accumulator holds before the first digit: the accumulator is an `unsigned
char`, and the two multiplications by 16 push its first content out of its 8
bits.  So the character read back from what the printer wrote for a byte does
not depend on `junk`. -/
theorem C35_hex_escape (junk junk2 : Nat) (endchar : Int) (c1 c2 h1 h2 : Nat) (rest : List Nat)
    (hend : endchar = 34 ∨ endchar = -1)
    (hc1 : hex_value c1 = some h1) (hc2 : hex_value c2 = some h2) :
    get_literal_char junk endchar (92 :: 120 :: c1 :: c2 :: rest)
        = (((16 * h1 + h2 : Nat) : Int), rest)
    ∧ 16 * h1 + h2 < 256
    ∧ (∀ b, b < 256 →
        get_literal_char junk endchar (put_literal_char b ++ rest) = ((b : Int), rest)
        ∧ get_literal_char junk endchar (put_literal_char b ++ rest)
            = get_literal_char junk2 endchar (put_literal_char b ++ rest)) := by
  have hne : (92 : Int) ≠ endchar := by rcases hend with h | h <;> omega
  obtain ⟨t1, l1⟩ := hex_turn_value (junk % 256) c1 h1 (c2 :: rest) hc1
  obtain ⟨t2, l2⟩ := hex_turn_value ((junk % 256 * 16 + h1) % 256) c2 h2 rest hc2
  refine ⟨?_, by omega, ?_⟩
  · have e : get_literal_char junk endchar (92 :: 120 :: c1 :: c2 :: rest)
        = match hex_turn (junk % 256) (c1 :: c2 :: rest) with
          | (v1, rest2) =>
            match hex_turn v1 rest2 with
            | (v2, rest3) => ((v2 : Int), rest3) := by
      simp [get_literal_char, getc, hne]
    rw [e, t1]
    simp only
    rw [t2]
    simp only
    have hv : ((junk % 256 * 16 + h1) % 256 * 16 + h2) % 256 = 16 * h1 + h2 := by omega
    rw [hv]
  · intro b hb
    rw [get_literal_char_put junk endchar b rest hb hend,
      get_literal_char_put junk2 endchar b rest hb hend]
    exact ⟨rfl, rfl⟩

/-- Witness of C35: the escape backslash `x4f` in a string is the byte 79. -/
theorem C35_hex_escape_witness :
    get_literal_char 200 34 (92 :: 120 :: 52 :: 102 :: []) = (79, []) :=
  (C35_hex_escape 200 0 34 52 102 4 15 [] (Or.inl rfl) (by decide) (by decide)).1

/-! ## The lexical chain after `eval`, and tail calls (C39, C36) -/

set_option maxRecDepth 100000 in
/-- C39 (failing input): the top-level form `((fn (x) x) 1)` in the standard
environment, whose lexical chain is empty.  The function branch of `apply`
binds `x` on the chain that the popped frame saved, the body is evaluated and
`ret` finds an empty call stack: `eval` returns without restoring
`local_env`, which still holds the binding of `x`.  The next top-level
expression `x`, unbound in the standard environment, evaluates to 1.  The same
call made as an argument, `(+ 1 ((fn (x) x) 1))`, leaves the chain empty. -/
theorem C39_toplevel_call_leaves_formals :
    ( subr_initialize).local_env = NIL
    ∧ (eval 30 (identity_call_of (integer 1)) NIL ( subr_initialize)).get = some (integer 1)
    ∧ (eval 30 (identity_call_of (integer 1)) NIL ( subr_initialize)).final.map
        (fun st => st.local_env) = some (list [cell (symbol "x") 66])
    ∧ eval 30 (symbol "x") NIL ( subr_initialize)
        = .lisp_error "reference to unbound symbol."
    ∧ (toplevel 30 [identity_call_of (integer 1), symbol "x"] ( subr_initialize)).get
        = some (integer 1)
    ∧ (eval 40 (list [symbol "+", integer 1, identity_call_of (integer 1)]) NIL
          ( subr_initialize)).final.map (fun st => st.local_env) = some NIL := by
  rw [ subr_initialize_eq]
  decide!

/-- The mutator `setcdr` does not touch the call stack. -/
theorem setcdr_callstack (st : State) (b v : lobj) :
    (setcdr st b v).callstack = st.callstack := by
  cases st
  cases b <;> rfl

/-- The function `bind` does not touch the call stack. -/
theorem bind_callstack (o v : lobj) (loc : Int) (st : State) :
    (bind o v loc st).callstack = st.callstack := by
  unfold bind
  split
  · split
    · cases st
      rfl
    · cases st
      simp only [alloc]
      exact setcdr_callstack _ _ _
  · exact setcdr_callstack _ _ _

/-- Binding the formals of a function does not touch the call stack. -/
theorem bind_formals_callstack : ∀ (formals vals : lobj) (st : State),
    (bind_formals formals vals st).callstack = st.callstack := by
  intro formals
  induction formals with
  | cons f rest _ ih =>
    intro vals st
    rw [bind_formals, ih, bind_callstack]
  | NIL => intro vals st; rfl
  | _ =>
    intro vals st
    all_goals
      simp only [bind_formals]
      exact bind_callstack _ _ _ _

set_option maxRecDepth 100000 in
/-- The evaluation of `tail_loop_definition` in the standard environment. -/
theorem tail_loop_defined :
    eval 18 tail_loop_definition NIL standard_state
      = .value (function 513 (list [symbol "l"]) tail_loop_body)
          ⟨NIL, cell NIL 0, NIL, tail_loop_cells, 0⟩ := by
  decide!

set_option maxRecDepth 100000 in
/-- The top-level call `(loop 'l)` up to the evaluation of the body: the call
stack is empty again. -/
theorem tail_loop_entry (l : lobj) (m : Nat) :
    eval (m + 10) (tail_loop_call l) NIL ⟨NIL, cell NIL 0, NIL, tail_loop_cells, 0⟩
      = eval_loop m .eval tail_loop_body NIL (tail_loop_state l NIL) := by
  rfl

set_option maxRecDepth 100000 in
/-- One tail call of `loop`: 19 steps after the body is entered with the list
`(x . rest)` it is entered with `rest`, on the same call stack, the binding of
`l` being overwritten in its cell. -/
theorem tail_loop_turn (x rest stack eb : lobj) (m : Nat) :
    eval_loop (m + 19) .eval tail_loop_body eb (tail_loop_state (cons x rest) stack)
      = eval_loop m .eval tail_loop_body eb (tail_loop_state rest stack) := by
  rfl

set_option maxRecDepth 100000 in
/-- The end of the loop, entered from the top level: the continuation taken
holds the empty call stack. -/
theorem tail_loop_exit (eb : lobj) (m : Nat) :
    eval_loop (m + 22) .eval tail_loop_body eb (tail_loop_state NIL NIL)
      = .value (continuation NIL)
          ⟨list [cell (symbol "c") 68, cell (symbol "l") 67], cell NIL 0, NIL,
            continuation NIL :: NIL :: tail_loop_cells, 0⟩ := by
  rfl

/-- A chain of tail calls, one for each element of the list, entered from the
top level. -/
theorem tail_loop_chain (eb : lobj) : ∀ (xs : List lobj) (m : Nat),
    eval_loop (m + (19 * xs.length + 22)) .eval tail_loop_body eb (tail_loop_state (list xs) NIL)
      = .value (continuation NIL)
          ⟨list [cell (symbol "c") 68, cell (symbol "l") 67], cell NIL 0, NIL,
            continuation NIL :: NIL :: tail_loop_cells, 0⟩ := by
  intro xs
  induction xs with
  | nil =>
    intro m
    exact tail_loop_exit eb m
  | cons x xs ih =>
    intro m
    have e : m + (19 * (x :: xs).length + 22) = (m + (19 * xs.length + 22)) + 19 := by
      simp only [List.length_cons]
      omega
    rw [e]
    show eval_loop _ .eval tail_loop_body eb (tail_loop_state (cons x (list xs)) NIL) = _
    rw [tail_loop_turn]
    exact ih m

/-- C36: the call stack does not grow across a tail call.  `eval` pushes one
frame when it enters a call expression; `ret` pops that frame before it goes
to `apply`; the function branch of `apply` binds the formals and goes to the
body without touching the call stack: the body is evaluated on the call stack
that was current when the call expression was entered.  So each tail call of
`(bind! 'loop (fn (l) (if l (loop (cdr l)) (call-cc (fn (c) c)))))` enters the
body again on the same call stack, and after a chain of tail calls of any
length `k` (the length of the list) the continuation taken at the end holds
the empty call stack of the top level; a continuation taken in an argument
position holds one frame. -/
theorem C36_tail_calls_keep_callstack (xs : List lobj) (fuel : Nat)
    (hfuel : 19 * xs.length + 32 ≤ fuel) :
    (toplevel fuel [tail_loop_definition, tail_loop_call (list xs)] ( subr_initialize)).get
        = some (continuation NIL)
    ∧ (∀ x rest stack eb m,
        eval_loop (m + 19) .eval tail_loop_body eb (tail_loop_state (cons x rest) stack)
          = eval_loop m .eval tail_loop_body eb (tail_loop_state rest stack))
    ∧ (∀ ev f args eb lenv genv stack cells n,
        eval_label ev (cons f args) eb ⟨lenv, genv, stack, cells, n⟩
          = .goto .eval f ⟨cons NIL lenv, genv, cons (frame NIL args lenv genv) stack, cells, n⟩)
    ∧ (∀ o p l g lenv genv stack cells n,
        ret_label o ⟨l, g, cons (frame p NIL lenv genv) stack, cells, n⟩
          = .goto .apply (if p = NIL then mk_pa (eval_pattern o) o else pa_push p o)
              ⟨lenv, genv, stack, cells, n⟩)
    ∧ (∀ k ev pat num_args formals expr vals eb st,
        ¬ (min_args num_args < (length vals : Int) ∧ !variadic num_args) →
        ¬ ((length vals : Int) < min_args num_args) →
        apply_label k ev (pa pat (function num_args formals expr) vals) eb st
            = .goto .eval expr (bind_formals formals vals st)
        ∧ (bind_formals formals vals st).callstack = st.callstack)
    ∧ (eval 30 (list [symbol "cons", current_continuation_form, NIL]) NIL
          ( subr_initialize)).get.map (fun o => length (continuation_callstack (car o)))
        = some 1 := by
  rw [ subr_initialize_eq]
  refine ⟨?_, fun x rest stack eb m => tail_loop_turn x rest stack eb m, ?_, ?_, ?_, ?_⟩
  · apply toplevel_get_mono _ hfuel
    have hdef : eval (19 * xs.length + 32) tail_loop_definition NIL standard_state
        = .value (function 513 (list [symbol "l"]) tail_loop_body)
            ⟨NIL, cell NIL 0, NIL, tail_loop_cells, 0⟩ :=
      eval_mono tail_loop_defined (fun h => Result.noConfusion h) (by omega)
    have hcall : eval (19 * xs.length + 32) (tail_loop_call (list xs)) NIL
        ⟨NIL, cell NIL 0, NIL, tail_loop_cells, 0⟩
        = .value (continuation NIL)
            ⟨list [cell (symbol "c") 68, cell (symbol "l") 67], cell NIL 0, NIL,
              continuation NIL :: NIL :: tail_loop_cells, 0⟩ := by
      have e : 19 * xs.length + 32 = (0 + (19 * xs.length + 22)) + 10 := by omega
      rw [e, tail_loop_entry]
      exact tail_loop_chain NIL xs 0
    show (match eval (19 * xs.length + 32) tail_loop_definition NIL standard_state with
      | .value _ st1 => toplevel (19 * xs.length + 32) [tail_loop_call (list xs)] st1
      | err => err).get = _
    rw [hdef]
    show (eval (19 * xs.length + 32) (tail_loop_call (list xs)) NIL _).get = _
    rw [hcall]
    rfl
  · intro ev f args eb lenv genv stack cells n
    rfl
  · intro o p l g lenv genv stack cells n
    rfl
  · intro k ev pat num_args formals expr vals eb st h1 h2
    refine ⟨?_, bind_formals_callstack _ _ _⟩
    show apply_function ev _ eb num_args formals expr vals st = _
    unfold apply_function
    rw [if_neg h1, if_neg h2]
  · decide!

/-- Witness of C36: a chain of three tail calls. -/
theorem C36_tail_calls_keep_callstack_witness :
    (toplevel 89 [tail_loop_definition, tail_loop_call (list [NIL, NIL, NIL])]
        ( subr_initialize)).get = some (continuation NIL) :=
  (C36_tail_calls_keep_callstack [NIL, NIL, NIL] 89 (by decide)).1

/-! ## Lookup after `bind`, and what `bind` leaves alone (C37, C38) -/

/-- The content of a cell after it is stored. -/
theorem load_store_same (cells : List lobj) (i : Nat) (v : lobj) (h : i < cells.length) :
    load (store cells i v) i = v := by
  unfold load store
  rw [List.length_set, List.getD_eq_getElem?_getD, List.getElem?_set_self (by omega)]
  rfl

/-- The content of the other cells after a cell is stored. -/
theorem load_store_other (cells : List lobj) (i j : Nat) (v : lobj) (hi : i < cells.length)
    (hj : j < cells.length) (hne : i ≠ j) : load (store cells i v) j = load cells j := by
  unfold load store
  rw [List.length_set, List.getD_eq_getElem?_getD, List.getD_eq_getElem?_getD,
    List.getElem?_set_ne (by omega)]

/-- The content of the cell just allocated. -/
theorem load_new (cells : List lobj) (v : lobj) : load (v :: cells) cells.length = v := by
  unfold load
  simp

/-- A call of `setcdr` on a cell of the store. -/
theorem setcdr_cell (st : State) (a v : lobj) (i : Nat) :
    setcdr st (cell a i) v
      = ⟨st.local_env, st.global_env, st.callstack, store st.cells i v, st.next_symbol⟩ := by
  cases st
  rfl

/-- An entry that is not a boundary is an allocated cell. -/
theorem entry_ok_cell {n : Nat} {b : lobj} (h : entry_ok n b = true) (hne : b ≠ NIL) :
    ∃ a i, b = cell a i ∧ i < n := by
  cases b <;> simp [entry_ok] at h
  · exact absurd rfl hne
  · exact ⟨_, _, rfl, h⟩

/-- What the scan of the global list finds is an entry of the list that binds
the name. -/
theorem binding_global_mem (o : lobj) : ∀ (l : lobj), binding_global o l ≠ NIL →
    binding_global o l ∈ entries l ∧ car (binding_global o l) = o := by
  intro l
  induction l with
  | cons b rest _ ih =>
    intro h
    rw [binding_global] at h ⊢
    by_cases hb : car b = o
    · rw [if_pos hb]
      exact ⟨List.mem_cons_self _ _, hb⟩
    · rw [if_neg hb] at h ⊢
      exact ⟨List.mem_cons_of_mem _ (ih h).1, (ih h).2⟩
  | _ => intro h; exact absurd rfl h

/-- What `binding` finds is an entry of the lexical chain or of the global
list that binds the name. -/
theorem binding_local_mem (st : State) (o : lobj) (loc : Int) : ∀ (l : lobj),
    binding_local st o loc l ≠ NIL →
    binding_local st o loc l ∈ entries l ++ entries (cdr st st.global_env)
    ∧ car (binding_local st o loc l) = o := by
  intro l
  induction l with
  | cons b rest _ ih =>
    intro h
    rw [binding_local] at h ⊢
    by_cases h1 : b = NIL ∧ loc ≠ 0
    · rw [if_pos h1] at h
      exact absurd rfl h
    · rw [if_neg h1] at h ⊢
      by_cases h2 : b ≠ NIL ∧ car b = o
      · rw [if_pos h2]
        exact ⟨List.mem_append_left _ (List.mem_cons_self _ _), h2.2⟩
      · rw [if_neg h2] at h ⊢
        obtain ⟨hm, hc⟩ := ih h
        refine ⟨?_, hc⟩
        rcases List.mem_append.mp hm with hm | hm
        · exact List.mem_append_left _ (List.mem_cons_of_mem _ hm)
        · exact List.mem_append_right _ hm
  | _ =>
    intro h
    all_goals
      simp only [binding_local] at h ⊢
      exact ⟨List.mem_append_right _ (binding_global_mem o _ h).1, (binding_global_mem o _ h).2⟩

/-- A binding that a search finds is the one that the full search finds. -/
theorem binding_local_full (st : State) (o : lobj) (loc : Int) : ∀ (l : lobj),
    binding_local st o loc l ≠ NIL → binding_local st o 0 l = binding_local st o loc l := by
  intro l
  induction l with
  | cons b rest _ ih =>
    intro h
    rw [binding_local] at h
    rw [binding_local, binding_local]
    by_cases h1 : b = NIL ∧ loc ≠ 0
    · rw [if_pos h1] at h
      exact absurd rfl h
    · rw [if_neg h1] at h
      rw [if_neg h1, if_neg (fun hh : b = NIL ∧ (0 : Int) ≠ 0 => hh.2 rfl)]
      by_cases h2 : b ≠ NIL ∧ car b = o
      · rw [if_pos h2, if_pos h2]
      · rw [if_neg h2] at h
        rw [if_neg h2, if_neg h2]
        exact ih h
  | _ => intro _; rfl

/-- The full search after a binding of the name came to the head of the global
list, when the search found nothing before. -/
theorem binding_local_prepend_found (st st' : State) (o c L : lobj)
    (hg : cdr st' st'.global_env = cons c L) (hc : car c = o) : ∀ (l : lobj),
    binding_local st o 0 l = NIL → binding_local st' o 0 l = c := by
  intro l
  induction l with
  | cons b rest _ ih =>
    intro h
    rw [binding_local] at h
    rw [binding_local]
    rw [if_neg (fun hh : b = NIL ∧ (0 : Int) ≠ 0 => hh.2 rfl)] at h ⊢
    by_cases h2 : b ≠ NIL ∧ car b = o
    · rw [if_pos h2] at h
      exact absurd h h2.1
    · rw [if_neg h2] at h ⊢
      exact ih h
  | _ =>
    intro _
    all_goals
      simp only [binding_local]
      rw [hg, binding_global, if_pos hc]

/-- The search of a name after a binding of another name came to the head of
the global list. -/
theorem binding_local_prepend_other (st st' : State) (x c : lobj) (loc : Int)
    (hg : cdr st' st'.global_env = cons c (cdr st st.global_env)) (hc : car c ≠ x) :
    ∀ (l : lobj), binding_local st' x loc l = binding_local st x loc l := by
  intro l
  induction l with
  | cons b rest _ ih => rw [binding_local, binding_local, ih]
  | _ =>
    all_goals
      simp only [binding_local]
      rw [hg, binding_global, if_neg hc]

/-- The call `bind(o, v, local)` when `binding(o, local)` finds a binding. -/
theorem bind_found (st : State) (o v : lobj) (loc : Int) (h : binding st o loc ≠ NIL) :
    bind o v loc st = setcdr st (binding st o loc) v := by
  unfold bind
  split
  · next heq => exact absurd heq h
  · rfl

/-- The call `bind(o, v, local)` with non-zero `local` when `binding(o, local)`
finds nothing. -/
theorem bind_new_local (st : State) (o v : lobj) (loc : Int) (h : binding st o loc = NIL)
    (hloc : loc ≠ 0) :
    bind o v loc st
      = ⟨cons (cell o st.cells.length) st.local_env, st.global_env, st.callstack,
          v :: st.cells, st.next_symbol⟩ := by
  unfold bind
  rw [h]
  cases st
  simp [alloc, hloc]

/-- The call `bind(o, v, 0)` when `binding(o, 0)` finds nothing. -/
theorem bind_new_global (st : State) (o v : lobj) (g : Nat) (h : binding st o 0 = NIL)
    (hg : st.global_env = cell NIL g) :
    bind o v 0 st
      = ⟨st.local_env, st.global_env, st.callstack,
          store (v :: st.cells) g (cons (cell o st.cells.length) (load (v :: st.cells) g)),
          st.next_symbol⟩ := by
  unfold bind
  rw [h]
  cases st
  simp only at hg
  subst hg
  simp [alloc, setcdr, cdr]

/-- What the separation of a state says of two entries. -/
theorem separate_entries {st : State} (h : st.separate = true) :
    ∀ b ∈ entries st.local_env ++ entries (cdr st st.global_env),
      address b ≠ address st.global_env
      ∧ ∀ c ∈ entries st.local_env ++ entries (cdr st st.global_env),
          address b = address c → b = c := by
  intro b hb
  unfold State.separate at h
  have hb2 := List.all_eq_true.mp h b hb
  simp only [Bool.and_eq_true, decide_eq_true_eq] at hb2
  refine ⟨hb2.1, ?_⟩
  intro c hc
  have hc2 := List.all_eq_true.mp hb2.2 c hc
  simp only [decide_eq_true_eq] at hc2
  exact hc2

/-- What the well-formedness of a state says: the head cell, the lexical chain
and the global list. -/
theorem wf_parts {st : State} (h : st.wf = true) :
    (∃ g, st.global_env = cell NIL g ∧ g < st.cells.length)
    ∧ entries_ok st.cells.length st.local_env = true
    ∧ entries_ok st.cells.length (cdr st st.global_env) = true := by
  refine ⟨wf_global_env h, ?_⟩
  simp only [State.wf, Bool.and_eq_true] at h
  exact ⟨h.1.2, h.2⟩

/-- C37: in every well-formed state (whose binding cells are cells of memory
apart from the head of the global list), for every name `o`, every value `v`
and either value of `local`, after `bind(o, v, local)` the full lookup
`binding(o, 0)` returns a binding cell of `o` whose value is `v`. -/
theorem C37_lookup_after_bind (st : State) (o v : lobj) (loc : Int) (hwf : st.wf = true)
    (hsep : st.separate = true) :
    binding (bind o v loc st) o 0 ≠ NIL
    ∧ car (binding (bind o v loc st) o 0) = o
    ∧ cdr (bind o v loc st) (binding (bind o v loc st) o 0) = v := by
  obtain ⟨⟨g, hge, hglt⟩, hl, hgl⟩ := wf_parts hwf
  by_cases hb : binding st o loc = NIL
  · by_cases hloc : loc = 0
    · subst hloc
      rw [bind_new_global st o v g hb hge]
      have hne : g ≠ st.cells.length := by omega
      have hcells : cdr ⟨st.local_env, st.global_env, st.callstack,
          store (v :: st.cells) g (cons (cell o st.cells.length) (load (v :: st.cells) g)),
          st.next_symbol⟩ st.global_env
          = cons (cell o st.cells.length) (load (v :: st.cells) g) := by
        rw [hge]
        exact load_store_same _ _ _ (by simp only [List.length_cons]; omega)
      have hfind := binding_local_prepend_found st _ o _ _ hcells rfl st.local_env hb
      simp only [binding]
      rw [hfind]
      refine ⟨fun h => lobj.noConfusion h, rfl, ?_⟩
      simp only [cdr]
      rw [load_store_other _ _ _ _ (by simp only [List.length_cons]; omega)
        (by simp only [List.length_cons]; omega) hne]
      exact load_new _ _
    · rw [bind_new_local st o v loc hb hloc]
      have hfind : binding ⟨cons (cell o st.cells.length) st.local_env, st.global_env,
          st.callstack, v :: st.cells, st.next_symbol⟩ o 0 = cell o st.cells.length := by
        simp [binding, binding_local, car]
      rw [hfind]
      exact ⟨fun h => lobj.noConfusion h, rfl, load_new _ _⟩
  · obtain ⟨hmem, hcar⟩ := binding_local_mem st o loc st.local_env hb
    obtain ⟨a, i, hcell, hi⟩ := entry_ok_cell (binding_local_ok st _ o loc hgl _ hl) hb
    have hig : i ≠ g := by
      have := (separate_entries hsep _ hmem).1
      rw [hcell, hge] at this
      intro e
      exact this (by rw [e]; rfl)
    rw [bind_found st o v loc hb]
    have hcell2 : binding st o loc = cell a i := hcell
    rw [hcell2, setcdr_cell]
    have hglob : cdr ⟨st.local_env, st.global_env, st.callstack, store st.cells i v,
        st.next_symbol⟩ st.global_env = cdr st st.global_env := by
      rw [hge]
      exact load_store_other _ _ _ _ hi hglt hig
    have hfind : binding ⟨st.local_env, st.global_env, st.callstack, store st.cells i v,
        st.next_symbol⟩ o 0 = cell a i := by
      simp only [binding]
      rw [binding_local_congr st _ o 0 hglob, binding_local_full st o loc _ hb]
      exact hcell
    rw [hfind]
    refine ⟨fun h => lobj.noConfusion h, ?_, load_store_same _ _ _ hi⟩
    rw [← hcell]
    exact hcar

/-- Witness of C37: with the lexical chain `((x . 7) NIL (y . 5))` and the
global list `((y . 3))`, after `bind(y, 9, 1)` the lookup of `y` gives 9. -/
theorem C37_lookup_after_bind_witness :
    cdr (bind (symbol "y") (integer 9) 1
          ⟨list [cell (symbol "x") 3, NIL, cell (symbol "y") 2], cell NIL 0, NIL,
            [integer 7, integer 5, integer 3, list [cell (symbol "y") 1]], 0⟩)
        (binding (bind (symbol "y") (integer 9) 1
          ⟨list [cell (symbol "x") 3, NIL, cell (symbol "y") 2], cell NIL 0, NIL,
            [integer 7, integer 5, integer 3, list [cell (symbol "y") 1]], 0⟩) (symbol "y") 0)
      = integer 9 :=
  (C37_lookup_after_bind _ (symbol "y") (integer 9) 1 (by decide) (by decide)).2.2

/-- The value of an entry whose cell is not the one stored. -/
theorem cdr_store_other (st : State) (c : lobj) (i : Nat) (v : lobj) (hi : i < st.cells.length)
    (hc : entry_ok st.cells.length c = true) (hne : address c ≠ some i) :
    cdr ⟨st.local_env, st.global_env, st.callstack, store st.cells i v, st.next_symbol⟩ c
      = cdr st c := by
  cases c <;> simp [entry_ok] at hc
  · rfl
  · next a j =>
    simp only [cdr]
    apply load_store_other _ _ _ _ hi hc
    intro e
    exact hne (by rw [e]; rfl)

/-- C38: in every well-formed state (whose binding cells are cells of memory
apart from the head of the global list), for all names `o` and `x` with `x`
different from `o`, every value `v` and either value of `local`,
`binding(x, 0)` returns after `bind(o, v, local)` the cell it returned before
(or `()` as before), holding the same value; `global_env` is the same cell,
and the lexical chain and the global list are what they were, or what they
were behind one new binding of `o`. -/
theorem C38_bind_changes_one_name (st : State) (o x v : lobj) (loc : Int) (hwf : st.wf = true)
    (hsep : st.separate = true) (hx : x ≠ o) :
    binding (bind o v loc st) x 0 = binding st x 0
    ∧ cdr (bind o v loc st) (binding st x 0) = cdr st (binding st x 0)
    ∧ (bind o v loc st).global_env = st.global_env
    ∧ ((bind o v loc st).local_env = st.local_env
      ∨ (bind o v loc st).local_env = cons (cell o st.cells.length) st.local_env)
    ∧ (cdr (bind o v loc st) (bind o v loc st).global_env = cdr st st.global_env
      ∨ cdr (bind o v loc st) (bind o v loc st).global_env
          = cons (cell o st.cells.length) (cdr st st.global_env)) := by
  obtain ⟨⟨g, hge, hglt⟩, hl, hgl⟩ := wf_parts hwf
  have hxok : entry_ok st.cells.length (binding st x 0) = true :=
    binding_local_ok st _ x 0 hgl _ hl
  have hxg : address (binding st x 0) ≠ some g := by
    by_cases hnil : binding st x 0 = NIL
    · rw [hnil]
      exact fun h => Option.noConfusion h
    · have := (separate_entries hsep _ (binding_local_mem st x 0 st.local_env hnil).1).1
      rw [hge] at this
      exact this
  have hload : load (v :: st.cells) g = cdr st st.global_env := by
    rw [hge]
    exact load_cons _ _ _ hglt
  by_cases hb : binding st o loc = NIL
  · by_cases hloc : loc = 0
    · subst hloc
      rw [bind_new_global st o v g hb hge, hload]
      have hcells : cdr ⟨st.local_env, st.global_env, st.callstack,
          store (v :: st.cells) g (cons (cell o st.cells.length) (cdr st st.global_env)),
          st.next_symbol⟩ st.global_env
          = cons (cell o st.cells.length) (cdr st st.global_env) := by
        rw [hge]
        exact load_store_same _ _ _ (by simp only [List.length_cons]; omega)
      refine ⟨?_, ?_, rfl, Or.inl rfl, Or.inr hcells⟩
      · simp only [binding]
        exact binding_local_prepend_other st _ x _ 0 hcells (fun h => hx h.symm) _
      · have h1 := cdr_store_other
          ⟨st.local_env, st.global_env, st.callstack, v :: st.cells, st.next_symbol⟩
          (binding st x 0) g (cons (cell o st.cells.length) (cdr st st.global_env))
          (by simp only [List.length_cons]; omega)
          (by
            cases hc : binding st x 0 <;> rw [hc] at hxok <;> simp [entry_ok] at hxok ⊢
            omega)
          hxg
        rw [h1]
        exact entry_ok_cdr st v _ hxok
    · rw [bind_new_local st o v loc hb hloc]
      have hglob : cdr ⟨cons (cell o st.cells.length) st.local_env, st.global_env,
          st.callstack, v :: st.cells, st.next_symbol⟩ st.global_env = cdr st st.global_env := by
        rw [hge]
        exact load_cons _ _ _ hglt
      refine ⟨?_, ?_, rfl, Or.inr rfl, Or.inl hglob⟩
      · simp only [binding]
        rw [binding_local, if_neg (fun hh => hh.2 rfl),
          if_neg (fun hh : cell o st.cells.length ≠ NIL ∧ car (cell o st.cells.length) = x =>
            hx hh.2.symm)]
        exact binding_local_congr st _ x 0 hglob _
      · exact entry_ok_cdr st v _ hxok
  · obtain ⟨hmem, hcar⟩ := binding_local_mem st o loc st.local_env hb
    obtain ⟨a, i, hcell, hi⟩ := entry_ok_cell (binding_local_ok st _ o loc hgl _ hl) hb
    have hsepb := separate_entries hsep _ hmem
    have hig : i ≠ g := by
      have := hsepb.1
      rw [hcell, hge] at this
      intro e
      exact this (by rw [e]; rfl)
    rw [bind_found st o v loc hb]
    have hcell2 : binding st o loc = cell a i := hcell
    rw [hcell2, setcdr_cell]
    have hglob : cdr ⟨st.local_env, st.global_env, st.callstack, store st.cells i v,
        st.next_symbol⟩ st.global_env = cdr st st.global_env := by
      rw [hge]
      exact load_store_other _ _ _ _ hi hglt hig
    refine ⟨?_, ?_, rfl, Or.inl rfl, Or.inl hglob⟩
    · simp only [binding]
      exact binding_local_congr st _ x 0 hglob _
    · apply cdr_store_other st _ i v hi hxok
      intro hadr
      by_cases hnil : binding st x 0 = NIL
      · rw [hnil] at hadr
        exact Option.noConfusion hadr
      · obtain ⟨hmemx, hcarx⟩ := binding_local_mem st x 0 st.local_env hnil
        have heq := hsepb.2 _ hmemx (by rw [hcell]; exact hadr.symm)
        apply hx
        rw [← hcarx, ← hcar]
        show car (binding_local st x 0 st.local_env) = car (binding_local st o loc st.local_env)
        rw [← heq]

/-- Witness of C38: with the lexical chain `((x . 7) NIL (y . 5))` and the
global list `((y . 3))`, `bind(y, 9, 1)` leaves the lookup of `x` as it was. -/
theorem C38_bind_changes_one_name_witness :
    binding (bind (symbol "y") (integer 9) 1
        ⟨list [cell (symbol "x") 3, NIL, cell (symbol "y") 2], cell NIL 0, NIL,
          [integer 7, integer 5, integer 3, list [cell (symbol "y") 1]], 0⟩) (symbol "x") 0
      = binding ⟨list [cell (symbol "x") 3, NIL, cell (symbol "y") 2], cell NIL 0, NIL,
          [integer 7, integer 5, integer 3, list [cell (symbol "y") 1]], 0⟩ (symbol "x") 0 :=
  (C38_bind_changes_one_name _ (symbol "y") (symbol "x") (integer 9) 1 (by decide) (by decide)
    (by decide)).1

/-! ## The states that `bind` and `env_boundary` build -/

/-- The separation of a state, entry by entry. -/
theorem separate_iff (st : State) :
    st.separate = true ↔
      ∀ b ∈ entries st.local_env ++ entries (cdr st st.global_env),
        address b ≠ address st.global_env
        ∧ ∀ c ∈ entries st.local_env ++ entries (cdr st st.global_env),
            address b = address c → b = c := by
  constructor
  · exact fun h => separate_entries h
  · intro h
    unfold State.separate
    apply List.all_eq_true.mpr
    intro b hb
    simp only [Bool.and_eq_true, decide_eq_true_eq]
    refine ⟨(h b hb).1, ?_⟩
    apply List.all_eq_true.mpr
    intro c hc
    simp only [decide_eq_true_eq]
    exact (h b hb).2 c hc

/-- A list of entries of a store is a list of entries of a larger store. -/
theorem entries_ok_mono {n m : Nat} (hnm : n ≤ m) : ∀ (l : lobj), entries_ok n l = true →
    entries_ok m l = true := by
  intro l
  induction l with
  | cons b rest _ ih =>
    intro h
    simp only [entries_ok, Bool.and_eq_true] at h ⊢
    refine ⟨?_, ih h.2⟩
    cases b <;> simp [entry_ok] at h ⊢
    omega
  | _ => intro _; rfl

/-- The entries of a list of entries of a store are boundaries or allocated
cells. -/
theorem entries_ok_mem {n : Nat} : ∀ (l : lobj), entries_ok n l = true →
    ∀ b ∈ entries l, entry_ok n b = true := by
  intro l
  induction l with
  | cons a rest _ ih =>
    intro h b hb
    simp only [entries_ok, Bool.and_eq_true] at h
    simp only [entries, List.mem_cons] at hb
    rcases hb with hb | hb
    · rw [hb]; exact h.1
    · exact ih h.2 b hb
  | _ => intro _ b hb; simp [entries] at hb

/-- The address of an entry of a store: none for a boundary, below the size of
the store for a cell. -/
theorem entry_ok_address {n : Nat} {b : lobj} (h : entry_ok n b = true) :
    (b = NIL ∧ address b = none) ∨ ∃ a i, b = cell a i ∧ i < n := by
  cases b <;> simp [entry_ok] at h
  · exact Or.inl ⟨rfl, rfl⟩
  · exact Or.inr ⟨_, _, rfl, h⟩

/-- A state with one more entry, a new cell or a boundary, in front of the
lexical chain or of the global list, and the same head cell, is well formed
and separate when the state without it is. -/
theorem wf_separate_extend (st st' : State) (c : lobj) (g : Nat)
    (hwf : st.wf = true) (hsep : st.separate = true)
    (hge : st.global_env = cell NIL g) (hge' : st'.global_env = cell NIL g)
    (hlen : st.cells.length ≤ st'.cells.length)
    (hc : c = NIL ∨ ∃ a, c = cell a st.cells.length ∧ st.cells.length < st'.cells.length)
    (hent : (st'.local_env = cons c st.local_env
              ∧ cdr st' st'.global_env = cdr st st.global_env)
            ∨ (st'.local_env = st.local_env
              ∧ cdr st' st'.global_env = cons c (cdr st st.global_env))) :
    st'.wf = true ∧ st'.separate = true := by
  obtain ⟨⟨g0, hge0, hglt⟩, hl, hgl⟩ := wf_parts hwf
  have hgg : g0 = g := by
    rw [hge] at hge0
    injection hge0 with _ h
    exact h.symm
  subst hgg
  have hcok : entry_ok st'.cells.length c = true := by
    rcases hc with hc | ⟨a, hc, hlt⟩
    · rw [hc]; rfl
    · rw [hc]; simpa [entry_ok] using hlt
  have hmem : ∀ b, b ∈ entries st'.local_env ++ entries (cdr st' st'.global_env) ↔
      b = c ∨ b ∈ entries st.local_env ++ entries (cdr st st.global_env) := by
    intro b
    rcases hent with ⟨h1, h2⟩ | ⟨h1, h2⟩
    · rw [h1, h2]
      simp only [entries, List.cons_append, List.mem_cons]
    · rw [h1, h2]
      simp only [entries, List.mem_append, List.mem_cons]
      tauto
  have hold : ∀ b ∈ entries st.local_env ++ entries (cdr st st.global_env),
      entry_ok st.cells.length b = true := by
    intro b hb
    rcases List.mem_append.mp hb with hb | hb
    · exact entries_ok_mem _ hl b hb
    · exact entries_ok_mem _ hgl b hb
  have hcnew : ∀ b ∈ entries st.local_env ++ entries (cdr st st.global_env),
      address c = address b → c = b := by
    intro b hb hadr
    rcases hc with hc | ⟨a, hc, _⟩
    · rcases entry_ok_address (hold b hb) with ⟨hb1, _⟩ | ⟨a2, i, hb1, _⟩
      · rw [hc, hb1]
      · rw [hc, hb1] at hadr
        exact Option.noConfusion hadr
    · rcases entry_ok_address (hold b hb) with ⟨hb1, _⟩ | ⟨a2, i, hb1, hi⟩
      · rw [hc, hb1] at hadr
        exact Option.noConfusion hadr
      · rw [hc, hb1] at hadr
        simp only [address, Option.some.injEq] at hadr
        omega
  constructor
  · simp only [State.wf, Bool.and_eq_true, hge', decide_eq_true_eq]
    refine ⟨⟨by omega, ?_⟩, ?_⟩
    · rcases hent with ⟨h1, _⟩ | ⟨h1, _⟩
      · rw [h1]
        simp only [entries_ok, Bool.and_eq_true]
        exact ⟨hcok, entries_ok_mono hlen _ hl⟩
      · rw [h1]
        exact entries_ok_mono hlen _ hl
    · have hgl' : entries_ok st'.cells.length (cdr st' st'.global_env) = true := by
        rcases hent with ⟨_, h2⟩ | ⟨_, h2⟩
        · rw [h2]
          exact entries_ok_mono hlen _ hgl
        · rw [h2]
          simp only [entries_ok, Bool.and_eq_true]
          exact ⟨hcok, entries_ok_mono hlen _ hgl⟩
      rw [hge'] at hgl'
      exact hgl'
  · apply (separate_iff st').mpr
    intro b hb
    have hcg : address c ≠ address st'.global_env := by
      rw [hge']
      rcases hc with hc | ⟨a, hc, _⟩
      · rw [hc]
        exact fun h => Option.noConfusion h
      · rw [hc]
        simp only [address, ne_eq, Option.some.injEq]
        omega
    rcases (hmem b).mp hb with hb1 | hb1
    · rw [hb1]
      refine ⟨hcg, ?_⟩
      intro d hd hadr
      rcases (hmem d).mp hd with hd1 | hd1
      · exact hd1.symm
      · exact hcnew d hd1 hadr
    · have hs := separate_entries hsep b hb1
      refine ⟨by rw [hge']; rw [hge] at hs; exact hs.1, ?_⟩
      intro d hd hadr
      rcases (hmem d).mp hd with hd1 | hd1
      · rw [hd1] at hadr ⊢
        exact (hcnew b hb1 hadr.symm).symm
      · exact hs.2 d hd1 hadr

/-- The function `env_boundary` keeps a state well formed and separate. -/
theorem wf_separate_boundary (st : State) (hwf : st.wf = true) (hsep : st.separate = true) :
    (env_boundary st).wf = true ∧ (env_boundary st).separate = true := by
  obtain ⟨g, hge, _⟩ := wf_global_env hwf
  cases st with
  | mk lenv genv stack cells n =>
    exact wf_separate_extend ⟨lenv, genv, stack, cells, n⟩ _ NIL g hwf hsep hge hge
      (Nat.le_refl _) (Or.inl rfl) (Or.inl ⟨rfl, rfl⟩)

/-- The function `bind` keeps a state well formed and separate: the states built
from the standard environment by `bind` and `env_boundary` are so. -/
theorem wf_separate_bind (st : State) (o v : lobj) (loc : Int) (hwf : st.wf = true)
    (hsep : st.separate = true) :
    (bind o v loc st).wf = true ∧ (bind o v loc st).separate = true := by
  obtain ⟨⟨g, hge, hglt⟩, hl, hgl⟩ := wf_parts hwf
  by_cases hb : binding st o loc = NIL
  · by_cases hloc : loc = 0
    · subst hloc
      rw [bind_new_global st o v g hb hge]
      refine wf_separate_extend st _ (cell o st.cells.length) g hwf hsep hge (by exact hge) ?_ ?_ ?_
      · simp only [store, List.length_set, List.length_cons]
        omega
      · right
        exact ⟨o, rfl, by simp only [store, List.length_set, List.length_cons]; omega⟩
      · right
        refine ⟨rfl, ?_⟩
        simp only
        rw [hge]
        simp only [cdr]
        rw [load_store_same _ _ _ (by simp only [List.length_cons]; omega),
          load_cons _ _ _ hglt]
    · rw [bind_new_local st o v loc hb hloc]
      refine wf_separate_extend st _ (cell o st.cells.length) g hwf hsep hge (by exact hge) ?_ ?_ ?_
      · simp only [List.length_cons]
        omega
      · right
        exact ⟨o, rfl, by simp only [List.length_cons]; omega⟩
      · left
        refine ⟨rfl, ?_⟩
        simp only
        rw [hge]
        exact load_cons _ _ _ hglt
  · obtain ⟨hmem, _⟩ := binding_local_mem st o loc st.local_env hb
    obtain ⟨a, i, hcell, hi⟩ := entry_ok_cell (binding_local_ok st _ o loc hgl _ hl) hb
    have hig : i ≠ g := by
      have := (separate_entries hsep _ hmem).1
      rw [hcell, hge] at this
      intro e
      exact this (by rw [e]; rfl)
    have hcell2 : binding st o loc = cell a i := hcell
    rw [bind_found st o v loc hb, hcell2, setcdr_cell]
    have hglob : cdr ⟨st.local_env, st.global_env, st.callstack, store st.cells i v,
        st.next_symbol⟩ st.global_env = cdr st st.global_env := by
      rw [hge]
      exact load_store_other _ _ _ _ hi hglt hig
    constructor
    · simp only [State.wf, Bool.and_eq_true] at hwf ⊢
      simp only [hglob]
      simp only [store, List.length_set]
      exact hwf
    · apply (separate_iff _).mpr
      simp only [hglob]
      exact separate_entries hsep

set_option maxRecDepth 100000 in
/-- The standard environment is well formed and separate. -/
theorem wf_separate_standard :
    ( subr_initialize).wf = true ∧ ( subr_initialize).separate = true := by
  rw [ subr_initialize_eq]
  decide!

/-! ## Closures and the global list (C40) -/

/-- The primitive `subr_closure` written out: the closure holds the lexical
chain and a new head cell, allocated at the next address, whose `cdr` is the
global list of the moment. -/
theorem subr_closure_eq (st : State) (f : lobj) :
    subr_closure (list [f]) st
      = .value (lobj.closure f st.local_env (cell NIL st.cells.length))
          ⟨st.local_env, st.global_env, st.callstack, cdr st st.global_env :: st.cells,
            st.next_symbol⟩ := by
  cases st
  rfl

set_option maxRecDepth 100000 in
/-- C40: a closure sees a snapshot of the global list taken when it was
created.  In a well-formed state `st`, let `(closure f)` give the closure of
`fn`, `lenv` and `genv` and leave the state `st1`.  A name `o` that is unbound
at that moment and is then bound by `bind(o, v, 0)` is found by `binding` in
the current environment, but not while the environment is the one of the
closure; a name that is bound at that moment and is then given the value `v`
by `bind(o, v, 0)` is found in the environment of the closure in the same
cell, with the value `v`.  So `(f)` fails on `y` when `y` is first bound after
`f` was made by `(closure (fn () y))`, and gives the new value of `y` when
`y` was bound before. -/
theorem C40_closure_global_snapshot (st st1 : State) (f fn lenv genv o v : lobj)
    (hwf : st.wf = true)
    (hclo : subr_closure (list [f]) st = .value (lobj.closure fn lenv genv) st1) :
    fn = f ∧ lenv = st.local_env
    ∧ cdr st1 genv = cdr st st.global_env
    ∧ (binding st o 0 = NIL →
        binding (bind o v 0 st1) o 0 ≠ NIL
        ∧ binding (set_env (bind o v 0 st1) lenv genv) o 0 = NIL)
    ∧ (binding st o 0 ≠ NIL →
        binding (set_env (bind o v 0 st1) lenv genv) o 0 = binding st o 0
        ∧ cdr (set_env (bind o v 0 st1) lenv genv) (binding st o 0) = v)
    ∧ toplevel 40 [closure_y_definition, bind_y_form 1, list [symbol "f"]] ( subr_initialize)
        = .lisp_error "reference to unbound symbol."
    ∧ (toplevel 40 [closure_y_definition, bind_y_form 1, symbol "y"] ( subr_initialize)).get
        = some (integer 1)
    ∧ (toplevel 40 [bind_y_form 0, closure_y_definition, bind_y_form 1, list [symbol "f"]]
          ( subr_initialize)).get = some (integer 1) := by
  obtain ⟨⟨g, hge, hglt⟩, hl, hgl⟩ := wf_parts hwf
  rw [subr_closure_eq] at hclo
  injection hclo with hval hst
  injection hval with h1 h2 h3
  subst h1 h2 h3 hst
  have hL : load (cdr st st.global_env :: st.cells) g = cdr st st.global_env := by
    rw [hge]
    exact load_cons _ _ _ hglt
  have hg1 : cdr ⟨st.local_env, st.global_env, st.callstack,
      cdr st st.global_env :: st.cells, st.next_symbol⟩ st.global_env
      = cdr st st.global_env := by
    rw [hge]
    exact load_cons _ _ _ hglt
  have hb1 : binding ⟨st.local_env, st.global_env, st.callstack,
      cdr st st.global_env :: st.cells, st.next_symbol⟩ o 0 = binding st o 0 :=
    binding_local_congr st _ o 0 hg1 _
  refine ⟨rfl, rfl, load_new _ _, ?_, ?_, ?_, ?_, ?_⟩
  · intro hb
    rw [bind_new_global _ o v g (hb1.trans hb) hge]
    constructor
    · have hcells : cdr ⟨st.local_env, st.global_env, st.callstack,
          store (v :: cdr st st.global_env :: st.cells) g
            (cons (cell o (cdr st st.global_env :: st.cells).length)
              (load (v :: cdr st st.global_env :: st.cells) g)),
          st.next_symbol⟩ st.global_env
          = cons (cell o (cdr st st.global_env :: st.cells).length)
              (load (v :: cdr st st.global_env :: st.cells) g) := by
        rw [hge]
        exact load_store_same _ _ _ (by simp only [List.length_cons]; omega)
      have hfind := binding_local_prepend_found st _ o _ _ hcells rfl st.local_env hb
      simp only [binding]
      rw [hfind]
      exact fun h => lobj.noConfusion h
    · simp only [set_env, binding]
      rw [← hb]
      apply binding_local_congr st _ o 0
      simp only [cdr]
      rw [load_store_other _ _ _ _ (by simp only [List.length_cons]; omega)
        (by simp only [List.length_cons]; omega) (by omega),
        load_cons _ _ _ (by simp only [List.length_cons]; omega)]
      exact load_new _ _
  · intro hb
    obtain ⟨a, i, hcell, hi⟩ := entry_ok_cell (binding_local_ok st _ o 0 hgl _ hl) hb
    have hcell2 : binding st o 0 = cell a i := hcell
    rw [bind_found _ o v 0 (by rw [hb1]; exact hb), hb1, hcell2, setcdr_cell]
    constructor
    · simp only [set_env, binding]
      rw [← hcell]
      apply binding_local_congr st _ o 0
      simp only [cdr]
      rw [load_store_other _ _ _ _ (by simp only [List.length_cons]; omega)
        (by simp only [List.length_cons]; omega) (by omega)]
      exact load_new _ _
    · simp only [set_env, cdr]
      exact load_store_same _ _ _ (by simp only [List.length_cons]; omega)
  · rw [ subr_initialize_eq]
    decide!
  · rw [ subr_initialize_eq]
    decide!
  · rw [ subr_initialize_eq]
    decide!

/-- Witness of C40: the closure of `+` made in the standard environment. -/
theorem C40_closure_global_snapshot_witness :
    standard_state.wf = true
    ∧ cdr ⟨NIL, cell NIL 0, NIL, cdr standard_state (cell NIL 0) :: standard_cells, 0⟩
        (cell NIL 66) = cdr standard_state standard_state.global_env :=
  ⟨by decide!,
    (C40_closure_global_snapshot standard_state
      ⟨NIL, cell NIL 0, NIL, cdr standard_state (cell NIL 0) :: standard_cells, 0⟩
      (symbol "+") (symbol "+") NIL (cell NIL 66) (symbol "y") (integer 1) (by decide!)
      rfl).2.2.1⟩

end Philisp
